import Mathlib

/-!
# go_gpg_viewer: a shallow embedding of the store indexer and the entry workflow

The development follows the two Go sources that carry the logic of the program:

* `scanpassstore/scan.go`: `scanDirectory`, `ScanPasswordStore`,
  `processSubdirectories`, `findFilePath`;
* `main.go`: `decryptAndEditFile` (the decrypt protocol, the output filter, the
  recipient detection and the save handler).

Go strings are byte sequences, so a string is a list of byte values.  The file
system is a finitely deep tree whose nodes are the results of `os.ReadDir`; the
user and the `gpg` subprocess are an environment that supplies their answers.
Paths are those of a host whose separator is `/`; the scan is also given for a
host with another separator, through the `filepath.Join` of that host.
-/

namespace GoGpgViewer

/-! ## Go strings and the library functions the sources call -/

/-- A Go `string`: an immutable sequence of bytes. -/
abbrev GoString := List Nat

/-- UTF-8 encoding of one code point. -/
def utf8Bytes (c : Nat) : List Nat :=
  if c < 0x80 then [c]
  else if c < 0x800 then [0xC0 + c / 64, 0x80 + c % 64]
  else if c < 0x10000 then [0xE0 + c / 4096, 0x80 + (c / 64) % 64, 0x80 + c % 64]
  else [0xF0 + c / 262144, 0x80 + (c / 4096) % 64, 0x80 + (c / 64) % 64, 0x80 + c % 64]

/-- The bytes of a string literal of the source. -/
def B (s : String) : GoString := s.toList.flatMap (fun c => utf8Bytes c.toNat)

/-- Go `strings.HasPrefix`. -/
def HasPrefix (s pre : GoString) : Bool := pre.isPrefixOf s

/-- Go `strings.HasSuffix`. -/
def HasSuffix (s suffix : GoString) : Bool := suffix.isSuffixOf s

/-- Go `strings.TrimSuffix`: `s` without the trailing `suffix`, or `s` itself. -/
def TrimSuffix (s suffix : GoString) : GoString :=
  if HasSuffix s suffix then s.take (s.length - suffix.length) else s

/-- Go `strings.Contains`: `substr` occurs at some position of `s`. -/
def Contains : GoString → GoString → Bool
  | [], substr => substr.isPrefixOf []
  | c :: cs, substr => substr.isPrefixOf (c :: cs) || Contains cs substr

/-- The scanning loop of Go `strings.Split` for a non-empty separator: `skip` counts the
bytes of a separator just matched that are still to be passed over, `cur` is the piece
being collected. -/
def splitAux (sep : GoString) : GoString → Nat → GoString → List GoString
  | [], _, cur => [cur]
  | _ :: cs, skip + 1, cur => splitAux sep cs skip cur
  | c :: cs, 0, cur =>
    if sep.isPrefixOf (c :: cs) then cur :: splitAux sep cs (sep.length - 1) []
    else splitAux sep cs 0 (cur ++ [c])

/-- Go `strings.Split(s, sep)` for the non-empty separators the sources use. -/
def Split (s sep : GoString) : List GoString := splitAux sep s 0 []

/-- Go `strings.Join(elems, sep)`. -/
def Join (elems : List GoString) (sep : GoString) : GoString := sep.intercalate elems

/-- The UTF-8 encodings of the code points for which Go `unicode.IsSpace` holds. -/
def spaceSeqs : List GoString :=
  [[0x09], [0x0A], [0x0B], [0x0C], [0x0D], [0x20], [0xC2, 0x85], [0xC2, 0xA0],
   [0xE1, 0x9A, 0x80],
   [0xE2, 0x80, 0x80], [0xE2, 0x80, 0x81], [0xE2, 0x80, 0x82], [0xE2, 0x80, 0x83],
   [0xE2, 0x80, 0x84], [0xE2, 0x80, 0x85], [0xE2, 0x80, 0x86], [0xE2, 0x80, 0x87],
   [0xE2, 0x80, 0x88], [0xE2, 0x80, 0x89], [0xE2, 0x80, 0x8A],
   [0xE2, 0x80, 0xA8], [0xE2, 0x80, 0xA9], [0xE2, 0x80, 0xAF], [0xE2, 0x81, 0x9F],
   [0xE3, 0x80, 0x80]]

/-- Length of the white-space rune that starts `s`, or `0` when there is none. -/
def leadingSpace (s : GoString) : Nat :=
  match spaceSeqs.find? (fun q => q.isPrefixOf s) with
  | some q => q.length
  | none => 0

/-- Length of the white-space rune that ends the string whose reversal is `r`. -/
def trailingSpace (r : GoString) : Nat :=
  match spaceSeqs.find? (fun q => q.reverse.isPrefixOf r) with
  | some q => q.length
  | none => 0

/-- Go `strings.TrimLeftFunc(s, unicode.IsSpace)`; `fuel` bounds the number of runes. -/
def trimLeftSpace : Nat → GoString → GoString
  | 0, s => s
  | fuel + 1, s => if leadingSpace s = 0 then s else trimLeftSpace fuel (s.drop (leadingSpace s))

/-- The same from the right end, on the reversed string. -/
def trimRightSpaceRev : Nat → GoString → GoString
  | 0, r => r
  | fuel + 1, r =>
    if trailingSpace r = 0 then r else trimRightSpaceRev fuel (r.drop (trailingSpace r))

/-- Go `strings.TrimSpace`: leading and trailing Unicode white space removed. -/
def TrimSpace (s : GoString) : GoString :=
  let l := trimLeftSpace s.length s
  (trimRightSpaceRev l.length l.reverse).reverse

/-! ### `path/filepath` on a host whose separator is `/` -/

/-- The path separator byte. -/
def Separator : Nat := 47

/-- The path element `.`. -/
def dot : GoString := [46]

/-- The path element `..`. -/
def dotdot : GoString := [46, 46]

/-- The elements of a path: the pieces between separator bytes. -/
def pathElems : GoString → List GoString
  | [] => [[]]
  | c :: cs =>
    if c = Separator then [] :: pathElems cs
    else
      match pathElems cs with
      | [] => [[c]]
      | e :: es => (c :: e) :: es

/-- One element of the input of `filepath.Clean`, applied to the elements written so far:
empty and `.` elements vanish, `..` removes the preceding real element when there is one,
is dropped at the root, and is kept otherwise. -/
def cleanStep (rooted : Bool) (out : List GoString) (elem : GoString) : List GoString :=
  if elem = [] ∨ elem = dot then out
  else if elem = dotdot then
    match out.getLast? with
    | some e => if e = dotdot then out ++ [dotdot] else out.dropLast
    | none => if rooted then out else out ++ [dotdot]
  else out ++ [elem]

/-- The path starts at the root. -/
def isRooted (path : GoString) : Bool := decide (path.head? = some Separator)

/-- The elements that `filepath.Clean` keeps of a path, in order. -/
def cleanElems (path : GoString) : List GoString :=
  (pathElems path).foldl (cleanStep (isRooted path)) []

/-- The path written from its elements, with the leading separator of a rooted path. -/
def renderPath (rooted : Bool) (out : List GoString) : GoString :=
  (if rooted then [Separator] else []) ++ [Separator].intercalate out

/-- Go `filepath.Clean`: the shortest path equivalent to `path` by purely lexical
processing; the empty result is written `.`. -/
def Clean (path : GoString) : GoString :=
  if path = [] then dot
  else
    let s := renderPath (isRooted path) (cleanElems path)
    if s = [] then dot else s

/-- Go `filepath.Join`: the elements from the first non-empty one on, separated and cleaned. -/
def filepathJoin (elem : List GoString) : GoString :=
  match elem.dropWhile (fun e => decide (e = [])) with
  | [] => []
  | es => Clean ([Separator].intercalate es)

/-! ## `scanpassstore/scan.go` -/

/-- A Go `map[string]V`, read by key. -/
def GoMap (V : Type) : Type := GoString → Option V

/-- The map made by `make(map[string]V)`. -/
def GoMap.empty {V : Type} : GoMap V := fun _ => none

/-- The assignment `m[key] = value`. -/
def GoMap.set {V : Type} (m : GoMap V) (key : GoString) (value : V) : GoMap V :=
  fun k => if k = key then some value else m k

/-- One `os.DirEntry` of a listing: its `Name()` and `IsDir()`. -/
structure DirEntry where
  Name : GoString
  IsDir : Bool
deriving DecidableEq, Repr

/-- The file system below a path, as `os.ReadDir` shows it: either the call fails with an
error, or it returns the entries in listing order, and `sub name` is the file system
below the entry called `name`. -/
inductive FS where
  | unreadable (err : GoString)
  | listing (entries : List DirEntry) (sub : GoString → FS)

/-- The Go struct `PasswordStore`. -/
structure PasswordStore where
  RootPath : GoString
  RootFiles : List GoString
  Directories : List GoString
  DirContents : GoMap (List GoString)
  NestedDirs : GoMap (List GoString)
  AllPaths : GoMap GoString

/-- The result pair `(files, subdirs)` of `scanDirectory`. -/
abbrev ScanResult := List GoString × List GoString

/-- Body of the loop over the entries in `scanDirectory`; `scanSub name` is the result of
the recursive call for the subdirectory `name`. -/
def scanStep (scanSub : GoString → Except GoString ScanResult) (acc : ScanResult)
    (entry : DirEntry) : ScanResult :=
  if entry.IsDir then
    match scanSub entry.Name with
    | .error _ => acc
    | .ok (subdirFiles, subdirSubdirs) =>
      if subdirFiles.length > 0 ∨ subdirSubdirs.length > 0 then (acc.1, acc.2 ++ [entry.Name])
      else acc
  else if HasSuffix entry.Name (B ".gpg") then
    (acc.1 ++ [TrimSuffix entry.Name (B ".gpg")], acc.2)
  else acc

/-- Go `scanDirectory(dirPath, relativePath)`, where the third argument is what
`os.ReadDir(dirPath)` and the calls below it see. -/
def scanDirectory (dirPath relativePath : GoString) : FS → Except GoString ScanResult
  | .unreadable err => .error (B "error reading directory " ++ dirPath ++ B ": " ++ err)
  | .listing entries sub =>
    .ok (entries.foldl
      (scanStep (fun name =>
        scanDirectory (filepathJoin [dirPath, name]) (filepathJoin [relativePath, name])
          (sub name)))
      ([], []))

/-- The loop `for _, file := range files { store.AllPaths[file] = Join(dirPath, file+".gpg") }`. -/
def storePaths (store : PasswordStore) (dirPath : GoString) (files : List GoString) :
    PasswordStore :=
  files.foldl
    (fun st file =>
      { st with AllPaths := st.AllPaths.set file (filepathJoin [dirPath, file ++ B ".gpg"]) })
    store

/-- Go `(*PasswordStore).processSubdirectories(parentPath, parentRelativePath, subdirs)`;
the fourth argument is the file system below `parentPath`. -/
def processSubdirectories (store : PasswordStore) (parentPath parentRelativePath : GoString) :
    FS → List GoString → PasswordStore
  | .unreadable _, _ => store
  | .listing _ sub, subdirs =>
    subdirs.foldl
      (fun store subdir =>
        let subdirPath := filepathJoin [parentPath, subdir]
        let subdirRelativePath := filepathJoin [parentRelativePath, subdir]
        match scanDirectory subdirPath subdirRelativePath (sub subdir) with
        | .error _ => store
        | .ok (files, nestedSubdirs) =>
          let store := { store with
            DirContents := store.DirContents.set subdirRelativePath files
            NestedDirs := store.NestedDirs.set subdirRelativePath nestedSubdirs }
          let store := storePaths store subdirPath files
          if nestedSubdirs.length > 0 then
            processSubdirectories store subdirPath subdirRelativePath (sub subdir) nestedSubdirs
          else store)
      store

/-- Body of the loop over the root files in `ScanPasswordStore`. -/
def rootFileStep (targetPath : GoString) (store : PasswordStore) (file : DirEntry) :
    PasswordStore :=
  if !file.IsDir && HasSuffix file.Name (B ".gpg") then
    let fileName := TrimSuffix file.Name (B ".gpg")
    { store with
      RootFiles := store.RootFiles ++ [fileName]
      AllPaths := store.AllPaths.set fileName (filepathJoin [targetPath, fileName ++ B ".gpg"]) }
  else store

/-- Body of the loop over the root directories in `ScanPasswordStore`. -/
def rootDirStep (targetPath : GoString) (sub : GoString → FS) (store : PasswordStore)
    (dir : DirEntry) : PasswordStore :=
  if dir.IsDir then
    let dirPath := filepathJoin [targetPath, dir.Name]
    match scanDirectory dirPath dir.Name (sub dir.Name) with
    | .error _ => store
    | .ok (files, subdirs) =>
      if files.length > 0 ∨ subdirs.length > 0 then
        let store := { store with
          Directories := store.Directories ++ [dir.Name]
          DirContents := store.DirContents.set dir.Name files
          NestedDirs := store.NestedDirs.set dir.Name subdirs }
        let store := storePaths store dirPath files
        processSubdirectories store dirPath dir.Name (sub dir.Name) subdirs
      else store
  else store

/-- The store `ScanPasswordStore` starts from. -/
def newStore (targetPath : GoString) : PasswordStore :=
  { RootPath := targetPath, RootFiles := [], Directories := [],
    DirContents := GoMap.empty, NestedDirs := GoMap.empty, AllPaths := GoMap.empty }

/-- Go `ScanPasswordStore(targetPath)` on the file system `fs` below `targetPath`:
`.error msg` is the result `(nil, err)` and `.ok store` the result `(store, nil)`. Both
calls of `os.ReadDir(targetPath)` see the same listing. -/
def ScanPasswordStore (targetPath : GoString) (fs : FS) : Except GoString PasswordStore :=
  match fs with
  | .unreadable err => .error (B "error reading target directory: " ++ err)
  | .listing filesInRoot sub =>
    let store := filesInRoot.foldl (rootFileStep targetPath) (newStore targetPath)
    match fs with
    | .unreadable err => .error (B "error reading target directory: " ++ err)
    | .listing dirs _ => .ok (dirs.foldl (rootDirStep targetPath sub) store)

/-- Body of the loop over the entries in `findFilePath`: `ret` is `some r` once the
function has returned `r`, and `findSub name` is the result of the recursive call for the
subdirectory `name`. -/
def findStep (dirPath fileName : GoString) (findSub : GoString → GoString)
    (ret : Option GoString) (entry : DirEntry) : Option GoString :=
  match ret with
  | some r => some r
  | none =>
    if entry.IsDir then
      let found := findSub entry.Name
      if found ≠ [] then some found else none
    else if HasSuffix entry.Name (B ".gpg") then
      let entryFileName := TrimSuffix entry.Name (B ".gpg")
      if entryFileName = fileName then some (filepathJoin [dirPath, entry.Name]) else none
    else none

/-- Go `findFilePath(dirPath, fileName)`, where the third argument is what
`os.ReadDir(dirPath)` and the calls below it see. -/
def findFilePath (dirPath fileName : GoString) : FS → GoString
  | .unreadable _ => []
  | .listing entries sub =>
    match entries.foldl
      (findStep dirPath fileName
        (fun name => findFilePath (filepathJoin [dirPath, name]) fileName (sub name)))
      none with
    | some r => r
    | none => []

/-! ### The scan on a host with another path separator -/

/-- The path conventions of a host: the separator that `path/filepath` writes
(`filepath.Separator`) and the bytes that `os.IsPathSeparator` accepts. -/
structure Host where
  Separator : Nat
  IsPathSeparator : Nat → Bool

/-- A host whose separator is `/`. -/
def unixHost : Host := { Separator := 47, IsPathSeparator := fun c => c == 47 }

/-- A host whose separator is `\` and which accepts `/` as well, as Windows does. -/
def windowsHost : Host := { Separator := 92, IsPathSeparator := fun c => c == 92 || c == 47 }

/-- The elements of a path on a host: the pieces between separator bytes. -/
def pathElemsOn (host : Host) : GoString → List GoString
  | [] => [[]]
  | c :: cs =>
    if host.IsPathSeparator c then [] :: pathElemsOn host cs
    else
      match pathElemsOn host cs with
      | [] => [[c]]
      | e :: es => (c :: e) :: es

/-- Go `filepath.Clean` on a host, for a path without a volume name. -/
def CleanOn (host : Host) (path : GoString) : GoString :=
  if path = [] then dot
  else
    let rooted := match path.head? with
      | some c => host.IsPathSeparator c
      | none => false
    let out := (pathElemsOn host path).foldl (cleanStep rooted) []
    let s := (if rooted then [host.Separator] else []) ++ [host.Separator].intercalate out
    if s = [] then dot else s

/-- Go `filepath.Join` on a host, for elements without a volume name. -/
def filepathJoinOn (host : Host) (elem : List GoString) : GoString :=
  match elem.dropWhile (fun e => decide (e = [])) with
  | [] => []
  | es => CleanOn host ([host.Separator].intercalate es)

/-- Go `scanDirectory`, with the `filepath.Join` of the host as `join`. -/
def scanDirectoryWith (join : List GoString → GoString) (dirPath relativePath : GoString) :
    FS → Except GoString ScanResult
  | .unreadable err => .error (B "error reading directory " ++ dirPath ++ B ": " ++ err)
  | .listing entries sub =>
    .ok (entries.foldl
      (scanStep (fun name =>
        scanDirectoryWith join (join [dirPath, name]) (join [relativePath, name]) (sub name)))
      ([], []))

/-- The loop that stores the paths of the files of a directory, with the `filepath.Join`
of the host as `join`. -/
def storePathsWith (join : List GoString → GoString) (store : PasswordStore)
    (dirPath : GoString) (files : List GoString) : PasswordStore :=
  files.foldl
    (fun st file => { st with AllPaths := st.AllPaths.set file (join [dirPath, file ++ B ".gpg"]) })
    store

/-- Go `processSubdirectories`, with the `filepath.Join` of the host as `join`. -/
def processSubdirectoriesWith (join : List GoString → GoString) (store : PasswordStore)
    (parentPath parentRelativePath : GoString) : FS → List GoString → PasswordStore
  | .unreadable _, _ => store
  | .listing _ sub, subdirs =>
    subdirs.foldl
      (fun store subdir =>
        let subdirPath := join [parentPath, subdir]
        let subdirRelativePath := join [parentRelativePath, subdir]
        match scanDirectoryWith join subdirPath subdirRelativePath (sub subdir) with
        | .error _ => store
        | .ok (files, nestedSubdirs) =>
          let store := { store with
            DirContents := store.DirContents.set subdirRelativePath files
            NestedDirs := store.NestedDirs.set subdirRelativePath nestedSubdirs }
          let store := storePathsWith join store subdirPath files
          if nestedSubdirs.length > 0 then
            processSubdirectoriesWith join store subdirPath subdirRelativePath (sub subdir)
              nestedSubdirs
          else store)
      store

/-- Body of the loop over the root files, with the `filepath.Join` of the host as `join`. -/
def rootFileStepWith (join : List GoString → GoString) (targetPath : GoString)
    (store : PasswordStore) (file : DirEntry) : PasswordStore :=
  if !file.IsDir && HasSuffix file.Name (B ".gpg") then
    let fileName := TrimSuffix file.Name (B ".gpg")
    { store with
      RootFiles := store.RootFiles ++ [fileName]
      AllPaths := store.AllPaths.set fileName (join [targetPath, fileName ++ B ".gpg"]) }
  else store

/-- Body of the loop over the root directories, with the `filepath.Join` of the host as
`join`. -/
def rootDirStepWith (join : List GoString → GoString) (targetPath : GoString)
    (sub : GoString → FS) (store : PasswordStore) (dir : DirEntry) : PasswordStore :=
  if dir.IsDir then
    let dirPath := join [targetPath, dir.Name]
    match scanDirectoryWith join dirPath dir.Name (sub dir.Name) with
    | .error _ => store
    | .ok (files, subdirs) =>
      if files.length > 0 ∨ subdirs.length > 0 then
        let store := { store with
          Directories := store.Directories ++ [dir.Name]
          DirContents := store.DirContents.set dir.Name files
          NestedDirs := store.NestedDirs.set dir.Name subdirs }
        let store := storePathsWith join store dirPath files
        processSubdirectoriesWith join store dirPath dir.Name (sub dir.Name) subdirs
      else store
  else store

/-- Go `ScanPasswordStore`, with the `filepath.Join` of the host as `join`. -/
def ScanPasswordStoreWith (join : List GoString → GoString) (targetPath : GoString) (fs : FS) :
    Except GoString PasswordStore :=
  match fs with
  | .unreadable err => .error (B "error reading target directory: " ++ err)
  | .listing filesInRoot sub =>
    let store := filesInRoot.foldl (rootFileStepWith join targetPath) (newStore targetPath)
    match fs with
    | .unreadable err => .error (B "error reading target directory: " ++ err)
    | .listing dirs _ => .ok (dirs.foldl (rootDirStepWith join targetPath sub) store)

/-- Go `ScanPasswordStore` on a host. -/
def ScanPasswordStoreOn (host : Host) (targetPath : GoString) (fs : FS) :
    Except GoString PasswordStore :=
  ScanPasswordStoreWith (filepathJoinOn host) targetPath fs

/-! ## `main.go`: the entry workflow -/

/-- What `cmd.CombinedOutput()` returns: the captured output, and the error of a command
that did not exit with success (`none` is Go's `nil`). -/
structure CmdResult where
  output : GoString
  err : Option GoString
deriving DecidableEq, Repr

/-- How the user leaves a confirm dialog: the callback runs with `false`, or with `true`
while the entry holds `text`. -/
inductive DialogReply where
  | cancel
  | confirm (text : GoString)
deriving DecidableEq, Repr

/-- What the workflow does that can be seen from outside, in the order it happens. -/
inductive Event where
  | exec (argv : List GoString)
  | passphraseDialog
  | recipientDialog (prefill : GoString)
  | showError (msg : GoString)
  | showInformation (title msg : GoString)
  | editDialogShow (text : GoString)
  | editDialogHide
deriving DecidableEq, Repr

/-- The subprocess invocations of a trace. -/
def execs (tr : List Event) : List (List GoString) :=
  tr.filterMap (fun ev => match ev with | .exec argv => some argv | _ => none)

/-- The number of passphrase dialogs of a trace. -/
def passphraseDialogs (tr : List Event) : Nat :=
  (tr.filter (fun ev => decide (ev = .passphraseDialog))).length

/-- The surroundings of one decrypt session: the result of the `k`-th subprocess of the
session, given its argument vector, and the reply to the `k`-th passphrase dialog. -/
structure DecryptEnv where
  run : Nat → List GoString → CmdResult
  passphraseReply : Nat → DialogReply

/-- The argument vector of the decrypt command (`exec.Command("gpg", ...)`). -/
def decryptArgs (filePath passphrase : GoString) : List GoString :=
  if passphrase = [] then [B "gpg", B "--batch", B "--decrypt", filePath]
  else [B "gpg", B "--batch", B "--passphrase", passphrase, B "--decrypt", filePath]

/-- The test that drops a line of the decrypt output. -/
def isHeaderLine (line : GoString) : Bool :=
  HasPrefix line (B "gpg:") ||
    Contains line (B "encrypted with") ||
    Contains line (B "created") ||
    Contains line (B "<c4point@gmail.com>")

/-- The output filter of `decryptAndEdit`: split into lines, skip the header lines, join. -/
def filterOutput (output : GoString) : GoString :=
  let lines := Split output (B "\n")
  let contentLines :=
    lines.foldl (fun contentLines line =>
      if isHeaderLine line then contentLines else contentLines ++ [line]) []
  Join contentLines (B "\n")

/-- The closure `decryptAndEdit(filePath, passphrase)` of `decryptAndEditFile`, up to the
point where the edit dialog is shown; `tr` is what has happened in the session so far. -/
def decryptAndEdit (env : DecryptEnv) (filePath passphrase : GoString) (tr : List Event) :
    List Event :=
  let argv := decryptArgs filePath passphrase
  let res := env.run (execs tr).length argv
  let tr := tr ++ [.exec argv]
  match res.err with
  | some err =>
    if h : passphrase = [] then
      let reply := env.passphraseReply (passphraseDialogs tr)
      let tr := tr ++ [.passphraseDialog]
      match reply with
      | .confirm newPassphrase =>
        if h2 : newPassphrase = [] then tr ++ [.showError (B "Passphrase cannot be empty")]
        else decryptAndEdit env filePath newPassphrase tr
      | .cancel => tr
    else
      tr ++ [.showError (B "Failed to decrypt file: " ++ err ++ B "\n" ++ res.output)]
  | none => tr ++ [.editDialogShow (filterOutput res.output)]
termination_by (if passphrase = [] then 1 else 0)
decreasing_by simp [h, h2]

/-- Go `decryptAndEditFile(filePath, window)`: the session starts without a passphrase. -/
def decryptAndEditFile (env : DecryptEnv) (filePath : GoString) : List Event :=
  decryptAndEdit env filePath [] []

/-- The recipient that one line of the list-packets output yields, if any: the body of
the loop over the lines in the save handler. -/
def recipientOfLine (line : GoString) : Option GoString :=
  if Contains line (B "keyid") then
    match Split line (B "keyid") with
    | _ :: part1 :: _ =>
      let keyidPart := TrimSpace part1
      if keyidPart.length > 16 then some (keyidPart.take 16) else none
    | _ => none
  else none

/-- The loop over the lines: the first line that yields a recipient ends it (`break`);
without such a line the recipient stays empty. -/
def recipientOfLines : List GoString → GoString
  | [] => []
  | line :: rest =>
    match recipientOfLine line with
    | some recipient => recipient
    | none => recipientOfLines rest

/-- The recipient that the save handler detects in the list-packets output. -/
def detectRecipient (recipientStr : GoString) : GoString :=
  recipientOfLines (Split recipientStr (B "\n"))

/-- The files a save touches: the content of the scratch file (`none` while no scratch
file exists) and the content of the target file. -/
structure Files where
  scratch : Option GoString
  target : GoString
deriving DecidableEq, Repr

/-- The state of a save: the files, and what has happened so far. -/
structure SaveState where
  files : Files
  trace : List Event
deriving DecidableEq, Repr

/-- The state after one more event. -/
def SaveState.log (s : SaveState) (ev : Event) : SaveState :=
  { s with trace := s.trace ++ [ev] }

/-- The state after the scratch file is created, written or removed. -/
def SaveState.setScratch (s : SaveState) (scratch : Option GoString) : SaveState :=
  { s with files := { s.files with scratch := scratch } }

/-- The state after the target file is written. -/
def SaveState.setTarget (s : SaveState) (target : GoString) : SaveState :=
  { s with files := { s.files with target := target } }

/-- The surroundings of one run of the save handler: whether `ioutil.TempFile` fails or
which name it returns, the error of `WriteString` if any, the result of the list-packets
subprocess, the user's reply to the recipient dialog, the result of the encrypt
subprocess, and the content of the target file once the encrypt subprocess has run, given
the content it had when the subprocess was started. -/
structure SaveEnv where
  tempFile : Except GoString GoString
  writeErr : Option GoString
  listPackets : CmdResult
  recipientReply : DialogReply
  encrypt : CmdResult
  targetAfterEncrypt : GoString → GoString

/-- The argument vector of the encrypt command. -/
def encryptArgs (recipient filePath tmpFileName : GoString) : List GoString :=
  [B "gpg", B "--batch", B "--yes", B "--recipient", recipient, B "--output", filePath,
   B "--encrypt", tmpFileName]

/-- The statements that both the recipient dialog callback and the detected-recipient
branch run: the encrypt subprocess, `os.Remove(tmpFileName)`, and the report. -/
def encryptAndReport (env : SaveEnv) (filePath tmpFileName recipient : GoString)
    (s : SaveState) : SaveState :=
  let s := (s.log (.exec (encryptArgs recipient filePath tmpFileName))).setTarget
    (env.targetAfterEncrypt s.files.target)
  let s := s.setScratch none
  match env.encrypt.err with
  | some err =>
    s.log (.showError (B "Failed to encrypt file: " ++ err ++ B "\n" ++ env.encrypt.output))
  | none =>
    (s.log (.showInformation (B "Success") (B "File saved successfully"))).log .editDialogHide

/-- The handler of the "Save Changes" button, together with the callback of the recipient
dialog it may show. Creating the scratch file leaves it empty, `WriteString` fills it with
the edited text, and `os.Remove` makes it vanish. -/
def saveHandler (env : SaveEnv) (filePath editedContent defaultRecipient : GoString)
    (s : SaveState) : SaveState :=
  match env.tempFile with
  | .error err => s.log (.showError (B "Failed to create temporary file: " ++ err))
  | .ok tmpFileName =>
    let s := s.setScratch (some [])
    match env.writeErr with
    | some err =>
      (s.log (.showError (B "Failed to write to temporary file: " ++ err))).setScratch none
    | none =>
      let s := s.setScratch (some editedContent)
      let s := s.log (.exec [B "gpg", B "--batch", B "--list-packets", filePath])
      match env.listPackets.err with
      | some err =>
        s.log (.showError
          (B "Failed to get recipient info: " ++ err ++ B "\n" ++ env.listPackets.output))
      | none =>
        let recipient := detectRecipient env.listPackets.output
        if recipient = [] then
          let s := s.log (.recipientDialog defaultRecipient)
          match env.recipientReply with
          | .confirm recipient =>
            if recipient = [] then s.log (.showError (B "Recipient cannot be empty"))
            else encryptAndReport env filePath tmpFileName recipient s
          | .cancel => s
        else encryptAndReport env filePath tmpFileName recipient s

/-! ## Definitions for stating the properties -/

/-- An entry of a listing that the index records: not a directory, name ending in `.gpg`. -/
def isGpgFile (e : DirEntry) : Bool := !e.IsDir && HasSuffix e.Name (B ".gpg")

/-- The display names of a listing: its `.gpg` files, in listing order, suffix removed. -/
def gpgNames (entries : List DirEntry) : List GoString :=
  (entries.filter isGpgFile).map (fun e => TrimSuffix e.Name (B ".gpg"))

/-- Some directory at or below this one lists a `.gpg` file. -/
def hasGpg : FS → Bool
  | .unreadable _ => false
  | .listing entries sub =>
    entries.any (fun e => if e.IsDir then hasGpg (sub e.Name) else HasSuffix e.Name (B ".gpg"))

/-- The subdirectories of a listing below which a `.gpg` file is listed, in listing order. -/
def keptDirs (entries : List DirEntry) (sub : GoString → FS) : List GoString :=
  (entries.filter (fun e => e.IsDir && hasGpg (sub e.Name))).map (fun e => e.Name)


/-- One assignment to the maps of the store: `DirContents[key] = files` together with
`NestedDirs[key] = nested`, or `AllPaths[name] = full`. -/
inductive IndexWrite where
  | dir (key : GoString) (files nested : List GoString)
  | path (name full : GoString)
deriving DecidableEq, Repr

/-- The store after one assignment. -/
def applyWrite (st : PasswordStore) : IndexWrite → PasswordStore
  | .dir key files nested =>
    { st with
      DirContents := st.DirContents.set key files
      NestedDirs := st.NestedDirs.set key nested }
  | .path name full => { st with AllPaths := st.AllPaths.set name full }

/-- The `AllPaths` assignments for the display names `files` of the directory `dirPath`. -/
def pathWrites (dirPath : GoString) (files : List GoString) : List IndexWrite :=
  files.map (fun f => .path f (filepathJoin [dirPath, f ++ B ".gpg"]))

/-- The assignments for a directory and everything kept below it, in scan order: the
directory itself, its own entries, then each kept subdirectory in listing order. -/
def dirWrites (path rel : GoString) : FS → List IndexWrite
  | .unreadable _ => []
  | .listing es sub =>
    .dir rel (gpgNames es) (keptDirs es sub) ::
      (pathWrites path (gpgNames es) ++
        (keptDirs es sub).flatMap
          (fun n => dirWrites (filepathJoin [path, n]) (filepathJoin [rel, n]) (sub n)))

/-- All assignments of one scan of the root, in scan order. -/
def rootWrites (targetPath : GoString) (es : List DirEntry) (sub : GoString → FS) :
    List IndexWrite :=
  pathWrites targetPath (gpgNames es) ++
    (keptDirs es sub).flatMap (fun n => dirWrites (filepathJoin [targetPath, n]) n (sub n))

/-- The store with its `RootFiles` replaced. -/
def withRootFiles (st : PasswordStore) (x : List GoString) : PasswordStore :=
  { st with RootFiles := x }

/-- The store with its `Directories` replaced. -/
def withDirectories (st : PasswordStore) (x : List GoString) : PasswordStore :=
  { st with Directories := x }

/-- A name that `os.ReadDir` can return: not empty, without a separator, and neither `.`
nor `..`. -/
def validName (n : GoString) : Bool :=
  decide (n ≠ []) && !n.contains Separator && decide (n ≠ dot) && decide (n ≠ dotdot)

/-- Every entry of every listing of the tree has a valid name. -/
def validTree : FS → Bool
  | .unreadable _ => true
  | .listing es sub =>
    es.all (fun e => validName e.Name && (!e.IsDir || validTree (sub e.Name)))

/-- The path reached from `base` by joining one name after the other, as the scan does. -/
def joinAll (base : GoString) (comps : List GoString) : GoString :=
  comps.foldl (fun a c => filepathJoin [a, c]) base

/-- The directory reached from `d` by descending through the subdirectories `comps`. -/
def dirAt : FS → List GoString → Option FS
  | d, [] => some d
  | .unreadable _, _ :: _ => none
  | .listing es sub, c :: cs =>
    if es.any (fun e => e.IsDir && decide (e.Name = c)) then dirAt (sub c) cs else none

/-- The directory reached from `d` by descending through kept subdirectories only. -/
def keptAt : FS → List GoString → Option FS
  | d, [] => some d
  | .unreadable _, _ :: _ => none
  | .listing es sub, c :: cs => if c ∈ keptDirs es sub then keptAt (sub c) cs else none

/-- The shape of what `filepath.Clean` has written so far: some `..` elements, none at
all in a rooted path, and then names. -/
def CleanInv (rooted : Bool) (out : List GoString) : Prop :=
  ∃ k reals, out = List.replicate k dotdot ++ reals ∧ (rooted = true → k = 0) ∧
    ∀ r ∈ reals, validName r = true

/-- The relative path of a directory: its components separated by `/`. -/
def relPath (comps : List GoString) : GoString := Join comps (B "/")

/-- Every `.gpg` file of the tree, as the names of the directories that lead to it and
its full name, in the order of a depth-first walk: each listing in its order, and the
files below a subdirectory at the place where the subdirectory is listed. -/
def gpgFiles : FS → List (List GoString × GoString)
  | .unreadable _ => []
  | .listing es sub =>
    es.flatMap (fun e =>
      if e.IsDir then (gpgFiles (sub e.Name)).map (fun x => (e.Name :: x.1, x.2))
      else if HasSuffix e.Name (B ".gpg") then [([], e.Name)]
      else [])

/-- The directory, or a directory below it, lists a non-directory entry whose name ends
in `.gpg`. -/
def ContainsGpgFile (d : FS) : Prop :=
  ∃ below es sub, dirAt d below = some (.listing es sub) ∧
    ∃ e ∈ es, e.IsDir = false ∧ HasSuffix e.Name (B ".gpg") = true

/-- The index lists the directory `name` that lies below the directories `parent`: in
`Directories` when it is top-level, in the `NestedDirs` list of its parent otherwise. -/
def listedInParent (st : PasswordStore) (parent : List GoString) (name : GoString) : Bool :=
  match parent with
  | [] => decide (name ∈ st.Directories)
  | _ :: _ =>
    match st.NestedDirs (relPath parent) with
    | some l => decide (name ∈ l)
    | none => false

/-! ### The tree of `TestScanPasswordStore` -/

/-- A path below which nothing can be read. -/
def missing : FS := .unreadable (B "no such file or directory")

/-- The entry of the file `name.gpg`. -/
def gpgEntry (name : String) : DirEntry := ⟨B name ++ B ".gpg", false⟩

/-- The entry of the directory `name`. -/
def dirEntry (name : String) : DirEntry := ⟨B name, true⟩

/-- The directory `dir2/subdir2/nested` of the test tree. -/
def testNested : FS := .listing [gpgEntry "nestedfile"] (fun _ => missing)

/-- The directory `dir2/subdir2` of the test tree. -/
def testSubdir2 : FS :=
  .listing [dirEntry "nested", gpgEntry "subfile2"]
    (fun n => if n = B "nested" then testNested else missing)

/-- The directory `dir2` of the test tree. -/
def testDir2 : FS :=
  .listing [gpgEntry "file3", dirEntry "subdir2"]
    (fun n => if n = B "subdir2" then testSubdir2 else missing)

/-- The directory `dir1/subdir1` of the test tree. -/
def testSubdir1 : FS := .listing [gpgEntry "subfile1"] (fun _ => missing)

/-- The listing of the directory `dir1` of the test tree. -/
def testDir1Entries : List DirEntry := [gpgEntry "file1", gpgEntry "file2", dirEntry "subdir1"]

/-- The directories below `dir1` of the test tree. -/
def testDir1Sub : GoString → FS := fun n => if n = B "subdir1" then testSubdir1 else missing

/-- The directory `dir1` of the test tree. -/
def testDir1 : FS := .listing testDir1Entries testDir1Sub

/-- The directory `empty_dir` of the test tree. -/
def testEmptyDir : FS := .listing [] (fun _ => missing)

/-- The listing of the root of the test tree. -/
def testEntries : List DirEntry :=
  [dirEntry "dir1", dirEntry "dir2", dirEntry "empty_dir", gpgEntry "root1", gpgEntry "root2"]

/-- The directories below the root of the test tree. -/
def testSub : GoString → FS := fun n =>
  if n = B "dir1" then testDir1
  else if n = B "dir2" then testDir2
  else if n = B "empty_dir" then testEmptyDir
  else missing

/-- The listing of the root in `TestScanPasswordStoreWithNonGpgFiles`. -/
def mixedEntries : List DirEntry :=
  [⟨B "backup.gpg.bak", false⟩, ⟨B "config.yml", false⟩, ⟨B "password1.gpg", false⟩,
   ⟨B "password2.gpg", false⟩, ⟨B "readme.txt", false⟩]

/-! ### Sample surroundings of a save -/

/-- A list-packets output with a 16-character key identifier, as `gpg` prints it. -/
def samplePackets : GoString :=
  B ":pubkey enc packet: version 3, algo 1, keyid 0123456789ABCDEF\n\tdata: [2047 bits]\n"

/-- A list-packets output of a file encrypted with a passphrase only: no key identifier. -/
def symmetricPackets : GoString :=
  B ":symkey enc packet: version 4, cipher 9, aead 0, s2k 3, hash 10\n"

/-- A save before which no scratch file exists and the target holds `old`. -/
def sampleStart : SaveState := { files := { scratch := none, target := B "old" }, trace := [] }

/-- A save in which the list-packets subprocess exits with failure. -/
def envListFails : SaveEnv :=
  { tempFile := .ok (B "/tmp/gpg_edit_1"), writeErr := none,
    listPackets := { output := B "gpg: can't open '/s/a.gpg'\n", err := some (B "exit status 2") },
    recipientReply := .cancel, encrypt := { output := [], err := none },
    targetAfterEncrypt := fun _ => B "new" }

/-- A save in which no recipient is detected and the user cancels the recipient dialog. -/
def envCancel : SaveEnv :=
  { tempFile := .ok (B "/tmp/gpg_edit_1"), writeErr := none,
    listPackets := { output := symmetricPackets, err := none },
    recipientReply := .cancel, encrypt := { output := [], err := none },
    targetAfterEncrypt := fun _ => B "new" }

/-- A save in which no recipient is detected and the user confirms an empty recipient. -/
def envBlank : SaveEnv :=
  { tempFile := .ok (B "/tmp/gpg_edit_1"), writeErr := none,
    listPackets := { output := symmetricPackets, err := none },
    recipientReply := .confirm [], encrypt := { output := [], err := none },
    targetAfterEncrypt := fun _ => B "new" }

/-! ### Trees with unreadable directories -/

/-- The directory can be listed. -/
def isReadable : FS → Bool
  | .unreadable _ => false
  | .listing _ _ => true

/-- The tree without its unreadable directories: every listing loses the entries of the
subdirectories that cannot be listed, at every depth. -/
def prune : FS → FS
  | .unreadable err => .unreadable err
  | .listing es sub =>
    .listing (es.filter (fun e => !e.IsDir || isReadable (sub e.Name))) (fun n => prune (sub n))

/-- A tree with an unreadable directory `locked` beside `dir1` of the test tree; in the
second tree the unreadable directory lies inside a directory `outer`. -/
def lockedSub : GoString → FS := fun n =>
  if n = B "dir1" then testDir1
  else if n = B "locked" then .unreadable (B "open /store/locked: permission denied")
  else if n = B "outer" then
    .listing [dirEntry "locked", gpgEntry "kept"]
      (fun m => if m = B "locked" then .unreadable (B "permission denied") else missing)
  else missing

/-! ### Sample surroundings of a decrypt session and of an encrypting save -/

/-- A session in which the agent decrypts the file at once. -/
def envAgent : DecryptEnv :=
  { run := fun _ _ =>
      { output := B "gpg: encrypted with 2048-bit RSA key\nuser: me\npass: s3cret\n", err := none },
    passphraseReply := fun _ => .cancel }

/-- A save to a detected recipient in which the encrypt subprocess fails after it has
emptied its output file. -/
def envEncryptFails : SaveEnv :=
  { tempFile := .ok (B "/tmp/gpg_edit_1"), writeErr := none,
    listPackets :=
      { output := B ":pubkey enc packet: version 3, algo 1, keyid 0123456789ABCDEF.\n",
        err := none },
    recipientReply := .cancel,
    encrypt := { output := B "gpg: write error: No space left on device\n",
                 err := some (B "exit status 2") },
    targetAfterEncrypt := fun _ => [] }

/-- A save in which the encrypt subprocess fails without touching its output file. -/
def envEncryptRefuses : SaveEnv :=
  { tempFile := .ok (B "/tmp/gpg_edit_1"), writeErr := none,
    listPackets :=
      { output := B ":pubkey enc packet: version 3, algo 1, keyid 0123456789ABCDEF.\n",
        err := none },
    recipientReply := .cancel,
    encrypt := { output := B "gpg: 0123456789ABCDEF: skipped: No public key\n",
                 err := some (B "exit status 2") },
    targetAfterEncrypt := fun before => before }

/-- A save in which the scratch file cannot be created. -/
def envNoTemp : SaveEnv :=
  { tempFile := .error (B "open /tmp/gpg_edit_1: no space left on device"), writeErr := none,
    listPackets := { output := [], err := none }, recipientReply := .cancel,
    encrypt := { output := [], err := none }, targetAfterEncrypt := fun _ => B "new" }

/-- A save in which the scratch file is created but cannot be written. -/
def envNoWrite : SaveEnv :=
  { tempFile := .ok (B "/tmp/gpg_edit_1"),
    writeErr := some (B "write /tmp/gpg_edit_1: no space left on device"),
    listPackets := { output := [], err := none }, recipientReply := .cancel,
    encrypt := { output := [], err := none }, targetAfterEncrypt := fun _ => B "new" }

/-- The argument vector is that of an encrypt command: its eighth argument is
`--encrypt`. -/
def isEncryptCommand (argv : List GoString) : Bool := decide (argv[7]? = some (B "--encrypt"))

/-- The events of a save: what the trace has gained since the state `before`. -/
def newEvents (before after : SaveState) : List Event :=
  after.trace.drop before.trace.length

/-- The report that ends a save whose encrypt subprocess has returned `res`. -/
def encryptReport (res : CmdResult) : List Event :=
  match res.err with
  | some err => [.showError (B "Failed to encrypt file: " ++ err ++ B "\n" ++ res.output)]
  | none => [.showInformation (B "Success") (B "File saved successfully"), .editDialogHide]

/-! ### The tree of `TestFindFilePath` -/

/-- The directory `dir1` of the tree of `TestFindFilePath`. -/
def findDir1 : FS :=
  .listing [gpgEntry "file1", dirEntry "subdir1"]
    (fun n => if n = B "subdir1" then .listing [gpgEntry "file2"] (fun _ => missing) else missing)

/-- The tree of `TestFindFilePath`. -/
def findTree : FS :=
  .listing [dirEntry "dir1", dirEntry "dir2"]
    (fun n =>
      if n = B "dir1" then findDir1
      else if n = B "dir2" then .listing [gpgEntry "file3"] (fun _ => missing)
      else missing)

/-- The path that `findFilePath` returns for the file `x` found below `dirPath`. -/
def foundPath (dirPath : GoString) (x : List GoString × GoString) : GoString :=
  filepathJoin [joinAll dirPath x.1, x.2]

/-! ### The order of the scan -/

/-- The `.gpg` files of the tree in the order in which the scan records them: the entries
of a directory in listing order, then, for each included subdirectory in listing order,
the files of that subdirectory in the same way. -/
def scanOrder : FS → List (List GoString × GoString)
  | .unreadable _ => []
  | .listing es sub =>
    (es.filter isGpgFile).map (fun e => ([], e.Name)) ++
      (es.filter (fun e => e.IsDir && hasGpg (sub e.Name))).flatMap
        (fun e => (scanOrder (sub e.Name)).map (fun x => (e.Name :: x.1, x.2)))

/-- The `AllPaths` assignments of a sequence of assignments, in order. -/
def pathAssignments (ws : List IndexWrite) : List (GoString × GoString) :=
  ws.filterMap (fun w => match w with | .path n f => some (n, f) | .dir _ _ _ => none)

/-- The assignment that the scan makes for the file `x` below the root path `t`. -/
def entryAssignment (t : GoString) (x : List GoString × GoString) : GoString × GoString :=
  (TrimSuffix x.2 (B ".gpg"), filepathJoin [joinAll t x.1, TrimSuffix x.2 (B ".gpg") ++ B ".gpg"])

/-- A tree in which four entries are called `dup.gpg`: one in the root, one in `a`, one in
`a/b` and one in `c`. -/
def dupTree : FS :=
  .listing [dirEntry "a", dirEntry "c", gpgEntry "dup"]
    (fun n =>
      if n = B "a" then
        .listing [dirEntry "b", gpgEntry "dup"]
          (fun m => if m = B "b" then .listing [gpgEntry "dup"] (fun _ => missing) else missing)
      else if n = B "c" then .listing [gpgEntry "dup", gpgEntry "other"] (fun _ => missing)
      else missing)
/-! ## Definitions for the recipient label and the second copy of the workflow -/

/-- The text of `s` before the first occurrence of `sep`, or all of `s` when `sep` does
not occur. -/
def upToNext (sep : GoString) : GoString → GoString
  | [] => []
  | c :: cs => if sep.isPrefixOf (c :: cs) then [] else c :: upToNext sep cs

/-- The text of `s` after the first occurrence of `sep`; empty when `sep` does not occur. -/
def afterFirst (sep : GoString) : GoString → GoString
  | [] => []
  | c :: cs => if sep.isPrefixOf (c :: cs) then (c :: cs).drop sep.length else afterFirst sep cs

/-- The packet line of the example: the label `keyid`, a blank, and a key identifier of
exactly 16 characters at the end of the line. -/
def sampleKeyLine : GoString := B ":pubkey enc packet: version 3, algo 1, keyid 0123456789ABCDEF"

/-! ### The copy of the workflow inside `fileList.OnSelected` -/

/-- The loop over the lines of the list-packets output in the save handler of
`fileList.OnSelected`: the first line that contains `keyid` and has more than 16 bytes of
trimmed text after it gives those 16 bytes and ends the loop. -/
def listRecipientLoop : List GoString → GoString
  | [] => []
  | line :: rest =>
    if Contains line (B "keyid") then
      match Split line (B "keyid") with
      | _ :: part1 :: _ =>
        if (TrimSpace part1).length > 16 then (TrimSpace part1).take 16
        else listRecipientLoop rest
      | _ => listRecipientLoop rest
    else listRecipientLoop rest

/-- The closure `decryptAndEdit(filePath, passphrase)` that `fileList.OnSelected` defines
inline, up to the point where the edit dialog is shown. -/
def listDecryptAndEdit (env : DecryptEnv) (filePath passphrase : GoString)
    (tr : List Event) : List Event :=
  let argv :=
    if passphrase ≠ [] then
      [B "gpg", B "--batch", B "--passphrase", passphrase, B "--decrypt", filePath]
    else [B "gpg", B "--batch", B "--decrypt", filePath]
  let res := env.run (execs tr).length argv
  let tr := tr ++ [.exec argv]
  match res.err with
  | some err =>
    if h : passphrase = [] then
      let reply := env.passphraseReply (passphraseDialogs tr)
      let tr := tr ++ [.passphraseDialog]
      match reply with
      | .confirm newPassphrase =>
        if h2 : newPassphrase = [] then tr ++ [.showError (B "Passphrase cannot be empty")]
        else listDecryptAndEdit env filePath newPassphrase tr
      | .cancel => tr
    else
      tr ++ [.showError (B "Failed to decrypt file: " ++ err ++ B "\n" ++ res.output)]
  | none =>
    let lines := Split res.output (B "\n")
    let contentLines :=
      lines.foldl (fun contentLines line =>
        if HasPrefix line (B "gpg:") ||
            Contains line (B "encrypted with") ||
            Contains line (B "created") ||
            Contains line (B "<c4point@gmail.com>") then contentLines
        else contentLines ++ [line]) []
    tr ++ [.editDialogShow (Join contentLines (B "\n"))]
termination_by (if passphrase = [] then 1 else 0)
decreasing_by simp [h, h2]

/-- The handler of the "Save Changes" button that `fileList.OnSelected` creates, with the
callback of its recipient dialog. -/
def listSaveHandler (env : SaveEnv) (filePath editedContent defaultRecipient : GoString)
    (s : SaveState) : SaveState :=
  match env.tempFile with
  | .error err => s.log (.showError (B "Failed to create temporary file: " ++ err))
  | .ok tmpFileName =>
    let s := s.setScratch (some [])
    match env.writeErr with
    | some err =>
      (s.log (.showError (B "Failed to write to temporary file: " ++ err))).setScratch none
    | none =>
      let s := s.setScratch (some editedContent)
      let s := s.log (.exec [B "gpg", B "--batch", B "--list-packets", filePath])
      match env.listPackets.err with
      | some err =>
        s.log (.showError
          (B "Failed to get recipient info: " ++ err ++ B "\n" ++ env.listPackets.output))
      | none =>
        let recipient := listRecipientLoop (Split env.listPackets.output (B "\n"))
        if recipient = [] then
          let s := s.log (.recipientDialog defaultRecipient)
          match env.recipientReply with
          | .confirm recipient =>
            if recipient = [] then s.log (.showError (B "Recipient cannot be empty"))
            else
              let s := (s.log (.exec [B "gpg", B "--batch", B "--yes", B "--recipient",
                recipient, B "--output", filePath, B "--encrypt", tmpFileName])).setTarget
                (env.targetAfterEncrypt s.files.target)
              let s := s.setScratch none
              match env.encrypt.err with
              | some err =>
                s.log (.showError
                  (B "Failed to encrypt file: " ++ err ++ B "\n" ++ env.encrypt.output))
              | none =>
                (s.log (.showInformation (B "Success") (B "File saved successfully"))).log
                  .editDialogHide
          | .cancel => s
        else
          let s := (s.log (.exec [B "gpg", B "--batch", B "--yes", B "--recipient",
            recipient, B "--output", filePath, B "--encrypt", tmpFileName])).setTarget
            (env.targetAfterEncrypt s.files.target)
          let s := s.setScratch none
          match env.encrypt.err with
          | some err =>
            s.log (.showError
              (B "Failed to encrypt file: " ++ err ++ B "\n" ++ env.encrypt.output))
          | none =>
            (s.log (.showInformation (B "Success") (B "File saved successfully"))).log
              .editDialogHide

/-! ## `settings/settings.go` -/

/-- A Go `float64`, given by its 64 bits (sign, 11 bits of exponent, 52 bits of fraction).
The settings code only stores and copies such values. -/
abbrev Float64 := Nat

/-- The value is neither an infinity nor a NaN: its exponent bits are not all ones. -/
def Float64.isFinite (f : Float64) : Bool := decide ((f / 2 ^ 52) % 2048 ≠ 2047)

/-- Go `Settings`: the application configuration. -/
structure Settings where
  PasswordStorePath : GoString
  DefaultRecipient : GoString
  AutoCommit : Bool
  ShowNotifications : Bool
  Theme : GoString
  WindowWidth : Int
  WindowHeight : Int
  SplitOffset : Float64
deriving DecidableEq, Repr

/-- Go `DefaultSettings()`; `0x3FD3333333333333` are the bits of the constant `0.3`. -/
def DefaultSettings : Settings :=
  { PasswordStorePath := [],
    DefaultRecipient := [],
    AutoCommit := true,
    ShowNotifications := true,
    Theme := B "light",
    WindowWidth := 800,
    WindowHeight := 600,
    SplitOffset := 0x3FD3333333333333 }

/-- A value of type `interface{}`: a `string`, a `bool`, an `int`, a `float64`, or a value
of any other dynamic type, of which only its not being one of the four matters. -/
inductive Value where
  | string (str : GoString)
  | bool (b : Bool)
  | int (i : Int)
  | float64 (f : Float64)
  | other (tag : Nat)
deriving DecidableEq, Repr

/-- The type assertion `value.(string)`; `none` stands for `ok == false`. -/
def Value.asString : Value → Option GoString
  | .string str => some str
  | _ => none

/-- The type assertion `value.(bool)`. -/
def Value.asBool : Value → Option Bool
  | .bool b => some b
  | _ => none

/-- The type assertion `value.(int)`. -/
def Value.asInt : Value → Option Int
  | .int i => some i
  | _ => none

/-- The type assertion `value.(float64)`. -/
def Value.asFloat64 : Value → Option Float64
  | .float64 f => some f
  | _ => none

/-- Go `utf8.DecodeRune`, as far as its size result goes: the number of bytes of the
UTF-8 encoding that starts the string, and `0` where Go reports `RuneError` with width 1
(no valid encoding starts there). -/
def runeLen : GoString → Nat
  | [] => 0
  | b0 :: rest =>
    if b0 < 0x80 then 1
    else if 0xC2 ≤ b0 ∧ b0 ≤ 0xDF then
      match rest with
      | b1 :: _ => if 0x80 ≤ b1 ∧ b1 ≤ 0xBF then 2 else 0
      | _ => 0
    else if 0xE0 ≤ b0 ∧ b0 ≤ 0xEF then
      match rest with
      | b1 :: b2 :: _ =>
        if (if b0 = 0xE0 then 0xA0 else 0x80) ≤ b1 ∧ b1 ≤ (if b0 = 0xED then 0x9F else 0xBF) ∧
            0x80 ≤ b2 ∧ b2 ≤ 0xBF then 3
        else 0
      | _ => 0
    else if 0xF0 ≤ b0 ∧ b0 ≤ 0xF4 then
      match rest with
      | b1 :: b2 :: b3 :: _ =>
        if (if b0 = 0xF0 then 0x90 else 0x80) ≤ b1 ∧ b1 ≤ (if b0 = 0xF4 then 0x8F else 0xBF) ∧
            0x80 ≤ b2 ∧ b2 ≤ 0xBF ∧ 0x80 ≤ b3 ∧ b3 ≤ 0xBF then 4
        else 0
      | _ => 0
    else 0

/-- The string is valid UTF-8 (Go `utf8.ValidString`); `skip` counts the bytes of the
current rune that are still to be passed over. -/
def validUTF8From : GoString → Nat → Bool
  | [], _ => true
  | _ :: cs, skip + 1 => validUTF8From cs skip
  | c :: cs, 0 => decide (runeLen (c :: cs) ≠ 0) && validUTF8From cs (runeLen (c :: cs) - 1)

/-- Go `utf8.ValidString`. -/
def ValidUTF8 (s : GoString) : Bool := validUTF8From s 0

/-- What `encoding/json` makes of a Go string when it writes it as a JSON string and
reads it back: every byte that starts no valid UTF-8 encoding has become the replacement
character U+FFFD (`EF BF BD`). -/
def coerceUTF8From : GoString → Nat → GoString
  | [], _ => []
  | c :: cs, skip + 1 => c :: coerceUTF8From cs skip
  | c :: cs, 0 =>
    if runeLen (c :: cs) = 0 then [0xEF, 0xBF, 0xBD] ++ coerceUTF8From cs 0
    else c :: coerceUTF8From cs (runeLen (c :: cs) - 1)

/-- The string with its invalid bytes replaced, as `json.Marshal` documents it. -/
def coerceUTF8 (s : GoString) : GoString := coerceUTF8From s 0

/-- The content of a file, as far as the settings package looks at it: what
`json.Unmarshal(data, &settings)` makes of the bytes, namely the decoded `Settings` or
the error. -/
abbrev FileData := Except GoString Settings

/-- Go `json.Unmarshal(data, &settings)`. -/
def jsonUnmarshal (data : FileData) : Except GoString Settings := data

/-- Go `json.MarshalIndent(settings, "", "  ")`: an error for a `float64` that is not
finite; otherwise the JSON text, which reads back as the settings with their strings
coerced to valid UTF-8 (integers, booleans and finite floats are written so that they
read back as they are). -/
def jsonMarshalIndent (settings : Settings) : Except GoString FileData :=
  if settings.SplitOffset.isFinite then
    .ok (.ok { settings with
      PasswordStorePath := coerceUTF8 settings.PasswordStorePath
      DefaultRecipient := coerceUTF8 settings.DefaultRecipient
      Theme := coerceUTF8 settings.Theme })
  else .error (B "json: unsupported value")

/-- The surroundings of the settings package: the result of `os.UserHomeDir`, and the
errors, if any, of `os.MkdirAll`, `os.WriteFile` and `os.ReadFile`. -/
structure ConfigEnv where
  homeDir : Except GoString GoString
  mkdirErr : Option GoString
  writeErr : Option GoString
  readErr : Option GoString

/-- The files by path; a path without a file is not in the map (`os.IsNotExist`). -/
abbrev ConfigFiles := GoMap FileData

/-- Go `getConfigPath()`. -/
def getConfigPath (env : ConfigEnv) : Except GoString GoString :=
  match env.homeDir with
  | .error err => .error (B "failed to get home directory: " ++ err)
  | .ok homeDir =>
    let configDir := filepathJoin [homeDir, B ".config", B "gpg_viewer"]
    let configPath := filepathJoin [configDir, B "settings.json"]
    .ok configPath

/-- Go `SaveSettings(settings)`: the error it returns (`none` is `nil`) and the files
afterwards. Directories are not kept in the files, so `os.MkdirAll(filepath.Dir(configPath))`
only succeeds or fails; a write that fails leaves the files as they were. -/
def SaveSettings (env : ConfigEnv) (files : ConfigFiles) (settings : Settings) :
    Option GoString × ConfigFiles :=
  match getConfigPath env with
  | .error err => (some (B "failed to get config path: " ++ err), files)
  | .ok configPath =>
    match env.mkdirErr with
    | some err => (some (B "failed to create config directory: " ++ err), files)
    | none =>
      match jsonMarshalIndent settings with
      | .error err => (some (B "failed to marshal settings: " ++ err), files)
      | .ok data =>
        match env.writeErr with
        | some err => (some (B "failed to write config file: " ++ err), files)
        | none => (none, files.set configPath data)

/-- Go `LoadSettings()`: the settings or the error, and the files afterwards (a missing
file is created with the default settings). -/
def LoadSettings (env : ConfigEnv) (files : ConfigFiles) :
    Except GoString Settings × ConfigFiles :=
  match getConfigPath env with
  | .error err => (.error (B "failed to get config path: " ++ err), files)
  | .ok configPath =>
    match files configPath with
    | none =>
      let settings := DefaultSettings
      match SaveSettings env files settings with
      | (some err, files) => (.error (B "failed to save default settings: " ++ err), files)
      | (none, files) => (.ok settings, files)
    | some data =>
      match env.readErr with
      | some err => (.error (B "failed to read config file: " ++ err), files)
      | none =>
        match jsonUnmarshal data with
        | .error err => (.error (B "failed to parse config file: " ++ err), files)
        | .ok settings => (.ok settings, files)

/-- The body of the loop of `UpdateSettings`: the `switch` on the key, with the type
assertion of each case. -/
def applyUpdate (settings : Settings) (key : GoString) (value : Value) : Settings :=
  if key = B "password_store_path" then
    match value.asString with
    | some str => { settings with PasswordStorePath := str }
    | none => settings
  else if key = B "default_recipient" then
    match value.asString with
    | some str => { settings with DefaultRecipient := str }
    | none => settings
  else if key = B "auto_commit" then
    match value.asBool with
    | some b => { settings with AutoCommit := b }
    | none => settings
  else if key = B "show_notifications" then
    match value.asBool with
    | some b => { settings with ShowNotifications := b }
    | none => settings
  else if key = B "theme" then
    match value.asString with
    | some str => { settings with Theme := str }
    | none => settings
  else if key = B "window_width" then
    match value.asInt with
    | some i => { settings with WindowWidth := i }
    | none => settings
  else if key = B "window_height" then
    match value.asInt with
    | some i => { settings with WindowHeight := i }
    | none => settings
  else if key = B "split_offset" then
    match value.asFloat64 with
    | some f => { settings with SplitOffset := f }
    | none => settings
  else settings

/-- The loop of `UpdateSettings` over the update map; `updates` lists the entries of the
map in the order in which `range` visits them. -/
def applyUpdates (settings : Settings) (updates : List (GoString × Value)) : Settings :=
  updates.foldl (fun settings kv => applyUpdate settings kv.1 kv.2) settings

/-- Go `UpdateSettings(updates)`. -/
def UpdateSettings (env : ConfigEnv) (files : ConfigFiles) (updates : List (GoString × Value)) :
    Option GoString × ConfigFiles :=
  match LoadSettings env files with
  | (.error err, files) => (some (B "failed to load current settings: " ++ err), files)
  | (.ok settings, files) => SaveSettings env files (applyUpdates settings updates)

/-- The value that an update map holds under a key, read as the type of a field. -/
def updateFor {α : Type} (cast : Value → Option α) (updates : List (GoString × Value))
    (key : GoString) : Option α :=
  (updates.lookup key).bind cast

/-- A home directory in which everything works. -/
def sampleConfigEnv : ConfigEnv :=
  { homeDir := .ok (B "/home/user"), mkdirErr := none, writeErr := none, readErr := none }

/-- The files of a home directory whose configuration file holds the default settings. -/
def sampleConfigFiles : ConfigFiles :=
  GoMap.empty.set (B "/home/user/.config/gpg_viewer/settings.json") (.ok DefaultSettings)

/-- The update map of `TestUpdateSettingsInvalidType` with two more entries: a key that
names no field and a new theme. -/
def sampleUpdates : List (GoString × Value) :=
  [(B "window_width", .string (B "not_a_number")), (B "invalid_key", .string (B "value")),
   (B "theme", .string (B "dark"))]

/-- An update map that gives the theme the single byte `FF`, which is not valid UTF-8. -/
def invalidThemeUpdate : List (GoString × Value) := [(B "theme", .string [0xFF])]

/-- Settings whose store path is the single byte `FF`, which is not valid UTF-8. -/
def invalidPathSettings : Settings := { DefaultSettings with PasswordStorePath := [0xFF] }

/-! ## `main.go`: the directory tree and the search -/

/-- The loop `for parent, subdirs := range store.NestedDirs` of the child function, which
looks for a directory that lists `id` among its subdirectories. The list gives the order
in which `range` visits the keys, which Go leaves open; what is not a key is passed over. -/
def findParentDir (store : PasswordStore) (id : GoString) : List GoString → GoString
  | [] => []
  | parent :: rest =>
    match store.NestedDirs parent with
    | none => findParentDir store id rest
    | some subdirs =>
      let parentDir := if id ∈ subdirs then parent else []
      if parentDir ≠ [] then parentDir else findParentDir store id rest

/-- The loop `for fullPath := range store.DirContents` of the child function: for every
key that starts with `id/`, the second piece of the key split at `/`. -/
def fallbackChildren (store : PasswordStore) (id : GoString) : List GoString → List GoString
  | [] => []
  | fullPath :: rest =>
    if (store.DirContents fullPath).isSome && HasPrefix fullPath (id ++ B "/") then
      match Split fullPath (B "/") with
      | _ :: subdirName :: _ => subdirName :: fallbackChildren store id rest
      | _ => fallbackChildren store id rest
    else fallbackChildren store id rest

/-- The child function of the tree widget (the first argument of `widget.NewTree`): the
identifiers of the children of the node `id`. `nestedOrder` and `dirOrder` are the orders
in which the two `range` loops visit the keys of `NestedDirs` and of `DirContents`. In the
last branch the source looks `id` up in `DirContents` a second time, which cannot succeed
there, and returns the names of the fallback loop when there are any and the empty list
otherwise. -/
def childUIDs (store : PasswordStore) (nestedOrder dirOrder : List GoString)
    (id : GoString) : List GoString :=
  if id = [] then
    if store.RootFiles.length > 0 then [B "Root", B "Directories"] else [B "Directories"]
  else if id = B "Root" then store.RootFiles
  else if id = B "Directories" then store.Directories
  else
    match store.DirContents id with
    | some files =>
      match store.NestedDirs id with
      | some subdirs => files ++ subdirs
      | none => files
    | none =>
      if id ∈ store.RootFiles then []
      else
        let parentDir := findParentDir store id nestedOrder
        match (if parentDir ≠ [] then store.DirContents (parentDir ++ B "/" ++ id)
          else none) with
        | some files => files
        | none => fallbackChildren store id dirOrder

/-- The node `id` of the tree widget is reached from the root node `""` by taking
children, whatever the order of each `range`. -/
inductive Reachable (store : PasswordStore) : GoString → Prop where
  | root : Reachable store []
  | child (id c : GoString) (nestedOrder dirOrder : List GoString) :
      Reachable store id → c ∈ childUIDs store nestedOrder dirOrder id → Reachable store c

/-- The names under which the tree widget shows a tree: the name of every directory and
the display name of every `.gpg` file. -/
def nodeNames : FS → List GoString
  | .unreadable _ => []
  | .listing es sub =>
    es.flatMap (fun e =>
      if e.IsDir then e.Name :: nodeNames (sub e.Name)
      else if HasSuffix e.Name (B ".gpg") then [TrimSuffix e.Name (B ".gpg")]
      else [])

/-- The nodes of the test tree that the tree widget can reach. -/
def reachedNodes : List GoString :=
  [[], B "Root", B "Directories", B "root1", B "root2", B "dir1", B "dir2", B "file1",
   B "file2", B "subdir1", B "file3", B "subdir2", B "subfile1", B "subfile2"]

/-- The nodes among them that are neither one of the three fixed nodes, nor a key of
`DirContents`, nor a root file. -/
def innerNodes : List GoString :=
  [B "file1", B "file2", B "subdir1", B "file3", B "subdir2", B "subfile1", B "subfile2"]

/-- The index of the test tree below `/store`, as the scan assigns it. -/
def testStore : PasswordStore :=
  withDirectories
    (withRootFiles
      ((rootWrites (B "/store") testEntries testSub).foldl applyWrite (newStore (B "/store")))
      (gpgNames testEntries))
    (keptDirs testEntries testSub)

/-- Go `strings.TrimPrefix`: `s` without the leading `pre`, or `s` itself. -/
def TrimPrefix (s pre : GoString) : GoString :=
  if HasPrefix s pre then s.drop pre.length else s

/-- The body of the loop over `AllPaths` in the search handler: the string shown for the
stored path `full`, with `targetPath` and the separator removed from its front and
`.gpg` from its end. -/
def searchResult (targetPath full : GoString) : GoString :=
  let sep := [Separator]
  let rootPrefix := targetPath ++ sep
  let rel := TrimPrefix full rootPrefix
  if HasSuffix rel (B ".gpg") then TrimSuffix rel (B ".gpg") else rel

/-- The path that `fileList.OnSelected` opens for the search result `rel`. -/
def searchSelection (targetPath rel : GoString) : GoString :=
  filepathJoin [targetPath, rel ++ B ".gpg"]


/-! ## Paths made of valid names -/

theorem validName_iff (n : GoString) :
    validName n = true ↔ n ≠ [] ∧ Separator ∉ n ∧ n ≠ dot ∧ n ≠ dotdot := by
  simp [validName, and_assoc]

theorem intercalate_cons_cons (sep x y : GoString) (l : List GoString) :
    sep.intercalate (x :: y :: l) = x ++ sep ++ sep.intercalate (y :: l) := by
  simp [List.intercalate, List.intersperse]

theorem intercalate_singleton (sep x : GoString) : sep.intercalate [x] = x := by
  simp [List.intercalate, List.intersperse]

theorem intercalate_append_singleton (sep c : GoString) (comps : List GoString)
    (h : comps ≠ []) :
    sep.intercalate (comps ++ [c]) = sep.intercalate comps ++ sep ++ c := by
  induction comps with
  | nil => exact absurd rfl h
  | cons x l ih =>
    cases l with
    | nil => simp [intercalate_cons_cons, intercalate_singleton]
    | cons y l =>
      have := ih (by simp)
      rw [List.cons_append, List.cons_append, intercalate_cons_cons, ← List.cons_append,
        this, intercalate_cons_cons]
      simp [List.append_assoc]

theorem pathElems_ne_nil (s : GoString) : pathElems s ≠ [] := by
  induction s with
  | nil => simp [pathElems]
  | cons c cs ih =>
    unfold pathElems
    split
    · simp
    · split <;> simp

theorem pathElems_noSep (x : GoString) (h : Separator ∉ x) : pathElems x = [x] := by
  induction x with
  | nil => rfl
  | cons c cs ih =>
    have hc : c ≠ Separator := fun e => h (by simp [e])
    have hcs : Separator ∉ cs := fun e => h (List.mem_cons_of_mem _ e)
    simp [pathElems, hc, ih hcs]

theorem pathElems_append_sep (x rest : GoString) (h : Separator ∉ x) :
    pathElems (x ++ Separator :: rest) = x :: pathElems rest := by
  induction x with
  | nil => simp [pathElems]
  | cons c cs ih =>
    have hc : c ≠ Separator := fun e => h (by simp [e])
    have hcs : Separator ∉ cs := fun e => h (List.mem_cons_of_mem _ e)
    simp [pathElems, hc, ih hcs]

theorem pathElems_intercalate (comps : List GoString) (hne : comps ≠ [])
    (h : ∀ c ∈ comps, Separator ∉ c) :
    pathElems ([Separator].intercalate comps) = comps := by
  induction comps with
  | nil => exact absurd rfl hne
  | cons x l ih =>
    cases l with
    | nil =>
      rw [intercalate_singleton]
      exact pathElems_noSep x (h x (by simp))
    | cons y l =>
      rw [intercalate_cons_cons, List.append_assoc, List.singleton_append,
        pathElems_append_sep x _ (h x (by simp)), ih (by simp)]
      intro c hc
      exact h c (List.mem_cons_of_mem _ hc)

theorem cleanStep_valid (rooted : Bool) (out : List GoString) (c : GoString)
    (h : validName c = true) : cleanStep rooted out c = out ++ [c] := by
  rw [validName_iff] at h
  obtain ⟨h1, _, h3, h4⟩ := h
  simp [cleanStep, h1, h3, h4]

theorem foldl_cleanStep_valid (rooted : Bool) (comps : List GoString)
    (h : ∀ c ∈ comps, validName c = true) (out : List GoString) :
    comps.foldl (cleanStep rooted) out = out ++ comps := by
  induction comps generalizing out with
  | nil => simp
  | cons c cs ih =>
    rw [List.foldl_cons, cleanStep_valid rooted out c (h c (by simp)), ih]
    · simp
    · intro x hx
      exact h x (List.mem_cons_of_mem _ hx)

theorem intercalate_head (x : GoString) (l : List GoString) (hx : x ≠ []) :
    ([Separator].intercalate (x :: l)).head? = x.head? := by
  cases x with
  | nil => exact absurd rfl hx
  | cons a x =>
    cases l with
    | nil => simp [intercalate_singleton]
    | cons y l => simp [intercalate_cons_cons]

/-- `filepath.Clean` leaves a relative path of valid names as it is. -/
theorem Clean_intercalate (comps : List GoString) (hne : comps ≠ [])
    (h : ∀ c ∈ comps, validName c = true) :
    Clean ([Separator].intercalate comps) = [Separator].intercalate comps := by
  have hsep : ∀ c ∈ comps, Separator ∉ c := fun c hc =>
    ((validName_iff c).1 (h c hc)).2.1
  cases comps with
  | nil => exact absurd rfl hne
  | cons x l =>
    have hx := (validName_iff x).1 (h x (by simp))
    obtain ⟨a, x', rfl⟩ := List.exists_cons_of_ne_nil hx.1
    have ha : a ≠ Separator := fun e => hx.2.1 (by simp [e])
    have hhead := intercalate_head (a :: x') l (by simp)
    have hnil : [Separator].intercalate ((a :: x') :: l) ≠ [] := by
      intro e
      rw [e] at hhead
      simp at hhead
    have hroot : isRooted ([Separator].intercalate ((a :: x') :: l)) = false := by
      simp [isRooted, hhead, ha]
    unfold Clean
    rw [if_neg hnil]
    simp only [cleanElems, renderPath, hroot]
    rw [pathElems_intercalate _ hne hsep, foldl_cleanStep_valid _ _ h]
    simp [hnil]

theorem filepathJoin_pair (a c : GoString) (ha : a ≠ []) :
    filepathJoin [a, c] = Clean (a ++ [Separator] ++ c) := by
  simp [filepathJoin, List.dropWhile, ha, intercalate_cons_cons, intercalate_singleton]

theorem intercalate_ne_nil (x : GoString) (l : List GoString) (hx : x ≠ []) :
    [Separator].intercalate (x :: l) ≠ [] := by
  intro e
  have := intercalate_head x l hx
  rw [e] at this
  cases x with
  | nil => exact hx rfl
  | cons a x => simp at this

theorem filepathJoin_rel (comps : List GoString) (c : GoString) (hne : comps ≠ [])
    (h : ∀ x ∈ comps, validName x = true) (hc : validName c = true) :
    filepathJoin [[Separator].intercalate comps, c] = [Separator].intercalate (comps ++ [c]) := by
  obtain ⟨x, l, rfl⟩ := List.exists_cons_of_ne_nil hne
  have hx := (validName_iff x).1 (h x (by simp))
  rw [filepathJoin_pair _ _ (intercalate_ne_nil x l hx.1),
    ← intercalate_append_singleton _ _ _ hne]
  apply Clean_intercalate _ (by simp)
  intro y hy
  rcases List.mem_append.1 hy with hy | hy
  · exact h y hy
  · rw [List.mem_singleton.1 hy]; exact hc

/-- Joining valid names one after the other gives the names separated by `/`. -/
theorem joinAll_rel (comps cs : List GoString) (hne : comps ≠ [])
    (h : ∀ x ∈ comps, validName x = true) (hcs : ∀ x ∈ cs, validName x = true) :
    joinAll ([Separator].intercalate comps) cs = [Separator].intercalate (comps ++ cs) := by
  induction cs generalizing comps with
  | nil => simp [joinAll]
  | cons c cs ih =>
    have hc := hcs c (by simp)
    simp only [joinAll, List.foldl_cons]
    rw [filepathJoin_rel comps c hne h hc]
    have := ih (comps ++ [c]) (by simp)
      (by
        intro y hy
        rcases List.mem_append.1 hy with hy | hy
        · exact h y hy
        · rw [List.mem_singleton.1 hy]; exact hc)
      (fun y hy => hcs y (List.mem_cons_of_mem _ hy))
    simpa [joinAll] using this

theorem joinAll_eq_relPath (c : GoString) (cs : List GoString)
    (h : ∀ x ∈ c :: cs, validName x = true) :
    joinAll c cs = relPath (c :: cs) := by
  have := joinAll_rel [c] cs (by simp) (fun x hx => h x (by simpa using Or.inl (List.mem_singleton.1 hx)))
    (fun x hx => h x (List.mem_cons_of_mem _ hx))
  rw [intercalate_singleton] at this
  rw [this]
  rfl

theorem relPath_injective (a b : List GoString) (ha : a ≠ []) (hb : b ≠ [])
    (hva : ∀ x ∈ a, validName x = true) (hvb : ∀ x ∈ b, validName x = true)
    (h : relPath a = relPath b) : a = b := by
  have e : [Separator].intercalate a = [Separator].intercalate b := h
  have h1 := pathElems_intercalate a ha (fun c hc => ((validName_iff c).1 (hva c hc)).2.1)
  have h2 := pathElems_intercalate b hb (fun c hc => ((validName_iff c).1 (hvb c hc)).2.1)
  rw [← h1, ← h2, e]

/-- Removing a suffix that is there and appending it again gives the string back. -/
theorem TrimSuffix_append (s suffix : GoString) (h : HasSuffix s suffix = true) :
    TrimSuffix s suffix ++ suffix = s := by
  unfold TrimSuffix
  rw [if_pos h]
  unfold HasSuffix at h
  rw [List.isSuffixOf_iff_suffix] at h
  obtain ⟨t, rfl⟩ := h
  simp

theorem TrimSuffix_of_not (s suffix : GoString) (h : HasSuffix s suffix = false) :
    TrimSuffix s suffix = s := by
  simp [TrimSuffix, h]

/-! ## `filepath.Join` of several names is the same as joining one name after the other -/

theorem pathElems_append (a b : GoString) :
    pathElems (a ++ Separator :: b) = pathElems a ++ pathElems b := by
  induction a with
  | nil => simp [pathElems]
  | cons c a ih =>
    by_cases hc : c = Separator
    · simp [pathElems, hc, ih]
    · obtain ⟨e, es, he⟩ := List.exists_cons_of_ne_nil (pathElems_ne_nil a)
      simp [pathElems, hc, ih, he]

theorem pathElems_sepfree (s : GoString) : ∀ e ∈ pathElems s, Separator ∉ e := by
  induction s with
  | nil => simp [pathElems]
  | cons c s ih =>
    intro e he
    by_cases hc : c = Separator
    · simp only [pathElems, hc, if_true, List.mem_cons] at he
      rcases he with rfl | he
      · simp
      · exact ih e he
    · obtain ⟨e2, es, he2⟩ := List.exists_cons_of_ne_nil (pathElems_ne_nil s)
      simp only [pathElems, hc, if_false, he2, List.mem_cons] at he
      rcases he with rfl | he
      · have := ih e2 (by simp [he2])
        simp only [List.mem_cons, not_or]
        exact ⟨fun h => hc h.symm, this⟩
      · exact ih e (by simp [he2, he])

theorem validName_dotdot : validName dotdot = false := by decide

theorem cleanStep_inv (rooted : Bool) (out : List GoString) (elem : GoString)
    (hout : CleanInv rooted out) (helem : Separator ∉ elem) :
    CleanInv rooted (cleanStep rooted out elem) := by
  obtain ⟨k, reals, rfl, hk, hr⟩ := hout
  unfold cleanStep
  by_cases h1 : elem = [] ∨ elem = dot
  · rw [if_pos h1]; exact ⟨k, reals, rfl, hk, hr⟩
  · rw [if_neg h1]
    by_cases h2 : elem = dotdot
    · rw [if_pos h2]
      rcases List.eq_nil_or_concat reals with hnil | ⟨rs, r, hcat⟩
      · subst hnil
        simp only [List.append_nil]
        cases k with
        | zero =>
          simp only [List.replicate_zero, List.getLast?_nil]
          cases rooted with
          | true => exact ⟨0, [], by simp, fun _ => rfl, by simp⟩
          | false => exact ⟨1, [], by simp, by simp, by simp⟩
        | succ k =>
          have hl : (List.replicate (k + 1) dotdot).getLast? = some dotdot := by
            rw [List.replicate_succ']
            simp
          rw [hl]
          simp only [if_true]
          refine ⟨k + 2, [], ?_, ?_, by simp⟩
          · rw [List.append_nil, List.replicate_succ' (k + 1)]
          · intro h
            have := hk h
            omega
      · rw [List.concat_eq_append] at hcat
        subst hcat
        have hl : (List.replicate k dotdot ++ (rs ++ [r])).getLast? = some r := by
          rw [← List.append_assoc]
          simp
        have hrv : validName r = true := hr r (by simp)
        have hne : r ≠ dotdot := by
          intro e
          rw [e, validName_dotdot] at hrv
          cases hrv
        rw [hl]
        simp only [hne, if_false]
        refine ⟨k, rs, ?_, hk, fun x hx => hr x (by simp [hx])⟩
        rw [← List.append_assoc, List.dropLast_concat]
    · rw [if_neg h2]
      refine ⟨k, reals ++ [elem], by simp, hk, ?_⟩
      intro x hx
      rcases List.mem_append.1 hx with hx | hx
      · exact hr x hx
      · rw [List.mem_singleton.1 hx, validName_iff]
        exact ⟨fun e => h1 (Or.inl e), helem, fun e => h1 (Or.inr e), h2⟩

theorem foldl_cleanStep_inv (rooted : Bool) (elems : List GoString)
    (h : ∀ e ∈ elems, Separator ∉ e) (out : List GoString) (hout : CleanInv rooted out) :
    CleanInv rooted (elems.foldl (cleanStep rooted) out) := by
  induction elems generalizing out with
  | nil => exact hout
  | cons e es ih =>
    rw [List.foldl_cons]
    exact ih (fun x hx => h x (List.mem_cons_of_mem _ hx)) _
      (cleanStep_inv rooted out e hout (h e (by simp)))

theorem cleanElems_def (path : GoString) :
    cleanElems path = (pathElems path).foldl (cleanStep (isRooted path)) [] := rfl

theorem cleanElems_inv (path : GoString) : CleanInv (isRooted path) (cleanElems path) :=
  foldl_cleanStep_inv _ _ (pathElems_sepfree path) [] ⟨0, [], by simp, fun _ => rfl, by simp⟩

theorem foldl_cleanStep_dotdots (k j : Nat) :
    (List.replicate k dotdot).foldl (cleanStep false) (List.replicate j dotdot) =
      List.replicate (j + k) dotdot := by
  induction k generalizing j with
  | zero => simp
  | succ k ih =>
    rw [List.replicate_succ, List.foldl_cons]
    have hstep : cleanStep false (List.replicate j dotdot) dotdot =
        List.replicate (j + 1) dotdot := by
      cases j with
      | zero => simp [cleanStep, dotdot, dot]
      | succ j =>
        have hl : (List.replicate (j + 1) dotdot).getLast? = some dotdot := by
          rw [List.replicate_succ']
          simp
        have hd : ¬ (dotdot = [] ∨ dotdot = dot) := by decide
        unfold cleanStep
        rw [if_neg hd, if_pos rfl, hl]
        simp only [if_true]
        rw [List.replicate_succ' (j + 1)]
    rw [hstep, ih]
    congr 1
    omega

/-- Cleaning what `filepath.Clean` has written changes nothing. -/
theorem foldl_cleanStep_fixed (rooted : Bool) (out : List GoString)
    (h : CleanInv rooted out) : out.foldl (cleanStep rooted) [] = out := by
  obtain ⟨k, reals, rfl, hk, hr⟩ := h
  rw [List.foldl_append]
  cases rooted with
  | true =>
    have := hk rfl
    subst this
    simp only [List.replicate_zero, List.foldl_nil, List.nil_append]
    simpa using foldl_cleanStep_valid true reals hr []
  | false =>
    have := foldl_cleanStep_dotdots k 0
    simp only [List.replicate_zero, Nat.zero_add] at this
    rw [this, foldl_cleanStep_valid false reals hr]

theorem cleanInv_elem_ne_nil (rooted : Bool) (out : List GoString) (h : CleanInv rooted out) :
    ∀ e ∈ out, e ≠ [] ∧ Separator ∉ e := by
  obtain ⟨k, reals, rfl, _, hr⟩ := h
  intro e he
  rcases List.mem_append.1 he with he | he
  · rw [(List.mem_replicate.1 he).2]
    decide
  · have := (validName_iff e).1 (hr e he)
    exact ⟨this.1, this.2.1⟩

theorem isRooted_append (x y : GoString) (hx : x ≠ []) : isRooted (x ++ y) = isRooted x := by
  cases x with
  | nil => exact absurd rfl hx
  | cons a x => simp [isRooted]

theorem cleanElems_append_name (x c : GoString) (hx : x ≠ []) (hc : validName c = true) :
    cleanElems (x ++ Separator :: c) = cleanElems x ++ [c] := by
  have hsep := ((validName_iff c).1 hc).2.1
  unfold cleanElems
  rw [isRooted_append x _ hx, pathElems_append, List.foldl_append, pathElems_noSep c hsep,
    List.foldl_cons, List.foldl_nil, cleanStep_valid _ _ _ hc]

theorem renderPath_snoc_ne_nil (rooted : Bool) (out : List GoString) (c : GoString)
    (hout : ∀ e ∈ out, e ≠ [] ∧ Separator ∉ e) (hc : c ≠ []) :
    renderPath rooted (out ++ [c]) ≠ [] := by
  unfold renderPath
  cases rooted with
  | true => simp
  | false =>
    simp only [Bool.false_eq_true, if_false, List.nil_append]
    cases out with
    | nil => simpa [intercalate_singleton] using hc
    | cons e es => exact intercalate_ne_nil e _ (hout e (by simp)).1

/-- Cleaning a non-empty path extended by one name. -/
theorem Clean_append_name (x c : GoString) (hx : x ≠ []) (hc : validName c = true) :
    Clean (x ++ Separator :: c) = renderPath (isRooted x) (cleanElems x ++ [c]) := by
  have hne : x ++ Separator :: c ≠ [] := by simp
  have hcne := ((validName_iff c).1 hc).1
  unfold Clean
  rw [if_neg hne]
  simp only [isRooted_append x _ hx, cleanElems_append_name x c hx hc]
  rw [if_neg (renderPath_snoc_ne_nil _ _ _
    (cleanInv_elem_ne_nil _ _ (cleanElems_inv x)) hcne)]

theorem Clean_ne_nil (x : GoString) : Clean x ≠ [] := by
  unfold Clean
  split
  · decide
  · simp only
    split
    · decide
    · assumption

/-- What `filepath.Clean` returns is rooted exactly when the path is, and cleaning it
again keeps its elements. -/
theorem Clean_parts (x : GoString) (hx : x ≠ []) :
    isRooted (Clean x) = isRooted x ∧ cleanElems (Clean x) = cleanElems x := by
  have hinv := cleanElems_inv x
  have helem := cleanInv_elem_ne_nil _ _ hinv
  have hfix := foldl_cleanStep_fixed _ _ hinv
  unfold Clean
  rw [if_neg hx]
  simp only
  cases hr : isRooted x with
  | true =>
    rw [hr] at hfix
    have hs : renderPath true (cleanElems x) = Separator :: [Separator].intercalate (cleanElems x) := by
      simp [renderPath]
    rw [hs, if_neg (by simp)]
    refine ⟨by simp [isRooted], ?_⟩
    have hroot : isRooted (Separator :: [Separator].intercalate (cleanElems x)) = true := by
      simp [isRooted]
    rw [cleanElems_def (Separator :: [Separator].intercalate (cleanElems x)), hroot]
    cases hout : cleanElems x with
    | nil =>
      simp [List.intercalate, pathElems, cleanStep]
    | cons e es =>
      have hp : pathElems (Separator :: [Separator].intercalate (e :: es)) =
          [] :: (e :: es) := by
        have := pathElems_intercalate (e :: es) (by simp)
          (fun c hc => (helem c (by rw [hout]; exact hc)).2)
        simp [pathElems, this]
      rw [hp, List.foldl_cons]
      have h0 : cleanStep true [] [] = [] := by simp [cleanStep]
      rw [h0]
      rw [hout] at hfix
      exact hfix
  | false =>
    rw [hr] at hfix
    have hs : renderPath false (cleanElems x) = [Separator].intercalate (cleanElems x) := by
      simp [renderPath]
    rw [hs]
    cases hout : cleanElems x with
    | nil =>
      simp only [List.intercalate, List.intersperse, List.flatten_nil, if_true]
      exact ⟨by decide, by decide⟩
    | cons e es =>
      have he := helem e (by rw [hout]; simp)
      rw [if_neg (intercalate_ne_nil e es he.1)]
      have hhead := intercalate_head e es he.1
      obtain ⟨a, e2, rfl⟩ := List.exists_cons_of_ne_nil he.1
      have ha : a ≠ Separator := fun h => he.2 (by simp [h])
      have hroot : isRooted ([Separator].intercalate ((a :: e2) :: es)) = false := by
        simp [isRooted, hhead, ha]
      refine ⟨hroot, ?_⟩
      rw [cleanElems_def ([Separator].intercalate ((a :: e2) :: es)), hroot,
        pathElems_intercalate _ (by simp)
          (fun c hc => (helem c (by rw [hout]; exact hc)).2)]
      rw [hout] at hfix
      exact hfix

/-- Joining a name to a cleaned path is joining it to the path. -/
theorem Clean_Clean_append_name (x c : GoString) (hx : x ≠ []) (hc : validName c = true) :
    Clean (Clean x ++ Separator :: c) = Clean (x ++ Separator :: c) := by
  rw [Clean_append_name (Clean x) c (Clean_ne_nil x) hc, Clean_append_name x c hx hc,
    (Clean_parts x hx).1, (Clean_parts x hx).2]

theorem dropWhile_append_single {α : Type} (p : α → Bool) (es : List α) (c : α)
    (hc : p c = false) : (es ++ [c]).dropWhile p = es.dropWhile p ++ [c] := by
  induction es with
  | nil => simp [List.dropWhile, hc]
  | cons e es ih =>
    cases he : p e
    · simp [List.dropWhile, he]
    · simp [List.dropWhile, he, ih]

theorem dropWhile_head {α : Type} (p : α → Bool) (es : List α) (e : α) (l : List α)
    (h : es.dropWhile p = e :: l) : p e = false := by
  induction es with
  | nil => simp at h
  | cons x es ih =>
    cases hx : p x
    · simp only [List.dropWhile, hx, List.cons.injEq] at h
      rw [← h.1]; exact hx
    · simp only [List.dropWhile, hx] at h
      exact ih h

/-- Joining a name to the join of a list of elements is the join of the longer list. -/
theorem filepathJoin_snoc (es : List GoString) (c : GoString) (hc : validName c = true) :
    filepathJoin [filepathJoin es, c] = filepathJoin (es ++ [c]) := by
  have hcne := ((validName_iff c).1 hc).1
  have hd := dropWhile_append_single (fun e : GoString => decide (e = [])) es c (by simpa using hcne)
  cases hes : es.dropWhile (fun e => decide (e = [])) with
  | nil =>
    have h1 : filepathJoin es = [] := by simp [filepathJoin, hes]
    rw [hes] at hd
    rw [h1]
    simp [filepathJoin, hd, List.dropWhile, hcne]
  | cons e l =>
    have he : e ≠ [] := by simpa using dropWhile_head _ _ _ _ hes
    have h1 : filepathJoin es = Clean ([Separator].intercalate (e :: l)) := by
      simp [filepathJoin, hes]
    rw [hes] at hd
    have h2 : filepathJoin (es ++ [c]) = Clean ([Separator].intercalate (e :: l ++ [c])) := by
      simp [filepathJoin, hd]
    rw [h1, h2, filepathJoin_pair _ _ (Clean_ne_nil _), List.append_assoc,
      List.singleton_append, Clean_Clean_append_name _ _ (intercalate_ne_nil e l he) hc,
      intercalate_append_singleton _ _ _ (by simp), List.append_assoc,
      List.singleton_append]

/-- Joining valid names to a path one after the other is `filepath.Join` of the path and
all the names. -/
theorem joinAll_eq_filepathJoin (t : GoString) (cs : List GoString) (hne : cs ≠ [])
    (hcs : ∀ c ∈ cs, validName c = true) :
    joinAll t cs = filepathJoin (t :: cs) := by
  induction cs using List.reverseRecOn with
  | nil => exact absurd rfl hne
  | append_singleton init c ih =>
    have hc := hcs c (by simp)
    have hstep : joinAll t (init ++ [c]) = filepathJoin [joinAll t init, c] := by
      simp [joinAll, List.foldl_append]
    rw [hstep]
    cases init with
    | nil => rfl
    | cons i0 init =>
      rw [ih (by simp) (fun x hx => hcs x (List.mem_append_left _ hx)),
        filepathJoin_snoc _ _ hc]
      rfl

/-! ## Splitting at a one-byte separator, and substrings -/

theorem splitAux_single_noSep (b : Nat) (x cur : GoString) (h : b ∉ x) :
    splitAux [b] x 0 cur = [cur ++ x] := by
  induction x generalizing cur with
  | nil => simp [splitAux]
  | cons c cs ih =>
    have hc : b ≠ c := fun e => h (by simp [e])
    have hcs : b ∉ cs := fun e => h (List.mem_cons_of_mem _ e)
    simp [splitAux, List.isPrefixOf, hc, ih _ hcs]

theorem splitAux_single_sep (b : Nat) (x rest cur : GoString) (h : b ∉ x) :
    splitAux [b] (x ++ b :: rest) 0 cur = (cur ++ x) :: splitAux [b] rest 0 [] := by
  induction x generalizing cur with
  | nil => simp [splitAux, List.isPrefixOf]
  | cons c cs ih =>
    have hc : b ≠ c := fun e => h (by simp [e])
    have hcs : b ∉ cs := fun e => h (List.mem_cons_of_mem _ e)
    simp [splitAux, List.isPrefixOf, hc, ih _ hcs]

/-- Splitting the join of separator-free pieces gives the pieces back. -/
theorem Split_Join_single (b : Nat) (ls : List GoString) (hne : ls ≠ [])
    (h : ∀ l ∈ ls, b ∉ l) : Split (Join ls [b]) [b] = ls := by
  unfold Split Join
  induction ls with
  | nil => exact absurd rfl hne
  | cons x l ih =>
    cases l with
    | nil =>
      rw [intercalate_singleton, splitAux_single_noSep b x [] (h x (by simp))]
      simp
    | cons y l =>
      rw [intercalate_cons_cons, List.append_assoc, List.singleton_append,
        splitAux_single_sep b x _ [] (h x (by simp)), ih (by simp)]
      · simp
      · intro z hz
        exact h z (List.mem_cons_of_mem _ hz)

theorem splitAux_single_pieces (b : Nat) (s : GoString) :
    ∀ cur : GoString, b ∉ cur → ∀ l ∈ splitAux [b] s 0 cur, b ∉ l := by
  induction s with
  | nil =>
    intro cur hcur l hl
    simp only [splitAux, List.mem_singleton] at hl
    rw [hl]; exact hcur
  | cons c cs ih =>
    intro cur hcur l hl
    simp only [splitAux] at hl
    split at hl
    · rcases List.mem_cons.1 hl with rfl | hl
      · exact hcur
      · exact ih [] (by simp) l (by simpa using hl)
    · rename_i hp
      have hc : b ≠ c := by
        intro e
        apply hp
        simp [List.isPrefixOf, e]
      apply ih (cur ++ [c]) _ l hl
      simp only [List.mem_append, List.mem_singleton, not_or]
      exact ⟨hcur, hc⟩

/-- No piece of a split at a one-byte separator contains the separator. -/
theorem Split_single_pieces (b : Nat) (s : GoString) : ∀ l ∈ Split s [b], b ∉ l :=
  splitAux_single_pieces b s [] (by simp)

theorem Contains_of_isPrefixOf (s substr : GoString) (h : substr.isPrefixOf s = true) :
    Contains s substr = true := by
  cases s with
  | nil => simpa [Contains] using h
  | cons c cs => simp [Contains, h]

/-- `strings.Contains` holds exactly when the substring occurs in the string. -/
theorem Contains_iff (s substr : GoString) :
    Contains s substr = true ↔ ∃ a b, s = a ++ substr ++ b := by
  induction s with
  | nil =>
    simp only [Contains, List.isPrefixOf_iff_prefix]
    constructor
    · intro h
      have := List.eq_nil_of_prefix_nil h
      exact ⟨[], [], by simp [this]⟩
    · rintro ⟨a, b, h⟩
      have h2 : substr = [] := by
        have := congrArg List.length h
        simp only [List.length_nil, List.length_append] at this
        exact List.length_eq_zero.1 (by omega)
      rw [h2]
  | cons c cs ih =>
    simp only [Contains, Bool.or_eq_true, List.isPrefixOf_iff_prefix, ih]
    constructor
    · rintro (⟨t, ht⟩ | ⟨a, b, h⟩)
      · exact ⟨[], t, by simp [ht]⟩
      · exact ⟨c :: a, b, by simp [h]⟩
    · rintro ⟨a, b, h⟩
      cases a with
      | nil => exact Or.inl ⟨b, by simpa using h.symm⟩
      | cons a0 a =>
        simp only [List.cons_append, List.cons.injEq] at h
        exact Or.inr ⟨a, b, h.2⟩
/-! ## The scan: what `scanDirectory` returns -/

theorem gpgNames_ne_nil (es : List DirEntry) :
    gpgNames es ≠ [] ↔ ∃ e ∈ es, isGpgFile e = true := by
  simp [gpgNames, List.filter_eq_nil_iff]

theorem keptDirs_ne_nil (es : List DirEntry) (sub : GoString → FS) :
    keptDirs es sub ≠ [] ↔ ∃ e ∈ es, e.IsDir = true ∧ hasGpg (sub e.Name) = true := by
  simp [keptDirs, List.filter_eq_nil_iff]

theorem hasGpg_listing (es : List DirEntry) (sub : GoString → FS) :
    hasGpg (.listing es sub) = true ↔ gpgNames es ≠ [] ∨ keptDirs es sub ≠ [] := by
  rw [gpgNames_ne_nil, keptDirs_ne_nil]
  simp only [hasGpg, List.any_eq_true]
  constructor
  · rintro ⟨e, he, h⟩
    cases hd : e.IsDir
    · left
      refine ⟨e, he, ?_⟩
      simpa [isGpgFile, hd] using h
    · right
      refine ⟨e, he, hd, ?_⟩
      simpa [hd] using h
  · rintro (⟨e, he, h⟩ | ⟨e, he, hd, h⟩)
    · refine ⟨e, he, ?_⟩
      simp only [isGpgFile, Bool.and_eq_true, Bool.not_eq_true'] at h
      simp [h.1, h.2]
    · refine ⟨e, he, ?_⟩
      simp [hd, h]

theorem foldl_scanStep (sub : GoString → FS) (f : GoString → Except GoString ScanResult)
    (hf : ∀ name, (match f name with
        | .error _ => false
        | .ok (fs, ss) => decide (fs.length > 0 ∨ ss.length > 0)) = hasGpg (sub name))
    (es : List DirEntry) (acc : ScanResult) :
    es.foldl (scanStep f) acc = (acc.1 ++ gpgNames es, acc.2 ++ keptDirs es sub) := by
  induction es generalizing acc with
  | nil => simp [gpgNames, keptDirs]
  | cons e es ih =>
    rw [List.foldl_cons, ih]
    have h := hf e.Name
    unfold scanStep
    cases hd : e.IsDir
    · cases hs : HasSuffix e.Name (B ".gpg") <;>
        simp [gpgNames, keptDirs, isGpgFile, List.filter_cons, hd, hs]
    · cases hr : f e.Name with
      | error msg =>
        rw [hr] at h
        simp [gpgNames, keptDirs, isGpgFile, List.filter_cons, hd, ← h]
      | ok res =>
        obtain ⟨fs, ss⟩ := res
        rw [hr] at h
        simp only at h
        by_cases hk : fs.length > 0 ∨ ss.length > 0
        · have hg : hasGpg (sub e.Name) = true := by rw [← h]; simpa using hk
          simp [gpgNames, keptDirs, isGpgFile, List.filter_cons, hd, hg, hk]
        · have hg : hasGpg (sub e.Name) = false := by rw [← h]; simpa using hk
          simp [gpgNames, keptDirs, isGpgFile, List.filter_cons, hd, hg, hk]

/-- What `scanDirectory` returns: an error for an unreadable directory, and otherwise the
display names of the listing with the subdirectories that lead to a `.gpg` file. -/
theorem scanDirectory_spec (d : FS) : ∀ p r : GoString,
    scanDirectory p r d =
      (match d with
       | .unreadable err => .error (B "error reading directory " ++ p ++ B ": " ++ err)
       | .listing es sub => .ok (gpgNames es, keptDirs es sub)) := by
  induction d with
  | unreadable err => intro p r; rfl
  | listing es sub ih =>
    intro p r
    simp only [scanDirectory]
    rw [foldl_scanStep sub]
    · simp
    · intro name
      rw [ih name]
      cases hsub : sub name with
      | unreadable err => simp [hasGpg]
      | listing es2 sub2 =>
        simp only
        have := hasGpg_listing es2 sub2
        cases hg : hasGpg (.listing es2 sub2)
        · simp only [hg, Bool.false_eq_true, false_iff, not_or, not_not] at this
          simp [this.1, this.2]
        · simp only [hg, true_iff] at this
          simp only [decide_eq_true_eq, gt_iff_lt, List.length_pos]
          exact this

theorem scanDirectory_listing (es : List DirEntry) (sub : GoString → FS) (p r : GoString) :
    scanDirectory p r (.listing es sub) = .ok (gpgNames es, keptDirs es sub) :=
  scanDirectory_spec (.listing es sub) p r


/-! ## The scan as a sequence of assignments -/

theorem storePaths_eq (st : PasswordStore) (dirPath : GoString) (files : List GoString) :
    storePaths st dirPath files = (pathWrites dirPath files).foldl applyWrite st := by
  unfold storePaths pathWrites
  rw [List.foldl_map]
  rfl

theorem processSubdirectories_eq (parent : FS) :
    ∀ (st : PasswordStore) (p r : GoString) (subdirs : List GoString),
      processSubdirectories st p r parent subdirs =
        (match parent with
         | .unreadable _ => st
         | .listing _ sub =>
           (subdirs.flatMap
              (fun n => dirWrites (filepathJoin [p, n]) (filepathJoin [r, n]) (sub n))).foldl
             applyWrite st) := by
  induction parent with
  | unreadable err => intro st p r subdirs; rfl
  | listing es sub ih =>
    intro st p r subdirs
    simp only [processSubdirectories]
    induction subdirs generalizing st with
    | nil => rfl
    | cons n rest ihr =>
      rw [List.foldl_cons, ihr, List.flatMap_cons, List.foldl_append]
      congr 1
      rw [scanDirectory_spec]
      have hn := ih n
      cases hsub : sub n with
      | unreadable err => simp [dirWrites]
      | listing es2 sub2 =>
        rw [hsub] at hn
        simp only at hn
        simp only [dirWrites, List.foldl_cons, List.foldl_append, storePaths_eq]
        by_cases hk : (keptDirs es2 sub2).length > 0
        · rw [if_pos hk, ← hsub, ih n, hsub]
          rfl
        · rw [if_neg hk]
          have : keptDirs es2 sub2 = [] := by
            cases hl : keptDirs es2 sub2 with
            | nil => rfl
            | cons a l => rw [hl] at hk; simp at hk
          rw [this]
          rfl

theorem applyWrites_withRootFiles (ws : List IndexWrite) (st : PasswordStore)
    (x : List GoString) :
    ws.foldl applyWrite (withRootFiles st x) = withRootFiles (ws.foldl applyWrite st) x := by
  induction ws generalizing st with
  | nil => rfl
  | cons w ws ih =>
    simp only [List.foldl_cons]
    rw [← ih]
    cases w <;> rfl

theorem applyWrites_withDirectories (ws : List IndexWrite) (st : PasswordStore)
    (x : List GoString) :
    ws.foldl applyWrite (withDirectories st x) =
      withDirectories (ws.foldl applyWrite st) x := by
  induction ws generalizing st with
  | nil => rfl
  | cons w ws ih =>
    simp only [List.foldl_cons]
    rw [← ih]
    cases w <;> rfl

theorem applyWrites_Directories (ws : List IndexWrite) (st : PasswordStore) :
    (ws.foldl applyWrite st).Directories = st.Directories := by
  induction ws generalizing st with
  | nil => rfl
  | cons w ws ih => rw [List.foldl_cons, ih]; cases w <;> rfl

theorem applyWrites_RootFiles (ws : List IndexWrite) (st : PasswordStore) :
    (ws.foldl applyWrite st).RootFiles = st.RootFiles := by
  induction ws generalizing st with
  | nil => rfl
  | cons w ws ih => rw [List.foldl_cons, ih]; cases w <;> rfl

theorem applyWrites_RootPath (ws : List IndexWrite) (st : PasswordStore) :
    (ws.foldl applyWrite st).RootPath = st.RootPath := by
  induction ws generalizing st with
  | nil => rfl
  | cons w ws ih => rw [List.foldl_cons, ih]; cases w <;> rfl

theorem rootFileStep_eq (t : GoString) (st : PasswordStore) (e : DirEntry) :
    rootFileStep t st e =
      if isGpgFile e = true then
        withRootFiles
          (applyWrite st (.path (TrimSuffix e.Name (B ".gpg"))
            (filepathJoin [t, TrimSuffix e.Name (B ".gpg") ++ B ".gpg"])))
          (st.RootFiles ++ [TrimSuffix e.Name (B ".gpg")])
      else st := by
  unfold rootFileStep isGpgFile
  split <;> rfl

theorem foldl_rootFileStep (t : GoString) (es : List DirEntry) (st : PasswordStore) :
    es.foldl (rootFileStep t) st =
      withRootFiles ((pathWrites t (gpgNames es)).foldl applyWrite st)
        (st.RootFiles ++ gpgNames es) := by
  induction es generalizing st with
  | nil => simp [gpgNames, pathWrites, withRootFiles]
  | cons e es ih =>
    rw [List.foldl_cons, ih, rootFileStep_eq]
    by_cases h : isGpgFile e = true
    · have hg : gpgNames (e :: es) = TrimSuffix e.Name (B ".gpg") :: gpgNames es := by
        simp [gpgNames, List.filter_cons, h]
      rw [if_pos h, hg, applyWrites_withRootFiles]
      simp [pathWrites, withRootFiles]
    · have hg : gpgNames (e :: es) = gpgNames es := by
        simp [gpgNames, List.filter_cons, h]
      rw [if_neg h, hg]

theorem rootDirStep_eq (t : GoString) (sub : GoString → FS) (st : PasswordStore)
    (e : DirEntry) :
    rootDirStep t sub st e =
      if (e.IsDir && hasGpg (sub e.Name)) = true then
        (dirWrites (filepathJoin [t, e.Name]) e.Name (sub e.Name)).foldl applyWrite
          (withDirectories st (st.Directories ++ [e.Name]))
      else st := by
  unfold rootDirStep
  by_cases hd : e.IsDir = true
  · simp only [hd, if_true, Bool.true_and, scanDirectory_spec]
    cases hsub : sub e.Name with
    | unreadable err => simp [hasGpg]
    | listing es2 sub2 =>
      simp only
      by_cases hg : hasGpg (FS.listing es2 sub2) = true
      · have hne : (gpgNames es2).length > 0 ∨ (keptDirs es2 sub2).length > 0 := by
          rw [hasGpg_listing] at hg
          simpa [List.length_pos] using hg
        rw [if_pos hne, if_pos hg]
        simp only [dirWrites, List.foldl_cons, List.foldl_append, storePaths_eq]
        rw [← hsub, processSubdirectories_eq, hsub]
        rfl
      · have hne : ¬ ((gpgNames es2).length > 0 ∨ (keptDirs es2 sub2).length > 0) := by
          rw [hasGpg_listing] at hg
          simpa [List.length_pos] using hg
        rw [if_neg hne, if_neg hg]
  · simp [hd]

theorem foldl_rootDirStep (t : GoString) (sub : GoString → FS) (es : List DirEntry)
    (st : PasswordStore) :
    es.foldl (rootDirStep t sub) st =
      withDirectories
        (((keptDirs es sub).flatMap
            (fun n => dirWrites (filepathJoin [t, n]) n (sub n))).foldl applyWrite st)
        (st.Directories ++ keptDirs es sub) := by
  induction es generalizing st with
  | nil => simp [keptDirs, withDirectories]
  | cons e es ih =>
    rw [List.foldl_cons, ih, rootDirStep_eq]
    by_cases h : (e.IsDir && hasGpg (sub e.Name)) = true
    · have hk : keptDirs (e :: es) sub = e.Name :: keptDirs es sub := by
        simp only [keptDirs, List.filter_cons, h, if_true, List.map_cons]
      rw [if_pos h, hk, applyWrites_withDirectories, List.flatMap_cons, List.foldl_append,
        applyWrites_withDirectories]
      simp [withDirectories]
    · have hk : keptDirs (e :: es) sub = keptDirs es sub := by
        simp only [keptDirs, List.filter_cons, h]
        rfl
      rw [if_neg h, hk]

/-- The store that `ScanPasswordStore` returns for a readable root: the root's display
names, the kept top-level directories, and the maps after the assignments of the scan. -/
theorem ScanPasswordStore_listing (t : GoString) (es : List DirEntry) (sub : GoString → FS) :
    ScanPasswordStore t (.listing es sub) =
      .ok (withDirectories
            (withRootFiles ((rootWrites t es sub).foldl applyWrite (newStore t))
              (gpgNames es))
            (keptDirs es sub)) := by
  simp only [ScanPasswordStore, foldl_rootFileStep, foldl_rootDirStep, rootWrites,
    List.foldl_append, applyWrites_withRootFiles]
  simp [withDirectories, withRootFiles, newStore, applyWrites_Directories]

/-! ## Which directories the scan reaches -/

theorem mem_keptDirs (es : List DirEntry) (sub : GoString → FS) (c : GoString) :
    c ∈ keptDirs es sub ↔
      (∃ e ∈ es, e.IsDir = true ∧ e.Name = c) ∧ hasGpg (sub c) = true := by
  simp only [keptDirs, List.mem_map, List.mem_filter, Bool.and_eq_true]
  constructor
  · rintro ⟨e, ⟨he, hd, hg⟩, rfl⟩
    exact ⟨⟨e, he, hd, rfl⟩, hg⟩
  · rintro ⟨⟨e, he, hd, rfl⟩, hg⟩
    exact ⟨e, ⟨he, hd, hg⟩, rfl⟩

theorem dirAt_cons (es : List DirEntry) (sub : GoString → FS) (c : GoString)
    (cs : List GoString) (d : FS) :
    dirAt (.listing es sub) (c :: cs) = some d ↔
      (∃ e ∈ es, e.IsDir = true ∧ e.Name = c) ∧ dirAt (sub c) cs = some d := by
  simp only [dirAt]
  split
  · rename_i h
    simp only [List.any_eq_true, Bool.and_eq_true, decide_eq_true_eq] at h
    simp [h]
  · rename_i h
    simp only [List.any_eq_true, Bool.and_eq_true, decide_eq_true_eq] at h
    simp [h]

theorem keptAt_cons (es : List DirEntry) (sub : GoString → FS) (c : GoString)
    (cs : List GoString) (d : FS) :
    keptAt (.listing es sub) (c :: cs) = some d ↔
      c ∈ keptDirs es sub ∧ keptAt (sub c) cs = some d := by
  simp only [keptAt]
  split <;> simp_all

theorem dirAt_unreadable (err : GoString) (cs : List GoString) (d : FS) :
    dirAt (.unreadable err) cs = some d ↔ cs = [] ∧ d = .unreadable err := by
  cases cs with
  | nil => simp [dirAt, eq_comm]
  | cons c cs => simp [dirAt]

theorem keptAt_unreadable (err : GoString) (cs : List GoString) (d : FS) :
    keptAt (.unreadable err) cs = some d ↔ cs = [] ∧ d = .unreadable err := by
  cases cs with
  | nil => simp [keptAt, eq_comm]
  | cons c cs => simp [keptAt]

/-- A `.gpg` file below a subdirectory is a `.gpg` file below the directory. -/
theorem hasGpg_of_dirAt (cs : List GoString) : ∀ (d d2 : FS),
    dirAt d cs = some d2 → hasGpg d2 = true → hasGpg d = true := by
  induction cs with
  | nil =>
    intro d d2 h hg
    simp only [dirAt, Option.some.injEq] at h
    rw [h]; exact hg
  | cons c cs ih =>
    intro d d2 h hg
    cases d with
    | unreadable err => simp [dirAt] at h
    | listing es sub =>
      rw [dirAt_cons] at h
      obtain ⟨⟨e, he, hd, rfl⟩, h2⟩ := h
      have := ih _ _ h2 hg
      simp only [hasGpg, List.any_eq_true]
      exact ⟨e, he, by simp [hd, this]⟩

/-- The directory at a path is reached through kept directories exactly when a `.gpg`
file lies at or below it. -/
theorem keptAt_iff (cs : List GoString) : ∀ (d d2 : FS), cs ≠ [] →
    (keptAt d cs = some d2 ↔ dirAt d cs = some d2 ∧ hasGpg d2 = true) := by
  induction cs with
  | nil => intro d d2 h; exact absurd rfl h
  | cons c cs ih =>
    intro d d2 _
    cases d with
    | unreadable err => simp [dirAt, keptAt]
    | listing es sub =>
      rw [keptAt_cons, dirAt_cons, mem_keptDirs]
      cases cs with
      | nil =>
        simp only [keptAt, dirAt, Option.some.injEq]
        constructor
        · rintro ⟨⟨h1, h2⟩, rfl⟩
          exact ⟨⟨h1, rfl⟩, h2⟩
        · rintro ⟨⟨h1, rfl⟩, h2⟩
          exact ⟨⟨h1, h2⟩, rfl⟩
      | cons c2 cs =>
        rw [ih (sub c) d2 (by simp)]
        constructor
        · rintro ⟨⟨h1, _⟩, h3, h4⟩
          exact ⟨⟨h1, h3⟩, h4⟩
        · rintro ⟨⟨h1, h3⟩, h4⟩
          exact ⟨⟨h1, hasGpg_of_dirAt _ _ _ h3 h4⟩, h3, h4⟩

theorem keptAt_dirAt (cs : List GoString) (d d2 : FS) (h : keptAt d cs = some d2) :
    dirAt d cs = some d2 := by
  cases cs with
  | nil => simpa [keptAt, dirAt] using h
  | cons c cs => exact ((keptAt_iff (c :: cs) d d2 (by simp)).1 h).1

/-- Reading `hasGpg`: some directory at or below `d` lists a non-directory entry whose
name ends in `.gpg`. -/
theorem hasGpg_iff (d : FS) :
    hasGpg d = true ↔
      ∃ below es sub, dirAt d below = some (.listing es sub) ∧
        ∃ e ∈ es, e.IsDir = false ∧ HasSuffix e.Name (B ".gpg") = true := by
  constructor
  · induction d with
    | unreadable err => simp [hasGpg]
    | listing es sub ih =>
      intro h
      simp only [hasGpg, List.any_eq_true] at h
      obtain ⟨e, he, h⟩ := h
      cases hd : e.IsDir
      · rw [hd] at h
        exact ⟨[], es, sub, rfl, e, he, hd, by simpa using h⟩
      · rw [hd] at h
        obtain ⟨below, es2, sub2, h1, h2⟩ := ih e.Name (by simpa using h)
        refine ⟨e.Name :: below, es2, sub2, ?_, h2⟩
        rw [dirAt_cons]
        exact ⟨⟨e, he, hd, rfl⟩, h1⟩
  · rintro ⟨below, es, sub, h1, e, he, hd, hs⟩
    apply hasGpg_of_dirAt below d _ h1
    simp only [hasGpg, List.any_eq_true]
    exact ⟨e, he, by simp [hd, hs]⟩

theorem joinAll_cons (base c : GoString) (cs : List GoString) :
    joinAll base (c :: cs) = joinAll (filepathJoin [base, c]) cs := rfl

/-- The assignments below a directory: one `dir` assignment for each directory reached
through kept directories, and one `path` assignment for each of its display names. -/
theorem mem_dirWrites (d : FS) : ∀ (p r : GoString) (w : IndexWrite),
    w ∈ dirWrites p r d ↔
      ∃ comps es sub, keptAt d comps = some (.listing es sub) ∧
        (w = .dir (joinAll r comps) (gpgNames es) (keptDirs es sub) ∨
          ∃ f ∈ gpgNames es, w = .path f (filepathJoin [joinAll p comps, f ++ B ".gpg"])) := by
  induction d with
  | unreadable err =>
    intro p r w
    simp [dirWrites, keptAt_unreadable]
  | listing es sub ih =>
    intro p r w
    simp only [dirWrites, List.mem_cons, List.mem_append, List.mem_flatMap, pathWrites,
      List.mem_map]
    constructor
    · rintro (h | ⟨f, hf, rfl⟩ | ⟨n, hn, hw⟩)
      · exact ⟨[], es, sub, rfl, Or.inl h⟩
      · exact ⟨[], es, sub, rfl, Or.inr ⟨f, hf, rfl⟩⟩
      · obtain ⟨comps, es2, sub2, h1, h2⟩ := (ih n _ _ w).1 hw
        refine ⟨n :: comps, es2, sub2, ?_, ?_⟩
        · rw [keptAt_cons]; exact ⟨hn, h1⟩
        · simpa [joinAll_cons] using h2
    · rintro ⟨comps, es2, sub2, h1, h2⟩
      cases comps with
      | nil =>
        simp only [keptAt, Option.some.injEq, FS.listing.injEq] at h1
        obtain ⟨rfl, rfl⟩ := h1
        rcases h2 with h | ⟨f, hf, rfl⟩
        · exact Or.inl h
        · exact Or.inr (Or.inl ⟨f, hf, rfl⟩)
      | cons n comps =>
        rw [keptAt_cons] at h1
        refine Or.inr (Or.inr ⟨n, h1.1, ?_⟩)
        rw [ih n]
        exact ⟨comps, es2, sub2, h1.2, by simpa [joinAll_cons] using h2⟩

/-! ## Reading the maps after a sequence of assignments -/

theorem applyWrites_DirContents_some (ws : List IndexWrite) (st : PasswordStore)
    (k : GoString) (v : List GoString)
    (h : (ws.foldl applyWrite st).DirContents k = some v) :
    st.DirContents k = some v ∨ ∃ ns, IndexWrite.dir k v ns ∈ ws := by
  induction ws generalizing st with
  | nil => exact Or.inl h
  | cons w ws ih =>
    rw [List.foldl_cons] at h
    rcases ih _ h with h1 | ⟨ns, h1⟩
    · cases w with
      | dir key files nested =>
        simp only [applyWrite, GoMap.set] at h1
        by_cases hk : k = key
        · rw [if_pos hk] at h1
          right
          refine ⟨nested, ?_⟩
          simp only [Option.some.injEq] at h1
          simp [hk, h1]
        · rw [if_neg hk] at h1
          exact Or.inl h1
      | path name full => exact Or.inl h1
    · exact Or.inr ⟨ns, List.mem_cons_of_mem _ h1⟩

theorem applyWrites_NestedDirs_some (ws : List IndexWrite) (st : PasswordStore)
    (k : GoString) (v : List GoString)
    (h : (ws.foldl applyWrite st).NestedDirs k = some v) :
    st.NestedDirs k = some v ∨ ∃ fs, IndexWrite.dir k fs v ∈ ws := by
  induction ws generalizing st with
  | nil => exact Or.inl h
  | cons w ws ih =>
    rw [List.foldl_cons] at h
    rcases ih _ h with h1 | ⟨fs, h1⟩
    · cases w with
      | dir key files nested =>
        simp only [applyWrite, GoMap.set] at h1
        by_cases hk : k = key
        · rw [if_pos hk] at h1
          right
          refine ⟨files, ?_⟩
          simp only [Option.some.injEq] at h1
          simp [hk, h1]
        · rw [if_neg hk] at h1
          exact Or.inl h1
      | path name full => exact Or.inl h1
    · exact Or.inr ⟨fs, List.mem_cons_of_mem _ h1⟩

theorem applyWrites_AllPaths_some (ws : List IndexWrite) (st : PasswordStore)
    (k v : GoString) (h : (ws.foldl applyWrite st).AllPaths k = some v) :
    st.AllPaths k = some v ∨ IndexWrite.path k v ∈ ws := by
  induction ws generalizing st with
  | nil => exact Or.inl h
  | cons w ws ih =>
    rw [List.foldl_cons] at h
    rcases ih _ h with h1 | h1
    · cases w with
      | dir key files nested => exact Or.inl h1
      | path name full =>
        simp only [applyWrite, GoMap.set] at h1
        by_cases hk : k = name
        · rw [if_pos hk] at h1
          right
          simp only [Option.some.injEq] at h1
          simp [hk, h1]
        · rw [if_neg hk] at h1
          exact Or.inl h1
    · exact Or.inr (List.mem_cons_of_mem _ h1)

theorem applyWrites_keys_mono (ws : List IndexWrite) (st : PasswordStore) (k : GoString) :
    ((st.DirContents k).isSome = true → ((ws.foldl applyWrite st).DirContents k).isSome = true) ∧
    ((st.NestedDirs k).isSome = true → ((ws.foldl applyWrite st).NestedDirs k).isSome = true) ∧
    ((st.AllPaths k).isSome = true → ((ws.foldl applyWrite st).AllPaths k).isSome = true) := by
  induction ws generalizing st with
  | nil => exact ⟨id, id, id⟩
  | cons w ws ih =>
    rw [List.foldl_cons]
    obtain ⟨h1, h2, h3⟩ := ih (applyWrite st w)
    refine ⟨fun h => h1 ?_, fun h => h2 ?_, fun h => h3 ?_⟩ <;>
      cases w <;> simp only [applyWrite, GoMap.set] <;> first | exact h | (split <;> simp [h])

theorem applyWrites_dir_isSome (ws : List IndexWrite) (st : PasswordStore) (k : GoString)
    (fs ns : List GoString) (h : IndexWrite.dir k fs ns ∈ ws) :
    ((ws.foldl applyWrite st).DirContents k).isSome = true ∧
      ((ws.foldl applyWrite st).NestedDirs k).isSome = true := by
  induction ws generalizing st with
  | nil => simp at h
  | cons w ws ih =>
    rw [List.foldl_cons]
    rcases List.mem_cons.1 h with h | h
    · subst h
      have := applyWrites_keys_mono ws (applyWrite st (.dir k fs ns)) k
      exact ⟨this.1 (by simp [applyWrite, GoMap.set]), this.2.1 (by simp [applyWrite, GoMap.set])⟩
    · exact ih _ h

theorem applyWrites_path_isSome (ws : List IndexWrite) (st : PasswordStore) (k v : GoString)
    (h : IndexWrite.path k v ∈ ws) :
    ((ws.foldl applyWrite st).AllPaths k).isSome = true := by
  induction ws generalizing st with
  | nil => simp at h
  | cons w ws ih =>
    rw [List.foldl_cons]
    rcases List.mem_cons.1 h with h | h
    · subst h
      exact (applyWrites_keys_mono ws (applyWrite st (.path k v)) k).2.2
        (by simp [applyWrite, GoMap.set])
    · exact ih _ h

/-! ## The assignments of a whole scan -/

theorem mem_rootWrites_dir (t : GoString) (es : List DirEntry) (sub : GoString → FS)
    (k : GoString) (fs ns : List GoString) :
    IndexWrite.dir k fs ns ∈ rootWrites t es sub ↔
      ∃ n comps es2 sub2, keptAt (.listing es sub) (n :: comps) = some (.listing es2 sub2) ∧
        k = joinAll n comps ∧ fs = gpgNames es2 ∧ ns = keptDirs es2 sub2 := by
  simp only [rootWrites, List.mem_append, pathWrites, List.mem_map, List.mem_flatMap,
    mem_dirWrites, keptAt_cons]
  constructor
  · rintro (⟨f, _, h⟩ | ⟨n, hn, comps, es2, sub2, h1, h2⟩)
    · simp at h
    · rcases h2 with h2 | ⟨f, _, h2⟩
      · simp only [IndexWrite.dir.injEq] at h2
        exact ⟨n, comps, es2, sub2, ⟨hn, h1⟩, h2.1, h2.2.1, h2.2.2⟩
      · simp at h2
  · rintro ⟨n, comps, es2, sub2, ⟨hn, h1⟩, rfl, rfl, rfl⟩
    exact Or.inr ⟨n, hn, comps, es2, sub2, h1, Or.inl rfl⟩

theorem mem_rootWrites_path (t : GoString) (es : List DirEntry) (sub : GoString → FS)
    (f v : GoString) :
    IndexWrite.path f v ∈ rootWrites t es sub ↔
      ∃ comps es2 sub2, keptAt (.listing es sub) comps = some (.listing es2 sub2) ∧
        f ∈ gpgNames es2 ∧ v = filepathJoin [joinAll t comps, f ++ B ".gpg"] := by
  simp only [rootWrites, List.mem_append, pathWrites, List.mem_map, List.mem_flatMap,
    mem_dirWrites]
  constructor
  · rintro (⟨f2, hf, h⟩ | ⟨n, hn, comps, es2, sub2, h1, h2⟩)
    · simp only [IndexWrite.path.injEq] at h
      obtain ⟨rfl, rfl⟩ := h
      exact ⟨[], es, sub, rfl, hf, rfl⟩
    · rcases h2 with h2 | ⟨f2, hf, h2⟩
      · simp at h2
      · simp only [IndexWrite.path.injEq] at h2
        obtain ⟨rfl, rfl⟩ := h2
        refine ⟨n :: comps, es2, sub2, ?_, hf, rfl⟩
        rw [keptAt_cons]; exact ⟨hn, h1⟩
  · rintro ⟨comps, es2, sub2, h1, hf, rfl⟩
    cases comps with
    | nil =>
      simp only [keptAt, Option.some.injEq, FS.listing.injEq] at h1
      obtain ⟨rfl, rfl⟩ := h1
      exact Or.inl ⟨f, hf, rfl⟩
    | cons n comps =>
      rw [keptAt_cons] at h1
      exact Or.inr ⟨n, h1.1, comps, es2, sub2, h1.2, Or.inr ⟨f, hf, rfl⟩⟩

/-! ## The maps of the returned index -/

theorem validTree_dirAt (cs : List GoString) : ∀ (d d2 : FS),
    validTree d = true → dirAt d cs = some d2 →
      (∀ x ∈ cs, validName x = true) ∧ validTree d2 = true := by
  induction cs with
  | nil =>
    intro d d2 hv h
    simp only [dirAt, Option.some.injEq] at h
    subst h
    exact ⟨by simp, hv⟩
  | cons c cs ih =>
    intro d d2 hv h
    cases d with
    | unreadable err => simp [dirAt] at h
    | listing es sub =>
      rw [dirAt_cons] at h
      obtain ⟨⟨e, he, hd, rfl⟩, h2⟩ := h
      simp only [validTree, List.all_eq_true, Bool.and_eq_true, Bool.or_eq_true,
        Bool.not_eq_true'] at hv
      obtain ⟨hn, hs⟩ := hv e he
      have hs2 : validTree (sub e.Name) = true := by
        rcases hs with hs | hs
        · rw [hd] at hs; cases hs
        · exact hs
      obtain ⟨h3, h4⟩ := ih _ _ hs2 h2
      refine ⟨?_, h4⟩
      intro x hx
      rcases List.mem_cons.1 hx with rfl | hx
      · exact hn
      · exact h3 x hx

theorem validTree_entry (d : FS) (cs : List GoString) (es : List DirEntry)
    (sub : GoString → FS) (hv : validTree d = true)
    (h : dirAt d cs = some (.listing es sub)) (e : DirEntry) (he : e ∈ es) :
    validName e.Name = true := by
  have := (validTree_dirAt cs d _ hv h).2
  simp only [validTree, List.all_eq_true, Bool.and_eq_true] at this
  exact (this e he).1

/-- The maps of the store that `ScanPasswordStore` returns are those reached by the
assignments of the scan from empty maps. -/
theorem ScanPasswordStore_fields (t : GoString) (es : List DirEntry) (sub : GoString → FS) :
    ∃ st, ScanPasswordStore t (.listing es sub) = .ok st ∧
      st.RootPath = t ∧ st.RootFiles = gpgNames es ∧ st.Directories = keptDirs es sub ∧
      st.DirContents = ((rootWrites t es sub).foldl applyWrite (newStore t)).DirContents ∧
      st.NestedDirs = ((rootWrites t es sub).foldl applyWrite (newStore t)).NestedDirs ∧
      st.AllPaths = ((rootWrites t es sub).foldl applyWrite (newStore t)).AllPaths := by
  refine ⟨_, ScanPasswordStore_listing t es sub, ?_, rfl, rfl, rfl, rfl, rfl⟩
  simp [withDirectories, withRootFiles, applyWrites_RootPath, newStore]

/-- The value under a key of `DirContents` and of `NestedDirs`: in a tree of valid names
the key `relPath (c :: cs)` is present exactly when the directory at `c :: cs` is reached
through kept directories, and it holds that directory's display names and kept
subdirectories. -/
theorem index_dir_lookup (t : GoString) (es : List DirEntry) (sub : GoString → FS)
    (hv : validTree (.listing es sub) = true) (c : GoString) (cs : List GoString)
    (hnames : ∀ x ∈ c :: cs, validName x = true) :
    (∀ es2 sub2, keptAt (.listing es sub) (c :: cs) = some (.listing es2 sub2) →
        ((rootWrites t es sub).foldl applyWrite (newStore t)).DirContents (relPath (c :: cs)) =
          some (gpgNames es2) ∧
        ((rootWrites t es sub).foldl applyWrite (newStore t)).NestedDirs (relPath (c :: cs)) =
          some (keptDirs es2 sub2)) ∧
    ((((rootWrites t es sub).foldl applyWrite (newStore t)).DirContents
          (relPath (c :: cs))).isSome = true →
        ∃ es2 sub2, keptAt (.listing es sub) (c :: cs) = some (.listing es2 sub2)) ∧
    ((((rootWrites t es sub).foldl applyWrite (newStore t)).NestedDirs
          (relPath (c :: cs))).isSome = true →
        ∃ es2 sub2, keptAt (.listing es sub) (c :: cs) = some (.listing es2 sub2)) := by
  -- every `dir` assignment under this key belongs to the directory at `c :: cs`
  have key : ∀ fs ns, IndexWrite.dir (relPath (c :: cs)) fs ns ∈ rootWrites t es sub →
      ∃ es2 sub2, keptAt (.listing es sub) (c :: cs) = some (.listing es2 sub2) ∧
        fs = gpgNames es2 ∧ ns = keptDirs es2 sub2 := by
    intro fs ns h
    rw [mem_rootWrites_dir] at h
    obtain ⟨n, comps, es2, sub2, h1, h2, h3, h4⟩ := h
    have hv2 := (validTree_dirAt _ _ _ hv (keptAt_dirAt _ _ _ h1)).1
    rw [joinAll_eq_relPath n comps hv2] at h2
    have := relPath_injective _ _ (by simp) (by simp) hnames hv2 h2
    rw [← this] at h1
    exact ⟨es2, sub2, h1, h3, h4⟩
  refine ⟨?_, ?_, ?_⟩
  · intro es2 sub2 hk
    have hmem : IndexWrite.dir (relPath (c :: cs)) (gpgNames es2) (keptDirs es2 sub2) ∈
        rootWrites t es sub := by
      rw [mem_rootWrites_dir]
      exact ⟨c, cs, es2, sub2, hk, (joinAll_eq_relPath c cs hnames).symm, rfl, rfl⟩
    obtain ⟨h1, h2⟩ := applyWrites_dir_isSome _ (newStore t) _ _ _ hmem
    constructor
    · obtain ⟨v, hv1⟩ := Option.isSome_iff_exists.1 h1
      rcases applyWrites_DirContents_some _ _ _ _ hv1 with h | ⟨ns, h⟩
      · simp [newStore, GoMap.empty] at h
      · obtain ⟨es3, sub3, h5, h6, _⟩ := key _ _ h
        rw [hk] at h5
        simp only [Option.some.injEq, FS.listing.injEq] at h5
        rw [hv1, h6, h5.1]
    · obtain ⟨v, hv1⟩ := Option.isSome_iff_exists.1 h2
      rcases applyWrites_NestedDirs_some _ _ _ _ hv1 with h | ⟨fs, h⟩
      · simp [newStore, GoMap.empty] at h
      · obtain ⟨es3, sub3, h5, _, h7⟩ := key _ _ h
        rw [hk] at h5
        simp only [Option.some.injEq, FS.listing.injEq] at h5
        rw [hv1, h7, h5.1, h5.2]
  · intro h
    obtain ⟨v, hv1⟩ := Option.isSome_iff_exists.1 h
    rcases applyWrites_DirContents_some _ _ _ _ hv1 with h | ⟨ns, h⟩
    · simp [newStore, GoMap.empty] at h
    · obtain ⟨es3, sub3, h5, _, _⟩ := key _ _ h
      exact ⟨es3, sub3, h5⟩
  · intro h
    obtain ⟨v, hv1⟩ := Option.isSome_iff_exists.1 h
    rcases applyWrites_NestedDirs_some _ _ _ _ hv1 with h | ⟨fs, h⟩
    · simp [newStore, GoMap.empty] at h
    · obtain ⟨es3, sub3, h5, _, _⟩ := key _ _ h
      exact ⟨es3, sub3, h5⟩

/-! ## Claims about the store indexer -/

theorem dirAt_append (a b : List GoString) : ∀ d : FS,
    dirAt d (a ++ b) = (dirAt d a).bind (fun d2 => dirAt d2 b) := by
  induction a with
  | nil => intro d; simp [dirAt]
  | cons c a ih =>
    intro d
    cases d with
    | unreadable err => simp [dirAt]
    | listing es sub =>
      simp only [List.cons_append, dirAt]
      split
      · exact ih _
      · rfl

theorem keptAt_append (a b : List GoString) : ∀ d : FS,
    keptAt d (a ++ b) = (keptAt d a).bind (fun d2 => keptAt d2 b) := by
  induction a with
  | nil => intro d; simp [keptAt]
  | cons c a ih =>
    intro d
    cases d with
    | unreadable err => simp [keptAt]
    | listing es sub =>
      simp only [List.cons_append, keptAt]
      split
      · exact ih _
      · rfl

theorem keptAt_snoc (d d2 : FS) (parent : List GoString) (name : GoString)
    (h : keptAt d (parent ++ [name]) = some d2) :
    ∃ es sub, keptAt d parent = some (.listing es sub) ∧ name ∈ keptDirs es sub ∧
      d2 = sub name := by
  rw [keptAt_append] at h
  cases hp : keptAt d parent with
  | none => rw [hp] at h; simp at h
  | some dp =>
    rw [hp] at h
    simp only [Option.some_bind] at h
    cases dp with
    | unreadable err => simp [keptAt] at h
    | listing es sub =>
      rw [keptAt_cons] at h
      refine ⟨es, sub, rfl, h.1, ?_⟩
      simpa [keptAt] using h.2.symm

theorem hasGpg_iff_contains (d : FS) : hasGpg d = true ↔ ContainsGpgFile d :=
  hasGpg_iff d

/-- C1. In a tree whose entries have the names `os.ReadDir` can return, the directory `d`
that lies at `parent ++ [name]` below the root appears in the index that
`ScanPasswordStore` builds (listed in `Directories` when top-level and in its parent's
`NestedDirs` list when nested, and as a key of `DirContents` and of `NestedDirs` under its
relative path) if and only if `d` or a directory below `d` lists a non-directory entry
whose name ends in `.gpg`; each of the three ways of appearing is equivalent to it. An
unreadable directory shows no entries, so readability needs no separate assumption. -/
theorem C1_directory_indexed_iff_contains_gpg (targetPath : GoString) (es : List DirEntry)
    (sub : GoString → FS) (hv : validTree (.listing es sub) = true)
    (parent : List GoString) (name : GoString) (d : FS)
    (hd : dirAt (.listing es sub) (parent ++ [name]) = some d) :
    ∃ st, ScanPasswordStore targetPath (.listing es sub) = .ok st ∧
      (listedInParent st parent name = true ↔ ContainsGpgFile d) ∧
      ((st.DirContents (relPath (parent ++ [name]))).isSome = true ↔ ContainsGpgFile d) ∧
      ((st.NestedDirs (relPath (parent ++ [name]))).isSome = true ↔ ContainsGpgFile d) := by
  obtain ⟨st, hst, -, -, hdirs, hdc, hnd, -⟩ := ScanPasswordStore_fields targetPath es sub
  refine ⟨st, hst, ?_, ?_, ?_⟩
  · -- listed by the parent
    rw [← hasGpg_iff_contains]
    cases parent with
    | nil =>
      simp only [listedInParent, decide_eq_true_eq, hdirs, mem_keptDirs]
      rw [List.nil_append, dirAt_cons] at hd
      obtain ⟨he, h2⟩ := hd
      simp only [dirAt, Option.some.injEq] at h2
      subst h2
      simp [he]
    | cons p ps =>
      have hnames := (validTree_dirAt _ _ _ hv hd).1
      have hpn : ∀ x ∈ p :: ps, validName x = true := fun x hx =>
        hnames x (List.mem_append_left _ hx)
      obtain ⟨look1, -, look3⟩ := index_dir_lookup targetPath es sub hv p ps hpn
      simp only [listedInParent, hnd]
      constructor
      · intro h
        cases hl : ((rootWrites targetPath es sub).foldl applyWrite
            (newStore targetPath)).NestedDirs (relPath (p :: ps)) with
        | none => rw [hl] at h; simp at h
        | some l =>
          rw [hl] at h
          simp only [decide_eq_true_eq] at h
          obtain ⟨es2, sub2, hk⟩ := look3 (by rw [hl]; rfl)
          have := (look1 es2 sub2 hk).2
          rw [hl] at this
          simp only [Option.some.injEq] at this
          rw [this, mem_keptDirs] at h
          have hdp := keptAt_dirAt _ _ _ hk
          rw [dirAt_append, hdp] at hd
          simp only [Option.some_bind] at hd
          rw [dirAt_cons] at hd
          obtain ⟨-, h2⟩ := hd
          simp only [dirAt, Option.some.injEq] at h2
          rw [← h2]
          exact h.2
      · intro hg
        have hk : keptAt (.listing es sub) ((p :: ps) ++ [name]) = some d :=
          (keptAt_iff _ _ _ (by simp)).2 ⟨hd, hg⟩
        obtain ⟨es2, sub2, hkp, hmem, -⟩ := keptAt_snoc _ _ _ _ hk
        rw [(look1 es2 sub2 hkp).2]
        simpa using hmem
  · rw [← hasGpg_iff_contains, hdc]
    obtain ⟨c, cs, hcs⟩ : ∃ c cs, parent ++ [name] = c :: cs := by
      cases parent with
      | nil => exact ⟨name, [], rfl⟩
      | cons p ps => exact ⟨p, ps ++ [name], rfl⟩
    rw [hcs] at hd ⊢
    have hnames := (validTree_dirAt _ _ _ hv hd).1
    obtain ⟨look1, look2, -⟩ := index_dir_lookup targetPath es sub hv c cs hnames
    constructor
    · intro h
      obtain ⟨es2, sub2, hk⟩ := look2 h
      have := (keptAt_iff _ _ _ (by simp)).1 hk
      rw [hd] at this
      simp only [Option.some.injEq] at this
      rw [this.1]; exact this.2
    · intro hg
      have hk : keptAt (.listing es sub) (c :: cs) = some d :=
        (keptAt_iff _ _ _ (by simp)).2 ⟨hd, hg⟩
      cases d with
      | unreadable err => simp [hasGpg] at hg
      | listing es2 sub2 => rw [(look1 es2 sub2 hk).1]; rfl
  · rw [← hasGpg_iff_contains, hnd]
    obtain ⟨c, cs, hcs⟩ : ∃ c cs, parent ++ [name] = c :: cs := by
      cases parent with
      | nil => exact ⟨name, [], rfl⟩
      | cons p ps => exact ⟨p, ps ++ [name], rfl⟩
    rw [hcs] at hd ⊢
    have hnames := (validTree_dirAt _ _ _ hv hd).1
    obtain ⟨look1, -, look3⟩ := index_dir_lookup targetPath es sub hv c cs hnames
    constructor
    · intro h
      obtain ⟨es2, sub2, hk⟩ := look3 h
      have := (keptAt_iff _ _ _ (by simp)).1 hk
      rw [hd] at this
      simp only [Option.some.injEq] at this
      rw [this.1]; exact this.2
    · intro hg
      have hk : keptAt (.listing es sub) (c :: cs) = some d :=
        (keptAt_iff _ _ _ (by simp)).2 ⟨hd, hg⟩
      cases d with
      | unreadable err => simp [hasGpg] at hg
      | listing es2 sub2 => rw [(look1 es2 sub2 hk).2]; rfl

/-- C1 at `dir2/subdir2/nested` of the test tree. -/
theorem C1_directory_indexed_iff_contains_gpg_witness :
    ∃ st, ScanPasswordStore (B "/store") (.listing testEntries testSub) = .ok st ∧
      (listedInParent st [B "dir2", B "subdir2"] (B "nested") = true ↔
        ContainsGpgFile testNested) ∧
      ((st.DirContents (relPath ([B "dir2", B "subdir2"] ++ [B "nested"]))).isSome = true ↔
        ContainsGpgFile testNested) ∧
      ((st.NestedDirs (relPath ([B "dir2", B "subdir2"] ++ [B "nested"]))).isSome = true ↔
        ContainsGpgFile testNested) :=
  C1_directory_indexed_iff_contains_gpg (B "/store") testEntries testSub (by decide)
    [B "dir2", B "subdir2"] (B "nested") testNested rfl

theorem mem_gpgNames (es : List DirEntry) (f : GoString) :
    f ∈ gpgNames es ↔
      ∃ e ∈ es, e.IsDir = false ∧ HasSuffix e.Name (B ".gpg") = true ∧
        TrimSuffix e.Name (B ".gpg") = f := by
  simp only [gpgNames, List.mem_map, List.mem_filter, isGpgFile, Bool.and_eq_true,
    Bool.not_eq_true']
  constructor
  · rintro ⟨e, ⟨he, hd, hs⟩, rfl⟩
    exact ⟨e, he, hd, hs, rfl⟩
  · rintro ⟨e, he, hd, hs, rfl⟩
    exact ⟨e, ⟨he, hd, hs⟩, rfl⟩

/-- The enumeration `gpgFiles` lists exactly the `.gpg` files of the directories of the
tree. -/
theorem mem_gpgFiles (d : FS) : ∀ (comps : List GoString) (name : GoString),
    (comps, name) ∈ gpgFiles d ↔
      ∃ es sub, dirAt d comps = some (.listing es sub) ∧
        ∃ e ∈ es, e.IsDir = false ∧ HasSuffix e.Name (B ".gpg") = true ∧ e.Name = name := by
  induction d with
  | unreadable err =>
    intro comps name
    simp [gpgFiles, dirAt_unreadable]
  | listing es sub ih =>
    intro comps name
    simp only [gpgFiles, List.mem_flatMap]
    constructor
    · rintro ⟨e, he, h⟩
      cases hd : e.IsDir
      · rw [hd] at h
        simp only [Bool.false_eq_true, if_false] at h
        by_cases hs : HasSuffix e.Name (B ".gpg") = true
        · rw [if_pos hs] at h
          simp only [List.mem_singleton, Prod.mk.injEq] at h
          obtain ⟨rfl, rfl⟩ := h
          exact ⟨es, sub, rfl, e, he, hd, hs, rfl⟩
        · rw [if_neg hs] at h
          simp at h
      · rw [hd] at h
        simp only [if_true, List.mem_map, Prod.mk.injEq] at h
        obtain ⟨x, hx, rfl, rfl⟩ := h
        obtain ⟨es2, sub2, h1, h2⟩ := (ih e.Name x.1 x.2).1 hx
        refine ⟨es2, sub2, ?_, h2⟩
        rw [dirAt_cons]
        exact ⟨⟨e, he, hd, rfl⟩, h1⟩
    · rintro ⟨es2, sub2, h1, e, he, hd, hs, rfl⟩
      cases comps with
      | nil =>
        simp only [dirAt, Option.some.injEq, FS.listing.injEq] at h1
        obtain ⟨rfl, rfl⟩ := h1
        exact ⟨e, he, by simp [hd, hs]⟩
      | cons c cs =>
        rw [dirAt_cons] at h1
        obtain ⟨⟨e2, he2, hd2, rfl⟩, h3⟩ := h1
        refine ⟨e2, he2, ?_⟩
        simp only [hd2, if_true, List.mem_map, Prod.mk.injEq]
        exact ⟨(cs, e.Name), (ih e2.Name cs e.Name).2 ⟨es2, sub2, h3, e, he, hd, hs, rfl⟩,
          rfl, rfl⟩

/-- The value of `AllPaths` for a display name that only one `.gpg` file has: the root
path joined with the directory names and the file name, one after the other. -/
theorem AllPaths_unique_entry (targetPath : GoString) (es : List DirEntry)
    (sub : GoString → FS) (comps : List GoString) (name : GoString)
    (hfile : (comps, name) ∈ gpgFiles (.listing es sub))
    (huniq : ∀ x ∈ gpgFiles (.listing es sub),
      TrimSuffix x.2 (B ".gpg") = TrimSuffix name (B ".gpg") → x = (comps, name)) :
    ∃ st, ScanPasswordStore targetPath (.listing es sub) = .ok st ∧
      st.AllPaths (TrimSuffix name (B ".gpg")) = some (joinAll targetPath (comps ++ [name])) := by
  obtain ⟨st, hst, -, -, -, -, -, hap⟩ := ScanPasswordStore_fields targetPath es sub
  refine ⟨st, hst, ?_⟩
  rw [hap]
  obtain ⟨es2, sub2, hd, e, he, hdir, hs, rfl⟩ := (mem_gpgFiles _ _ _).1 hfile
  -- the directory of the file is reached through kept directories
  have hk : keptAt (.listing es sub) comps = some (.listing es2 sub2) := by
    cases comps with
    | nil => simpa [keptAt, dirAt] using hd
    | cons c cs =>
      refine (keptAt_iff _ _ _ (by simp)).2 ⟨hd, ?_⟩
      simp only [hasGpg, List.any_eq_true]
      exact ⟨e, he, by simp [hdir, hs]⟩
  have hmem : IndexWrite.path (TrimSuffix e.Name (B ".gpg"))
      (filepathJoin [joinAll targetPath comps, TrimSuffix e.Name (B ".gpg") ++ B ".gpg"]) ∈
      rootWrites targetPath es sub := by
    rw [mem_rootWrites_path]
    exact ⟨comps, es2, sub2, hk, (mem_gpgNames _ _).2 ⟨e, he, hdir, hs, rfl⟩, rfl⟩
  have hsome := applyWrites_path_isSome _ (newStore targetPath) _ _ hmem
  obtain ⟨v, hv⟩ := Option.isSome_iff_exists.1 hsome
  rw [hv]
  rcases applyWrites_AllPaths_some _ _ _ _ hv with h | h
  · simp [newStore, GoMap.empty] at h
  · rw [mem_rootWrites_path] at h
    obtain ⟨comps2, es3, sub3, hk3, hf3, rfl⟩ := h
    obtain ⟨e3, he3, hdir3, hs3, ht3⟩ := (mem_gpgNames _ _).1 hf3
    have hin : (comps2, e3.Name) ∈ gpgFiles (.listing es sub) :=
      (mem_gpgFiles _ _ _).2 ⟨es3, sub3, keptAt_dirAt _ _ _ hk3, e3, he3, hdir3, hs3, rfl⟩
    have := huniq _ hin ht3
    simp only [Prod.mk.injEq] at this
    obtain ⟨rfl, _⟩ := this
    rw [TrimSuffix_append _ _ hs]
    simp [joinAll, List.foldl_append]

/-- C2. In a tree whose entries have the names `os.ReadDir` can return, when the display
name of the `.gpg` file `name`, which lies below the directories `comps`, belongs to no
other `.gpg` file of the tree, the index returned by `ScanPasswordStore` maps that display
name in `AllPaths` to `filepath.Join` of the root path, the names of `comps` and the full
file name; `comps` may have any length. -/
theorem C2_unique_entry_path (targetPath : GoString) (es : List DirEntry)
    (sub : GoString → FS) (hv : validTree (.listing es sub) = true)
    (comps : List GoString) (name : GoString)
    (hfile : (comps, name) ∈ gpgFiles (.listing es sub))
    (huniq : ∀ x ∈ gpgFiles (.listing es sub),
      TrimSuffix x.2 (B ".gpg") = TrimSuffix name (B ".gpg") → x = (comps, name)) :
    ∃ st, ScanPasswordStore targetPath (.listing es sub) = .ok st ∧
      st.AllPaths (TrimSuffix name (B ".gpg")) =
        some (filepathJoin (targetPath :: (comps ++ [name]))) := by
  obtain ⟨st, hst, hpath⟩ := AllPaths_unique_entry targetPath es sub comps name hfile huniq
  refine ⟨st, hst, ?_⟩
  rw [hpath, joinAll_eq_filepathJoin targetPath (comps ++ [name]) (by simp)]
  obtain ⟨es2, sub2, hd, e, he, -, -, rfl⟩ := (mem_gpgFiles _ _ _).1 hfile
  intro c hc
  rcases List.mem_append.1 hc with hc | hc
  · exact (validTree_dirAt _ _ _ hv hd).1 c hc
  · rw [List.mem_singleton.1 hc]
    exact validTree_entry _ _ _ _ hv hd e he

/-- C2 at `nestedfile` of the test tree, three directories deep. -/
theorem C2_unique_entry_path_witness :
    ∃ st, ScanPasswordStore (B "/store") (.listing testEntries testSub) = .ok st ∧
      st.AllPaths (TrimSuffix (B "nestedfile.gpg") (B ".gpg")) =
        some (filepathJoin (B "/store" ::
          ([B "dir2", B "subdir2", B "nested"] ++ [B "nestedfile.gpg"]))) :=
  C2_unique_entry_path (B "/store") testEntries testSub (by decide)
    [B "dir2", B "subdir2", B "nested"] (B "nestedfile.gpg") (by decide) (by decide)

/-- C3. The entry list that `ScanPasswordStore` records for the root (`RootFiles`), for
every listing, and, in a tree of valid names, for every included directory at `c :: cs`
(`DirContents` under its relative path) is the list of the non-directory entries of the
listing whose name ends in `.gpg`, in listing order, each without that final `.gpg`:
putting the suffix back gives the entry's name. An entry with any other name contributes
nothing. -/
theorem C3_entry_list_is_filtered_listing (targetPath : GoString) (es : List DirEntry)
    (sub : GoString → FS) :
    ∃ st, ScanPasswordStore targetPath (.listing es sub) = .ok st ∧
      st.RootFiles =
        (es.filter (fun e => !e.IsDir && HasSuffix e.Name (B ".gpg"))).map
          (fun e => TrimSuffix e.Name (B ".gpg")) ∧
      (validTree (.listing es sub) = true →
        ∀ (c : GoString) (cs : List GoString) (es2 : List DirEntry) (sub2 : GoString → FS),
          dirAt (.listing es sub) (c :: cs) = some (.listing es2 sub2) →
          ContainsGpgFile (.listing es2 sub2) →
          st.DirContents (relPath (c :: cs)) =
            some ((es2.filter (fun e => !e.IsDir && HasSuffix e.Name (B ".gpg"))).map
              (fun e => TrimSuffix e.Name (B ".gpg")))) ∧
      ∀ e : DirEntry, (!e.IsDir && HasSuffix e.Name (B ".gpg")) = true →
        TrimSuffix e.Name (B ".gpg") ++ B ".gpg" = e.Name := by
  obtain ⟨st, hst, -, hrf, -, hdc, -, -⟩ := ScanPasswordStore_fields targetPath es sub
  refine ⟨st, hst, hrf, ?_, ?_⟩
  · intro hv c cs es2 sub2 hd hinc
    have hnames := (validTree_dirAt _ _ _ hv hd).1
    have hk : keptAt (.listing es sub) (c :: cs) = some (.listing es2 sub2) :=
      (keptAt_iff _ _ _ (by simp)).2 ⟨hd, (hasGpg_iff_contains _).2 hinc⟩
    rw [hdc]
    exact ((index_dir_lookup targetPath es sub hv c cs hnames).1 es2 sub2 hk).1
  · intro e h
    simp only [Bool.and_eq_true] at h
    exact TrimSuffix_append _ _ h.2

/-- C3 at the root of `TestScanPasswordStoreWithNonGpgFiles`, which has no subdirectory
(`backup.gpg.bak`, `config.yml` and `readme.txt` contribute nothing), and at `dir1` of
the test tree. -/
theorem C3_entry_list_is_filtered_listing_witness :
    (∃ st, ScanPasswordStore (B "/store") (.listing mixedEntries (fun _ => missing)) = .ok st ∧
      st.RootFiles = [B "password1", B "password2"]) ∧
    (∃ st, ScanPasswordStore (B "/store") (.listing testEntries testSub) = .ok st ∧
      st.RootFiles = [B "root1", B "root2"] ∧
      st.DirContents (B "dir1") = some [B "file1", B "file2"]) :=
  ⟨(C3_entry_list_is_filtered_listing (B "/store") mixedEntries (fun _ => missing)).imp
      (fun _ h => ⟨h.1, h.2.1.trans (by decide)⟩),
   (C3_entry_list_is_filtered_listing (B "/store") testEntries testSub).imp
      (fun _ h => ⟨h.1, h.2.1.trans (by decide),
        (h.2.2.1 (by decide) (B "dir1") [] testDir1Entries testDir1Sub rfl
          ⟨[], testDir1Entries, testDir1Sub, rfl, gpgEntry "file1", by decide, rfl,
            by decide⟩).trans (by decide)⟩)⟩

/-- The root of `TestScanPasswordStoreWithNonGpgFiles`: only the two `.gpg` files are
recorded; `backup.gpg.bak`, `config.yml` and `readme.txt` contribute nothing. -/
theorem mixedEntries_RootFiles :
    (ScanPasswordStore (B "/store") (.listing mixedEntries (fun _ => missing))).toOption.map
        (fun st => st.RootFiles) =
      some [B "password1", B "password2"] := by
  decide

/-- The index of the test tree, as `TestScanPasswordStore` expects it. -/
theorem testTree_index :
    (ScanPasswordStore (B "/store") (.listing testEntries testSub)).toOption.map
        (fun st => (st.RootFiles, st.Directories, st.DirContents (B "dir1"),
          st.NestedDirs (B "dir1"), st.DirContents (B "dir1/subdir1"),
          st.DirContents (B "empty_dir"), st.AllPaths (B "nestedfile"))) =
      some ([B "root1", B "root2"], [B "dir1", B "dir2"], some [B "file1", B "file2"],
        some [B "subdir1"], some [B "subfile1"], none,
        some (B "/store/dir2/subdir2/nested/nestedfile.gpg")) := by
  rfl

/-! ## Unreadable directories, the lookup invariant and the empty index -/

theorem hasGpg_unreadable_of_not_readable (d : FS) (h : isReadable d = false) :
    hasGpg d = false := by
  cases d with
  | unreadable err => rfl
  | listing es sub => simp [isReadable] at h

theorem hasGpg_prune (d : FS) : hasGpg (prune d) = hasGpg d := by
  induction d with
  | unreadable err => rfl
  | listing es sub ih =>
    simp only [prune, hasGpg]
    rw [Bool.eq_iff_iff]
    simp only [List.any_eq_true, List.mem_filter, Bool.or_eq_true, Bool.not_eq_true']
    constructor
    · rintro ⟨e, ⟨he, _⟩, h⟩
      refine ⟨e, he, ?_⟩
      cases hd : e.IsDir
      · simpa [hd] using h
      · rw [hd] at h
        simp only [if_true, ih] at h
        simp [h]
    · rintro ⟨e, he, h⟩
      cases hd : e.IsDir
      · exact ⟨e, ⟨he, Or.inl hd⟩, by simpa [hd] using h⟩
      · rw [hd] at h
        simp only [if_true] at h
        refine ⟨e, ⟨he, Or.inr ?_⟩, by simp [hd, ih, h]⟩
        cases hr : isReadable (sub e.Name)
        · rw [hasGpg_unreadable_of_not_readable _ hr] at h
          cases h
        · rfl

theorem gpgNames_prune (es : List DirEntry) (sub : GoString → FS) :
    gpgNames (es.filter (fun e => !e.IsDir || isReadable (sub e.Name))) = gpgNames es := by
  unfold gpgNames
  rw [List.filter_filter]
  congr 1
  apply List.filter_congr
  intro e _
  cases hd : e.IsDir <;> simp [isGpgFile, hd]

theorem keptDirs_prune (es : List DirEntry) (sub : GoString → FS) :
    keptDirs (es.filter (fun e => !e.IsDir || isReadable (sub e.Name)))
      (fun n => prune (sub n)) = keptDirs es sub := by
  unfold keptDirs
  rw [List.filter_filter]
  congr 1
  apply List.filter_congr
  intro e _
  rw [hasGpg_prune]
  cases hd : e.IsDir
  · simp
  · cases hr : isReadable (sub e.Name)
    · simp [hasGpg_unreadable_of_not_readable _ hr]
    · simp

theorem dirWrites_prune (d : FS) : ∀ p r : GoString,
    dirWrites p r (prune d) = dirWrites p r d := by
  induction d with
  | unreadable err => intro p r; rfl
  | listing es sub ih =>
    intro p r
    simp only [prune, dirWrites, gpgNames_prune, keptDirs_prune]
    congr 2
    apply List.flatMap_congr
    intro n _
    exact ih n _ _

theorem rootWrites_prune (t : GoString) (es : List DirEntry) (sub : GoString → FS) :
    rootWrites t (es.filter (fun e => !e.IsDir || isReadable (sub e.Name)))
      (fun n => prune (sub n)) = rootWrites t es sub := by
  simp only [rootWrites, gpgNames_prune, keptDirs_prune]
  congr 1
  apply List.flatMap_congr
  intro n _
  exact dirWrites_prune (sub n) _ _

theorem prune_readable (comps : List GoString) : ∀ (d d2 : FS), comps ≠ [] →
    dirAt (prune d) comps = some d2 → isReadable d2 = true := by
  induction comps with
  | nil => intro d d2 h; exact absurd rfl h
  | cons c cs ih =>
    intro d d2 _ h
    cases d with
    | unreadable err => simp [prune, dirAt] at h
    | listing es sub =>
      simp only [prune] at h
      rw [dirAt_cons] at h
      obtain ⟨⟨e, he, hd, rfl⟩, h2⟩ := h
      cases cs with
      | nil =>
        simp only [dirAt, Option.some.injEq] at h2
        rw [← h2]
        have hk := (List.mem_filter.1 he).2
        simp only [hd, Bool.not_true, Bool.false_or] at hk
        cases hs : sub e.Name with
        | unreadable err => rw [hs] at hk; simp [isReadable] at hk
        | listing es2 sub2 => rfl
      | cons c2 cs => exact ih _ _ (by simp) h2

/-- C11. For every tree whose root can be listed, whatever subdirectories cannot be
listed, `ScanPasswordStore` returns an index and no error, and that index is the index of
the tree with its unreadable directories removed; in the tree so reduced every directory
below the root can be listed. -/
theorem C11_unreadable_subdirectories_are_skipped (targetPath : GoString)
    (es : List DirEntry) (sub : GoString → FS) :
    (∃ st, ScanPasswordStore targetPath (.listing es sub) = .ok st ∧
      ScanPasswordStore targetPath (prune (.listing es sub)) = .ok st) ∧
    ∀ comps d, comps ≠ [] → dirAt (prune (.listing es sub)) comps = some d →
      isReadable d = true := by
  refine ⟨⟨_, ScanPasswordStore_listing targetPath es sub, ?_⟩,
    fun comps d hne h => prune_readable comps _ d hne h⟩
  simp only [prune]
  rw [ScanPasswordStore_listing, rootWrites_prune, gpgNames_prune, keptDirs_prune]

/-- A scan of a tree with an unreadable directory at the top level and one inside a
directory: neither is in the index, their readable neighbours are. -/
theorem lockedTree_index :
    (ScanPasswordStore (B "/store")
        (.listing [dirEntry "dir1", dirEntry "locked", dirEntry "outer"] lockedSub)).toOption.map
        (fun st => (st.Directories, st.NestedDirs (B "outer"), st.DirContents (B "outer"),
          st.DirContents (B "locked"), st.DirContents (B "outer/locked"))) =
      some ([B "dir1", B "outer"], some [], some [B "kept"], none, none) := by
  rfl

/-- C12. In the index that `ScanPasswordStore` returns, every name in `RootFiles` and
every name in a list of `DirContents` is a key of `AllPaths`. -/
theorem C12_listed_names_have_paths (targetPath : GoString) (es : List DirEntry)
    (sub : GoString → FS) :
    ∃ st, ScanPasswordStore targetPath (.listing es sub) = .ok st ∧
      (∀ name ∈ st.RootFiles, (st.AllPaths name).isSome = true) ∧
      ∀ p files, st.DirContents p = some files →
        ∀ name ∈ files, (st.AllPaths name).isSome = true := by
  obtain ⟨st, hst, -, hrf, -, hdc, -, hap⟩ := ScanPasswordStore_fields targetPath es sub
  refine ⟨st, hst, ?_, ?_⟩
  · intro name hname
    rw [hrf] at hname
    rw [hap]
    apply applyWrites_path_isSome _ _ name
      (filepathJoin [joinAll targetPath [], name ++ B ".gpg"])
    rw [mem_rootWrites_path]
    exact ⟨[], es, sub, rfl, hname, rfl⟩
  · intro p files hp name hname
    rw [hdc] at hp
    rw [hap]
    rcases applyWrites_DirContents_some _ _ _ _ hp with h | ⟨ns, h⟩
    · simp [newStore, GoMap.empty] at h
    · rw [mem_rootWrites_dir] at h
      obtain ⟨n, comps, es2, sub2, hk, -, hfiles, -⟩ := h
      rw [hfiles] at hname
      apply applyWrites_path_isSome _ _ name
        (filepathJoin [joinAll targetPath (n :: comps), name ++ B ".gpg"])
      rw [mem_rootWrites_path]
      exact ⟨n :: comps, es2, sub2, hk, hname, rfl⟩

theorem gpgNames_eq_nil_of_not_hasGpg (es : List DirEntry) (sub : GoString → FS)
    (h : hasGpg (.listing es sub) = false) : gpgNames es = [] ∧ keptDirs es sub = [] := by
  have := hasGpg_listing es sub
  rw [h] at this
  simp only [Bool.false_eq_true, false_iff, not_or, not_not] at this
  exact this

/-- C20. For a readable root without entries, and for any readable root below which no
directory lists a `.gpg` file, `ScanPasswordStore` returns no error and an index with the
given `RootPath`, empty `RootFiles` and `Directories`, and no key in `DirContents`,
`NestedDirs` and `AllPaths`. -/
theorem C20_index_without_entries_is_empty (targetPath : GoString) (es : List DirEntry)
    (sub : GoString → FS)
    (hnone : es = [] ∨ ¬ ContainsGpgFile (.listing es sub)) :
    ∃ st, ScanPasswordStore targetPath (.listing es sub) = .ok st ∧
      st.RootPath = targetPath ∧ st.RootFiles = [] ∧ st.Directories = [] ∧
      (∀ k, st.DirContents k = none) ∧ (∀ k, st.NestedDirs k = none) ∧
      (∀ k, st.AllPaths k = none) := by
  have hg : hasGpg (.listing es sub) = false := by
    rcases hnone with rfl | h
    · rfl
    · rw [← hasGpg_iff_contains] at h
      simpa using h
  obtain ⟨h1, h2⟩ := gpgNames_eq_nil_of_not_hasGpg es sub hg
  obtain ⟨st, hst, hrp, hrf, hd, hdc, hnd, hap⟩ := ScanPasswordStore_fields targetPath es sub
  have hw : rootWrites targetPath es sub = [] := by
    simp [rootWrites, h1, h2, pathWrites]
  rw [hw] at hdc hnd hap
  refine ⟨st, hst, hrp, by rw [hrf, h1], by rw [hd, h2], ?_, ?_, ?_⟩
  · intro k; rw [hdc]; rfl
  · intro k; rw [hnd]; rfl
  · intro k; rw [hap]; rfl

/-- C20 at a root that holds an empty directory and a text file, but no `.gpg` file. -/
theorem C20_index_without_entries_is_empty_witness :
    ∃ st, ScanPasswordStore (B "/store")
        (.listing [dirEntry "empty_dir", ⟨B "readme.txt", false⟩]
          (fun n => if n = B "empty_dir" then testEmptyDir else missing)) = .ok st ∧
      st.RootPath = B "/store" ∧ st.RootFiles = [] ∧ st.Directories = [] ∧
      (∀ k, st.DirContents k = none) ∧ (∀ k, st.NestedDirs k = none) ∧
      (∀ k, st.AllPaths k = none) :=
  C20_index_without_entries_is_empty (B "/store")
    [dirEntry "empty_dir", ⟨B "readme.txt", false⟩]
    (fun n => if n = B "empty_dir" then testEmptyDir else missing)
    (Or.inr (fun h => absurd ((hasGpg_iff_contains _).2 h) (by decide)))

/-! ## The fallback resolver `findFilePath` -/

theorem HasSuffix_append (s suffix : GoString) : HasSuffix (s ++ suffix) suffix = true := by
  unfold HasSuffix
  rw [List.isSuffixOf_iff_suffix]
  exact List.suffix_append _ _

theorem TrimSuffix_append_self (s suffix : GoString) : TrimSuffix (s ++ suffix) suffix = s := by
  unfold TrimSuffix
  rw [if_pos (HasSuffix_append s suffix)]
  simp

/-- The test of `findFilePath` on a file entry: the entry is called `fileName.gpg`. -/
theorem gpg_name_test (name fileName : GoString) :
    (HasSuffix name (B ".gpg") = true ∧ TrimSuffix name (B ".gpg") = fileName) ↔
      name = fileName ++ B ".gpg" := by
  constructor
  · rintro ⟨h1, h2⟩
    rw [← h2, TrimSuffix_append _ _ h1]
  · rintro rfl
    exact ⟨HasSuffix_append _ _, TrimSuffix_append_self _ _⟩

theorem filepathJoin_ne_nil (a c : GoString) (hc : c ≠ []) : filepathJoin [a, c] ≠ [] := by
  by_cases ha : a = []
  · subst ha
    simp only [filepathJoin, List.dropWhile, decide_True, hc, decide_False]
    exact Clean_ne_nil _
  · rw [filepathJoin_pair a c ha]
    exact Clean_ne_nil _

theorem find?_prepend (c : GoString) (target : GoString)
    (l : List (List GoString × GoString)) :
    (l.map (fun x => (c :: x.1, x.2))).find? (fun x => decide (x.2 = target)) =
      (l.find? (fun x => decide (x.2 = target))).map (fun x => (c :: x.1, x.2)) := by
  induction l with
  | nil => rfl
  | cons x l ih =>
    by_cases h : x.2 = target
    · simp [List.find?, h]
    · simp only [List.map_cons, List.find?, h, decide_False]
      exact ih

theorem foldl_findStep_some (dirPath fileName : GoString) (findSub : GoString → GoString)
    (es : List DirEntry) (r : GoString) :
    es.foldl (findStep dirPath fileName findSub) (some r) = some r := by
  induction es with
  | nil => rfl
  | cons e es ih => rw [List.foldl_cons]; exact ih

theorem foldl_findStep (dirPath fileName : GoString) (sub : GoString → FS)
    (findSub : GoString → GoString)
    (hsub : ∀ name, findSub name =
      (match (gpgFiles (sub name)).find? (fun x => decide (x.2 = fileName ++ B ".gpg")) with
       | some x => foundPath (filepathJoin [dirPath, name]) x
       | none => []))
    (es : List DirEntry) :
    es.foldl (findStep dirPath fileName findSub) none =
      ((gpgFiles (.listing es sub)).find? (fun x => decide (x.2 = fileName ++ B ".gpg"))).map
        (foundPath dirPath) := by
  have hgpg : (B ".gpg" : GoString) ≠ [] := by decide
  induction es with
  | nil => rfl
  | cons e es ih =>
    have hcons : gpgFiles (.listing (e :: es) sub) =
        (if e.IsDir then (gpgFiles (sub e.Name)).map (fun x => (e.Name :: x.1, x.2))
         else if HasSuffix e.Name (B ".gpg") then [([], e.Name)] else []) ++
        gpgFiles (.listing es sub) := by
      simp [gpgFiles]
    rw [List.foldl_cons, hcons, List.find?_append]
    cases hd : e.IsDir
    · -- a file entry
      simp only [findStep, hd, Bool.false_eq_true, if_false]
      by_cases hs : HasSuffix e.Name (B ".gpg") = true
      · by_cases ht : TrimSuffix e.Name (B ".gpg") = fileName
        · have hname := (gpg_name_test _ _).1 ⟨hs, ht⟩
          simp only [hs, ht, if_true, foldl_findStep_some]
          simp [List.find?, hname, foundPath, joinAll]
        · have hname : ¬ e.Name = fileName ++ B ".gpg" := fun h =>
            ht ((gpg_name_test _ _).2 h).2
          simp only [hs, ht, if_true, if_false, ih]
          simp [List.find?, hname]
      · simpa [hs] using ih
    · -- a directory entry
      simp only [findStep, hd, if_true, hsub e.Name, find?_prepend]
      cases hf : (gpgFiles (sub e.Name)).find?
          (fun x => decide (x.2 = fileName ++ B ".gpg")) with
      | none =>
        simp only [ne_eq, not_true_eq_false, if_false, ih]
        simp
      | some x =>
        have hx : x.2 = fileName ++ B ".gpg" := by
          simpa using List.find?_some hf
        have hne : foundPath (filepathJoin [dirPath, e.Name]) x ≠ [] := by
          apply filepathJoin_ne_nil
          rw [hx]
          simp [hgpg]
        simp only [ne_eq, hne, not_false_eq_true, if_true, foldl_findStep_some]
        simp [foundPath, joinAll]

/-- What `findFilePath` returns: the path of the first `.gpg` file of the depth-first walk
that is called `fileName.gpg`, and the empty string when there is none. -/
theorem findFilePath_eq (d : FS) : ∀ dirPath fileName : GoString,
    findFilePath dirPath fileName d =
      (match (gpgFiles d).find? (fun x => decide (x.2 = fileName ++ B ".gpg")) with
       | some x => foundPath dirPath x
       | none => []) := by
  induction d with
  | unreadable err => intro p n; rfl
  | listing es sub ih =>
    intro p n
    simp only [findFilePath]
    rw [foldl_findStep p n sub _ (fun name => ih name _ _)]
    cases (gpgFiles (.listing es sub)).find? (fun x => decide (x.2 = n ++ B ".gpg")) <;> rfl

/-- C15. `findFilePath(root, name)` returns the empty string if and only if no directory
of the tree lists a non-directory entry called `name.gpg`; and when the depth-first walk
that takes each listing in its order, descending into a subdirectory where it is listed,
first meets such an entry below the directories `comps`, it returns the path of that
directory, reached from the root path by joining the names of `comps` one after the
other, joined with `name.gpg`. -/
theorem C15_findFilePath_first_match (dirPath fileName : GoString) (root : FS) :
    (findFilePath dirPath fileName root = [] ↔
      ¬ ∃ comps es sub e, dirAt root comps = some (.listing es sub) ∧ e ∈ es ∧
        e.IsDir = false ∧ e.Name = fileName ++ B ".gpg") ∧
    ∀ comps name,
      (gpgFiles root).find? (fun x => decide (x.2 = fileName ++ B ".gpg")) =
        some (comps, name) →
      findFilePath dirPath fileName root =
        filepathJoin [joinAll dirPath comps, fileName ++ B ".gpg"] := by
  have hgpg : (B ".gpg" : GoString) ≠ [] := by decide
  rw [findFilePath_eq]
  constructor
  · cases hf : (gpgFiles root).find? (fun x => decide (x.2 = fileName ++ B ".gpg")) with
    | none =>
      simp only [true_iff]
      rintro ⟨comps, es, sub, e, hd, he, hdir, hname⟩
      have hmem : (comps, e.Name) ∈ gpgFiles root :=
        (mem_gpgFiles _ _ _).2 ⟨es, sub, hd, e, he, hdir,
          by rw [hname]; exact HasSuffix_append _ _, rfl⟩
      have := List.find?_eq_none.1 hf _ hmem
      simp [hname] at this
    | some x =>
      have hx : x.2 = fileName ++ B ".gpg" := by simpa using List.find?_some hf
      have hne : foundPath dirPath x ≠ [] := by
        apply filepathJoin_ne_nil
        rw [hx]
        simp [hgpg]
      simp only [hne, false_iff, not_not]
      obtain ⟨es, sub, hd, e, he, hdir, _, hname⟩ :=
        (mem_gpgFiles root x.1 x.2).1 (List.mem_of_find?_eq_some hf)
      exact ⟨x.1, es, sub, e, hd, he, hdir, by rw [hname, hx]⟩
  · intro comps name hf
    have hx : name = fileName ++ B ".gpg" := by simpa using List.find?_some hf
    rw [hf, ← hx]
    rfl

/-- The four searches of `TestFindFilePath`. -/
theorem findTree_searches :
    findFilePath (B "/store") (B "file1") findTree = B "/store/dir1/file1.gpg" ∧
    findFilePath (B "/store") (B "file2") findTree = B "/store/dir1/subdir1/file2.gpg" ∧
    findFilePath (B "/store") (B "file3") findTree = B "/store/dir2/file3.gpg" ∧
    findFilePath (B "/store") (B "nonexistent") findTree = [] := by
  decide

/-! ## Entries that share a display name -/

theorem pathAssignments_append (a b : List IndexWrite) :
    pathAssignments (a ++ b) = pathAssignments a ++ pathAssignments b := by
  simp [pathAssignments, List.filterMap_append]

theorem pathAssignments_pathWrites (p : GoString) (files : List GoString) :
    pathAssignments (pathWrites p files) =
      files.map (fun f => (f, filepathJoin [p, f ++ B ".gpg"])) := by
  induction files with
  | nil => rfl
  | cons f fs ih =>
    simp only [pathWrites, List.map_cons] at ih ⊢
    simp only [pathAssignments, List.filterMap_cons] at ih ⊢
    rw [ih]

theorem entryAssignment_prepend (t n : GoString) (x : List GoString × GoString) :
    entryAssignment t (n :: x.1, x.2) = entryAssignment (filepathJoin [t, n]) x := rfl

/-- The `AllPaths` assignments below a directory are those of its files in scan order. -/
theorem pathAssignments_dirWrites (d : FS) : ∀ p r : GoString,
    pathAssignments (dirWrites p r d) = (scanOrder d).map (entryAssignment p) := by
  induction d with
  | unreadable err => intro p r; rfl
  | listing es sub ih =>
    intro p r
    simp only [dirWrites, scanOrder]
    have hhead : ∀ ws, pathAssignments
        (IndexWrite.dir r (gpgNames es) (keptDirs es sub) :: ws) = pathAssignments ws := by
      intro ws; rfl
    rw [hhead, pathAssignments_append, List.map_append, pathAssignments_pathWrites]
    congr 1
    · simp [gpgNames, entryAssignment, joinAll]
    · unfold keptDirs
      induction es.filter (fun e => e.IsDir && hasGpg (sub e.Name)) with
      | nil => rfl
      | cons e l ihl =>
        simp only [List.map_cons, List.flatMap_cons, pathAssignments_append,
          List.map_append, ihl, ih e.Name, List.map_map]
        congr 1

theorem pathAssignments_rootWrites (t : GoString) (es : List DirEntry) (sub : GoString → FS) :
    pathAssignments (rootWrites t es sub) =
      (scanOrder (.listing es sub)).map (entryAssignment t) := by
  simp only [rootWrites, scanOrder]
  rw [pathAssignments_append, List.map_append, pathAssignments_pathWrites]
  congr 1
  · simp [gpgNames, entryAssignment, joinAll]
  · unfold keptDirs
    induction es.filter (fun e => e.IsDir && hasGpg (sub e.Name)) with
    | nil => rfl
    | cons e l ihl =>
      simp only [List.map_cons, List.flatMap_cons, pathAssignments_append,
        List.map_append, ihl, pathAssignments_dirWrites, List.map_map]
      congr 1

theorem getLast?_cons_eq {α : Type} (a : α) (l : List α) :
    (a :: l).getLast? = (match l.getLast? with | some b => some b | none => some a) := by
  cases l with
  | nil => rfl
  | cons b l =>
    rw [List.getLast?_cons_cons]
    cases h : (b :: l).getLast? with
    | none => simp at h
    | some c => rfl

/-- The value of `AllPaths` after a sequence of assignments is that of the last
assignment to the key. -/
theorem applyWrites_AllPaths_last (ws : List IndexWrite) (st : PasswordStore) (k : GoString) :
    (ws.foldl applyWrite st).AllPaths k =
      (match ((pathAssignments ws).filter (fun a => decide (a.1 = k))).getLast? with
       | some a => some a.2
       | none => st.AllPaths k) := by
  induction ws generalizing st with
  | nil => rfl
  | cons w ws ih =>
    rw [List.foldl_cons, ih]
    cases w with
    | dir key files nested => rfl
    | path n f =>
      have hp : pathAssignments (IndexWrite.path n f :: ws) = (n, f) :: pathAssignments ws := rfl
      rw [hp]
      by_cases hk : n = k
      · simp only [List.filter_cons, hk, decide_True, if_true, getLast?_cons_eq]
        cases ((pathAssignments ws).filter (fun a => decide (a.1 = k))).getLast? with
        | none => simp [applyWrite, GoMap.set]
        | some a => rfl
      · have hk2 : ¬ k = n := fun h => hk h.symm
        simp only [List.filter_cons, hk, decide_False, Bool.false_eq_true, if_false]
        cases ((pathAssignments ws).filter (fun a => decide (a.1 = k))).getLast? with
        | none => simp [applyWrite, GoMap.set, hk2]
        | some a => rfl

theorem hasGpg_of_mem_gpgFiles (d : FS) (x : List GoString × GoString)
    (h : x ∈ gpgFiles d) : hasGpg d = true := by
  obtain ⟨es, sub, hd, e, he, hdir, hs, _⟩ := (mem_gpgFiles d x.1 x.2).1 h
  exact (hasGpg_iff d).2 ⟨x.1, es, sub, hd, e, he, hdir, hs⟩

/-- The scan order lists exactly the `.gpg` files of the tree. -/
theorem mem_scanOrder (d : FS) : ∀ x, x ∈ scanOrder d ↔ x ∈ gpgFiles d := by
  induction d with
  | unreadable err => intro x; simp [scanOrder, gpgFiles]
  | listing es sub ih =>
    intro x
    simp only [scanOrder, gpgFiles, List.mem_append, List.mem_map, List.mem_flatMap,
      List.mem_filter, isGpgFile, Bool.and_eq_true, Bool.not_eq_true']
    constructor
    · rintro (⟨e, ⟨he, hd, hs⟩, rfl⟩ | ⟨e, ⟨he, hd, _⟩, y, hy, rfl⟩)
      · exact ⟨e, he, by simp [hd, hs]⟩
      · exact ⟨e, he, by simp only [hd, if_true, List.mem_map]; exact ⟨y, (ih e.Name y).1 hy, rfl⟩⟩
    · rintro ⟨e, he, h⟩
      cases hd : e.IsDir
      · rw [hd] at h
        simp only [Bool.false_eq_true, if_false] at h
        by_cases hs : HasSuffix e.Name (B ".gpg") = true
        · rw [if_pos hs] at h
          simp only [List.mem_singleton] at h
          exact Or.inl ⟨e, ⟨he, hd, hs⟩, h.symm⟩
        · rw [if_neg hs] at h
          simp at h
      · rw [hd] at h
        simp only [if_true, List.mem_map] at h
        obtain ⟨y, hy, rfl⟩ := h
        exact Or.inr ⟨e, ⟨he, hd, hasGpg_of_mem_gpgFiles _ _ hy⟩, y, (ih e.Name y).2 hy, rfl⟩

theorem entryAssignment_snd (t : GoString) (x : List GoString × GoString)
    (hs : HasSuffix x.2 (B ".gpg") = true) :
    (entryAssignment t x).2 = joinAll t (x.1 ++ [x.2]) := by
  simp [entryAssignment, TrimSuffix_append _ _ hs, joinAll, List.foldl_append]

/-- The value of `AllPaths` in the returned index: the path of the entry with that display
name that comes last in the scan order. -/
theorem AllPaths_last_scanned (t : GoString) (es : List DirEntry) (sub : GoString → FS)
    (name : GoString) :
    ((rootWrites t es sub).foldl applyWrite (newStore t)).AllPaths name =
      (((scanOrder (.listing es sub)).filter
          (fun x => decide (TrimSuffix x.2 (B ".gpg") = name))).getLast?).map
        (fun x => joinAll t (x.1 ++ [x.2])) := by
  rw [applyWrites_AllPaths_last, pathAssignments_rootWrites]
  have hfm : ((scanOrder (.listing es sub)).map (entryAssignment t)).filter
        (fun a => decide (a.1 = name)) =
      ((scanOrder (.listing es sub)).filter
        (fun x => decide (TrimSuffix x.2 (B ".gpg") = name))).map (entryAssignment t) := by
    rw [List.filter_map]
    rfl
  rw [hfm, List.getLast?_map]
  cases hl : ((scanOrder (.listing es sub)).filter
      (fun x => decide (TrimSuffix x.2 (B ".gpg") = name))).getLast? with
  | none => rfl
  | some x =>
    have hx : x ∈ scanOrder (.listing es sub) :=
      (List.mem_filter.1 (List.mem_of_getLast?_eq_some hl)).1
    obtain ⟨_, _, _, e, _, _, hs, hname⟩ :=
      (mem_gpgFiles _ x.1 x.2).1 ((mem_scanOrder _ x).1 hx)
    rw [hname] at hs
    simp only [Option.map_some']
    rw [entryAssignment_snd t x hs]

/-- C13. `AllPaths` maps a display name to the path of the entry with that name that the
scan records last, the scan order being: the entries of the root, then each included
top-level directory in listing order, each directory's own entries before those of its
included subdirectories; that order lists exactly the `.gpg` files of the tree. In
particular, when an entry inside a directory has the display name, the path that
`AllPaths` holds is that of an entry inside a directory, never that of a root entry. -/
theorem C13_last_scanned_entry_wins (targetPath : GoString) (es : List DirEntry)
    (sub : GoString → FS) (name : GoString) :
    ∃ st, ScanPasswordStore targetPath (.listing es sub) = .ok st ∧
      st.AllPaths name =
        (((scanOrder (.listing es sub)).filter
            (fun x => decide (TrimSuffix x.2 (B ".gpg") = name))).getLast?).map
          (fun x => joinAll targetPath (x.1 ++ [x.2])) ∧
      (∀ x, x ∈ scanOrder (.listing es sub) ↔ x ∈ gpgFiles (.listing es sub)) ∧
      ∀ comps file, comps ≠ [] → (comps, file) ∈ gpgFiles (.listing es sub) →
        TrimSuffix file (B ".gpg") = name →
        ∃ comps2 file2, comps2 ≠ [] ∧ (comps2, file2) ∈ gpgFiles (.listing es sub) ∧
          TrimSuffix file2 (B ".gpg") = name ∧
          st.AllPaths name = some (joinAll targetPath (comps2 ++ [file2])) := by
  obtain ⟨st, hst, -, -, -, -, -, hap⟩ := ScanPasswordStore_fields targetPath es sub
  have hlast := AllPaths_last_scanned targetPath es sub name
  refine ⟨st, hst, by rw [hap]; exact hlast, mem_scanOrder _, ?_⟩
  intro comps file hne hmem hname
  rw [hap, hlast]
  -- the entries inside directories come after the entries of the root
  have hin := (mem_scanOrder _ (comps, file)).2 hmem
  simp only [scanOrder, List.filter_append] at hin ⊢
  rcases List.mem_append.1 hin with h | h
  · simp only [List.mem_map] at h
    obtain ⟨e, _, he⟩ := h
    simp only [Prod.mk.injEq] at he
    exact absurd he.1.symm hne
  · have hY : ((es.filter (fun e => e.IsDir && hasGpg (sub e.Name))).flatMap
        (fun e => (scanOrder (sub e.Name)).map (fun x => (e.Name :: x.1, x.2)))).filter
        (fun x => decide (TrimSuffix x.2 (B ".gpg") = name)) ≠ [] := by
      intro hnil
      have : (comps, file) ∈ ((es.filter (fun e => e.IsDir && hasGpg (sub e.Name))).flatMap
          (fun e => (scanOrder (sub e.Name)).map (fun x => (e.Name :: x.1, x.2)))).filter
          (fun x => decide (TrimSuffix x.2 (B ".gpg") = name)) :=
        List.mem_filter.2 ⟨h, by simpa using hname⟩
      rw [hnil] at this
      simp at this
    rw [List.getLast?_append_of_ne_nil _ hY]
    obtain ⟨x, hx⟩ := Option.isSome_iff_exists.1 (by
      rw [List.getLast?_isSome]; exact hY)
    have hxm := List.mem_of_getLast?_eq_some hx
    obtain ⟨hx1, hx2⟩ := List.mem_filter.1 hxm
    rw [hx]
    refine ⟨x.1, x.2, ?_, ?_, by simpa using hx2, rfl⟩
    · simp only [List.mem_flatMap, List.mem_map] at hx1
      obtain ⟨e, _, y, _, rfl⟩ := hx1
      simp
    · apply (mem_scanOrder _ _).1
      simp only [scanOrder]
      exact List.mem_append_right _ hx1

/-- A scan of a tree in which the root, `a`, `a/b` and `c` each hold a file `dup.gpg`:
the scan order, and the path that `AllPaths` keeps for `dup`. -/
theorem dupTree_index :
    scanOrder dupTree =
      [([], B "dup.gpg"), ([B "a"], B "dup.gpg"), ([B "a", B "b"], B "dup.gpg"),
       ([B "c"], B "dup.gpg"), ([B "c"], B "other.gpg")] ∧
    (ScanPasswordStore (B "/store") dupTree).toOption.map (fun st => st.AllPaths (B "dup")) =
      some (some (B "/store/c/dup.gpg")) := by
  decide

/-! ## Claims about the entry workflow -/

/-- C4, at a save whose list-packets subprocess fails and at a save whose recipient dialog
is cancelled: the handler has finished, and the scratch file is still there with the
edited text. -/
theorem C4_scratch_file_left_behind :
    (saveHandler envListFails (B "/s/a.gpg") (B "secret") [] sampleStart).files.scratch =
      some (B "secret") ∧
    (saveHandler envListFails (B "/s/a.gpg") (B "secret") [] sampleStart).trace =
      [.exec [B "gpg", B "--batch", B "--list-packets", B "/s/a.gpg"],
       .showError (B "Failed to get recipient info: exit status 2\ngpg: can't open '/s/a.gpg'\n")] ∧
    (saveHandler envCancel (B "/s/a.gpg") (B "secret") [] sampleStart).files.scratch =
      some (B "secret") := by
  decide

/-- C5, at a save in which no recipient is detected and the user confirms an empty
recipient: the error "Recipient cannot be empty" is shown and no encrypt subprocess is
run, but the scratch file is still there with the edited text. -/
theorem C5_blank_recipient_keeps_scratch_file :
    (saveHandler envBlank (B "/s/a.gpg") (B "secret") [] sampleStart).trace =
      [.exec [B "gpg", B "--batch", B "--list-packets", B "/s/a.gpg"],
       .recipientDialog [],
       .showError (B "Recipient cannot be empty")] ∧
    (saveHandler envBlank (B "/s/a.gpg") (B "secret") [] sampleStart).files.scratch =
      some (B "secret") := by
  decide

/-- C6. When no recipient is detected and the user confirms the recipient dialog with an
empty recipient, the only subprocess of the save is the list-packets inspection, so no
encrypt subprocess is invoked, and the content of the target file is what it was. -/
theorem C6_blank_recipient_leaves_target (env : SaveEnv)
    (filePath editedContent defaultRecipient tmpFileName : GoString) (s : SaveState)
    (htmp : env.tempFile = .ok tmpFileName) (hwrite : env.writeErr = none)
    (hlist : env.listPackets.err = none)
    (hdetect : detectRecipient env.listPackets.output = [])
    (hreply : env.recipientReply = .confirm []) :
    execs (saveHandler env filePath editedContent defaultRecipient s).trace =
      execs s.trace ++ [[B "gpg", B "--batch", B "--list-packets", filePath]] ∧
    (saveHandler env filePath editedContent defaultRecipient s).files.target =
      s.files.target := by
  simp [saveHandler, htmp, hwrite, hlist, hdetect, hreply, SaveState.log,
    SaveState.setScratch, execs, List.filterMap_append]

/-- C6 at a save of a file that was encrypted with a passphrase only. -/
theorem C6_blank_recipient_leaves_target_witness :
    execs (saveHandler envBlank (B "/s/a.gpg") (B "secret") [] sampleStart).trace =
      execs sampleStart.trace ++ [[B "gpg", B "--batch", B "--list-packets", B "/s/a.gpg"]] ∧
    (saveHandler envBlank (B "/s/a.gpg") (B "secret") [] sampleStart).files.target =
      sampleStart.files.target :=
  C6_blank_recipient_leaves_target envBlank (B "/s/a.gpg") (B "secret") []
    (B "/tmp/gpg_edit_1") sampleStart rfl rfl rfl (by decide) rfl

/-- C7, at the list-packets output of a file encrypted to the key `0123456789ABCDEF`: the
line ends in `keyid ` and the 16-character key identifier, and no recipient is detected;
with one more character after the identifier it is. -/
theorem C7_sixteen_character_keyid_not_detected :
    detectRecipient samplePackets = [] ∧
    detectRecipient
        (B ":pubkey enc packet: version 3, algo 1, keyid 0123456789ABCDEF.\n") =
      B "0123456789ABCDEF" := by
  decide

theorem foldl_keep (p : GoString → Bool) (lines acc : List GoString) :
    lines.foldl (fun contentLines line => if p line then contentLines else contentLines ++ [line])
        acc =
      acc ++ lines.filter (fun line => !p line) := by
  induction lines generalizing acc with
  | nil => simp
  | cons l ls ih =>
    rw [List.foldl_cons, ih]
    cases hp : p l <;> simp [List.filter_cons, hp]

/-- The second attempt of a session: with a passphrase there is one invocation, and
either the error or the edit dialog. -/
theorem decryptAndEdit_passphrase (env : DecryptEnv) (filePath passphrase : GoString)
    (tr : List Event) (hp : passphrase ≠ []) :
    decryptAndEdit env filePath passphrase tr =
      tr ++ [.exec (decryptArgs filePath passphrase)] ++
        (match (env.run (execs tr).length (decryptArgs filePath passphrase)).err with
         | some err =>
           [.showError (B "Failed to decrypt file: " ++ err ++ B "\n" ++
             (env.run (execs tr).length (decryptArgs filePath passphrase)).output)]
         | none =>
           [.editDialogShow (filterOutput
             (env.run (execs tr).length (decryptArgs filePath passphrase)).output)]) := by
  rw [decryptAndEdit]
  simp only [hp, dite_false]
  split <;> simp_all

/-- The whole session, case by case. -/
theorem decryptAndEditFile_eq (env : DecryptEnv) (filePath : GoString) :
    decryptAndEditFile env filePath =
      (match (env.run 0 (decryptArgs filePath [])).err with
       | none =>
         [.exec (decryptArgs filePath []),
          .editDialogShow (filterOutput (env.run 0 (decryptArgs filePath [])).output)]
       | some _ =>
         match env.passphraseReply 0 with
         | .cancel => [.exec (decryptArgs filePath []), .passphraseDialog]
         | .confirm p =>
           if p = [] then
             [.exec (decryptArgs filePath []), .passphraseDialog,
              .showError (B "Passphrase cannot be empty")]
           else
             [.exec (decryptArgs filePath []), .passphraseDialog,
              .exec (decryptArgs filePath p)] ++
               (match (env.run 1 (decryptArgs filePath p)).err with
                | some err =>
                  [.showError (B "Failed to decrypt file: " ++ err ++ B "\n" ++
                    (env.run 1 (decryptArgs filePath p)).output)]
                | none =>
                  [.editDialogShow (filterOutput
                    (env.run 1 (decryptArgs filePath p)).output)])) := by
  unfold decryptAndEditFile
  rw [decryptAndEdit]
  simp only [dite_true, List.nil_append, execs, List.filterMap_nil, List.length_nil,
    passphraseDialogs]
  cases h1 : (env.run 0 (decryptArgs filePath [])).err with
  | none => rfl
  | some err =>
    simp only
    have hd : (List.filter (fun ev => decide (ev = Event.passphraseDialog))
        [Event.exec (decryptArgs filePath [])]).length = 0 := by
      simp [List.filter]
    rw [hd]
    cases h2 : env.passphraseReply 0 with
    | cancel => rfl
    | confirm p =>
      simp only
      by_cases hp : p = []
      · simp [hp]
      · simp only [hp, dite_false, if_false]
        rw [decryptAndEdit_passphrase env filePath p _ hp]
        simp [execs]

/-- C8. In a session started by `decryptAndEditFile`, whatever the decrypt subprocess
returns and whatever the user replies: there are at most two invocations; the first has
no passphrase; a second one happens only after the first failed and the user confirmed a
non-empty passphrase, which it carries; and when the second one fails the session is
exactly the two invocations, the one passphrase dialog between them, and the error
"Failed to decrypt file" with the subprocess error and its captured output. -/
theorem C8_decrypt_invoked_at_most_twice (env : DecryptEnv) (filePath : GoString) :
    (execs (decryptAndEditFile env filePath)).length ≤ 2 ∧
    (execs (decryptAndEditFile env filePath)).head? =
      some [B "gpg", B "--batch", B "--decrypt", filePath] ∧
    ∀ argv, (execs (decryptAndEditFile env filePath))[1]? = some argv →
      (env.run 0 [B "gpg", B "--batch", B "--decrypt", filePath]).err ≠ none ∧
      ∃ p, p ≠ [] ∧ env.passphraseReply 0 = .confirm p ∧
        argv = [B "gpg", B "--batch", B "--passphrase", p, B "--decrypt", filePath] ∧
        ∀ err, (env.run 1 argv).err = some err →
          decryptAndEditFile env filePath =
            [.exec [B "gpg", B "--batch", B "--decrypt", filePath], .passphraseDialog,
             .exec argv,
             .showError (B "Failed to decrypt file: " ++ err ++ B "\n" ++
               (env.run 1 argv).output)] := by
  rw [decryptAndEditFile_eq]
  have ha : decryptArgs filePath [] = [B "gpg", B "--batch", B "--decrypt", filePath] := by
    simp [decryptArgs]
  rw [ha]
  cases h1 : (env.run 0 [B "gpg", B "--batch", B "--decrypt", filePath]).err with
  | none => simp [execs]
  | some e1 =>
    cases h2 : env.passphraseReply 0 with
    | cancel => simp [execs]
    | confirm p =>
      by_cases hp : p = []
      · simp [execs, hp]
      · have hb : decryptArgs filePath p =
            [B "gpg", B "--batch", B "--passphrase", p, B "--decrypt", filePath] := by
          simp [decryptArgs, hp]
        simp only [hp, if_false, hb]
        cases h3 : (env.run 1
            [B "gpg", B "--batch", B "--passphrase", p, B "--decrypt", filePath]).err with
        | none => simp [execs, hp, h3]
        | some e2 => simp [execs, hp, h3]

/-- C9. The text handed to the editor is the join with `"\n"` of the lines of the decrypt
output, split at `"\n"`, that neither begin with `gpg:` nor contain `encrypted with`,
`created` or `<c4point@gmail.com>`, in their order and as they are; and no line of that
text begins with `gpg:`. -/
theorem C9_editor_text_is_filtered_output (output : GoString) :
    filterOutput output =
      Join ((Split output (B "\n")).filter (fun line =>
        !HasPrefix line (B "gpg:") && !Contains line (B "encrypted with") &&
          !Contains line (B "created") && !Contains line (B "<c4point@gmail.com>")))
        (B "\n") ∧
    ∀ line ∈ Split (filterOutput output) (B "\n"), HasPrefix line (B "gpg:") = false := by
  have hnl : B "\n" = [10] := by decide
  have hfilter : filterOutput output =
      Join ((Split output (B "\n")).filter (fun line => !isHeaderLine line)) (B "\n") := by
    unfold filterOutput
    simp only [foldl_keep, List.nil_append]
  refine ⟨?_, ?_⟩
  · rw [hfilter]
    congr 1
    apply List.filter_congr
    intro line _
    simp [isHeaderLine, Bool.not_or, Bool.and_assoc]
  · rw [hfilter, hnl]
    intro line hline
    cases hk : (Split output [10]).filter (fun line => !isHeaderLine line) with
    | nil =>
      rw [hk] at hline
      have : line = [] := by simpa [Join, Split, splitAux, List.intercalate] using hline
      rw [this]
      decide
    | cons l ls =>
      rw [Split_Join_single 10 _ (by rw [hk]; simp)] at hline
      · have := (List.mem_filter.1 hline).2
        simp only [isHeaderLine, Bool.not_eq_true', Bool.or_eq_false_iff] at this
        exact this.1.1.1
      · intro x hx
        exact Split_single_pieces 10 output x (List.mem_filter.1 hx).1

/-- C10. When the listing of the root cannot be read, `ScanPasswordStore` returns no
store but an error, and the message of the error contains
`error reading target directory`. -/
theorem C10_unreadable_root_is_an_error (targetPath err : GoString) :
    ∃ msg, ScanPasswordStore targetPath (.unreadable err) = .error msg ∧
      Contains msg (B "error reading target directory") = true := by
  refine ⟨B "error reading target directory: " ++ err, rfl, ?_⟩
  apply Contains_of_isPrefixOf
  rw [List.isPrefixOf_iff_prefix]
  have : B "error reading target directory: " = B "error reading target directory" ++ B ": " := by
    decide
  rw [this, List.append_assoc]
  exact List.prefix_append _ _

/-- The root of `TestScanPasswordStoreNonExistentDirectory`. -/
theorem nonExistentRoot_error :
    ScanPasswordStore (B "/non/existent/path")
        (.unreadable (B "open /non/existent/path: no such file or directory")) =
      .error (B "error reading target directory: open /non/existent/path: no such file or directory") := by
  rfl

/-! ## The keys of the index on a host with another separator -/

theorem pathElemsOn_unix (s : GoString) : pathElemsOn unixHost s = pathElems s := by
  induction s with
  | nil => rfl
  | cons c cs ih =>
    by_cases hc : c = Separator
    · subst hc
      have h1 : unixHost.IsPathSeparator Separator = true := by decide
      simp only [pathElemsOn, pathElems, h1, if_true, ih]
    · have h1 : unixHost.IsPathSeparator c = false := by simpa [unixHost, Separator] using hc
      simp only [pathElemsOn, pathElems, h1, hc, if_false, ih, Bool.false_eq_true]

theorem CleanOn_unix (path : GoString) : CleanOn unixHost path = Clean path := by
  unfold CleanOn Clean
  by_cases hp : path = []
  · simp [hp]
  · rw [if_neg hp, if_neg hp]
    have hroot : (match path.head? with
        | some c => unixHost.IsPathSeparator c
        | none => false) = isRooted path := by
      cases path with
      | nil => exact absurd rfl hp
      | cons a x =>
        by_cases ha : a = Separator
        · simp [isRooted, unixHost, ha, Separator]
        · have ha2 : (a == 47) = false := by simpa [Separator] using ha
          simp [isRooted, unixHost, ha, ha2]
    simp only [hroot, pathElemsOn_unix, cleanElems, renderPath]
    rfl

/-- On a host whose separator is `/` the general `filepath.Join` is the one of the scan. -/
theorem filepathJoinOn_unix (elem : List GoString) :
    filepathJoinOn unixHost elem = filepathJoin elem := by
  unfold filepathJoinOn filepathJoin
  cases elem.dropWhile (fun e => decide (e = [])) with
  | nil => rfl
  | cons e es => simp only [CleanOn_unix]; rfl

theorem scanDirectoryWith_filepathJoin (d : FS) : ∀ p r : GoString,
    scanDirectoryWith filepathJoin p r d = scanDirectory p r d := by
  induction d with
  | unreadable err => intro p r; rfl
  | listing es sub ih =>
    intro p r
    simp only [scanDirectoryWith, scanDirectory]
    have hf : (fun name => scanDirectoryWith filepathJoin (filepathJoin [p, name])
          (filepathJoin [r, name]) (sub name)) =
        (fun name => scanDirectory (filepathJoin [p, name]) (filepathJoin [r, name])
          (sub name)) := funext (fun name => ih name _ _)
    rw [hf]

theorem storePathsWith_filepathJoin (st : PasswordStore) (p : GoString) (files : List GoString) :
    storePathsWith filepathJoin st p files = storePaths st p files := rfl

theorem processSubdirectoriesWith_filepathJoin (d : FS) :
    ∀ (st : PasswordStore) (p r : GoString) (subdirs : List GoString),
      processSubdirectoriesWith filepathJoin st p r d subdirs =
        processSubdirectories st p r d subdirs := by
  induction d with
  | unreadable err => intro st p r subdirs; rfl
  | listing es sub ih =>
    intro st p r subdirs
    simp only [processSubdirectoriesWith, processSubdirectories]
    congr 1
    funext store subdir
    rw [scanDirectoryWith_filepathJoin]
    cases scanDirectory (filepathJoin [p, subdir]) (filepathJoin [r, subdir]) (sub subdir) with
    | error e => rfl
    | ok res =>
      obtain ⟨files, nested⟩ := res
      simp only [storePathsWith_filepathJoin, ih]

/-- With the `filepath.Join` of a host whose separator is `/`, the scan on a host is the
scan. -/
theorem ScanPasswordStoreOn_unix (targetPath : GoString) (fs : FS) :
    ScanPasswordStoreOn unixHost targetPath fs = ScanPasswordStore targetPath fs := by
  have hjoin : filepathJoinOn unixHost = filepathJoin := funext filepathJoinOn_unix
  unfold ScanPasswordStoreOn
  rw [hjoin]
  cases fs with
  | unreadable err => rfl
  | listing es sub =>
    simp only [ScanPasswordStoreWith, ScanPasswordStore]
    congr 2
    funext store dir
    simp only [rootDirStepWith, rootDirStep, scanDirectoryWith_filepathJoin,
      storePathsWith_filepathJoin, processSubdirectoriesWith_filepathJoin]

/-- C14, at the test tree on a host whose separator is `\`: the directory `subdir1` of
`dir1` is in the index under the key `dir1\subdir1`, and there is nothing under
`dir1/subdir1`; on a host whose separator is `/` the key is `dir1/subdir1`. -/
theorem C14_nested_key_uses_host_separator :
    (ScanPasswordStoreOn windowsHost (B "\\store") (.listing testEntries testSub)).toOption.map
        (fun st => (st.Directories, st.NestedDirs (B "dir1"),
          st.DirContents (B "dir1/subdir1"), st.DirContents (B "dir1\\subdir1"),
          st.DirContents (B "dir2\\subdir2\\nested"))) =
      some ([B "dir1", B "dir2"], some [B "subdir1"], none, some [B "subfile1"],
        some [B "nestedfile"]) ∧
    (ScanPasswordStoreOn unixHost (B "/store") (.listing testEntries testSub)).toOption.map
        (fun st => (st.DirContents (B "dir1/subdir1"), st.DirContents (B "dir1\\subdir1"))) =
      some (some [B "subfile1"], none) := by
  constructor <;> rfl

/-! ## The short-circuit of the decrypt protocol and the encrypting save -/

/-- C16. In a session whose first decrypt invocation, the one without passphrase,
succeeds, the session is that invocation followed by the edit dialog with the filtered
output: no passphrase dialog is shown and there is no second invocation. -/
theorem C16_agent_success_skips_passphrase (env : DecryptEnv) (filePath : GoString)
    (hok : (env.run 0 [B "gpg", B "--batch", B "--decrypt", filePath]).err = none) :
    decryptAndEditFile env filePath =
      [.exec [B "gpg", B "--batch", B "--decrypt", filePath],
       .editDialogShow (filterOutput
         (env.run 0 [B "gpg", B "--batch", B "--decrypt", filePath]).output)] ∧
    passphraseDialogs (decryptAndEditFile env filePath) = 0 ∧
    (execs (decryptAndEditFile env filePath)).length = 1 := by
  have ha : decryptArgs filePath [] = [B "gpg", B "--batch", B "--decrypt", filePath] := by
    simp [decryptArgs]
  have h : decryptAndEditFile env filePath =
      [.exec [B "gpg", B "--batch", B "--decrypt", filePath],
       .editDialogShow (filterOutput
         (env.run 0 [B "gpg", B "--batch", B "--decrypt", filePath]).output)] := by
    rw [decryptAndEditFile_eq, ha, hok]
  rw [h]
  exact ⟨rfl, by simp [passphraseDialogs], by simp [execs]⟩

/-- C16 at a session in which the agent decrypts the file at once. -/
theorem C16_agent_success_skips_passphrase_witness :
    decryptAndEditFile envAgent (B "/s/a.gpg") =
      [.exec [B "gpg", B "--batch", B "--decrypt", B "/s/a.gpg"],
       .editDialogShow (filterOutput
         (envAgent.run 0 [B "gpg", B "--batch", B "--decrypt", B "/s/a.gpg"]).output)] ∧
    passphraseDialogs (decryptAndEditFile envAgent (B "/s/a.gpg")) = 0 ∧
    (execs (decryptAndEditFile envAgent (B "/s/a.gpg"))).length = 1 :=
  C16_agent_success_skips_passphrase envAgent (B "/s/a.gpg") rfl

theorem encryptAndReport_eq (env : SaveEnv) (filePath tmpFileName recipient : GoString)
    (s : SaveState) :
    encryptAndReport env filePath tmpFileName recipient s =
      { files := { scratch := none, target := env.targetAfterEncrypt s.files.target },
        trace := s.trace ++ [.exec (encryptArgs recipient filePath tmpFileName)] ++
          encryptReport env.encrypt } := by
  unfold encryptAndReport encryptReport
  cases env.encrypt.err <;>
    simp [SaveState.log, SaveState.setScratch, SaveState.setTarget]

/-- A save that gets as far as a recipient runs the list-packets inspection, shows the
recipient dialog when nothing was detected, and then encrypts. -/
theorem saveHandler_encrypts (env : SaveEnv)
    (filePath editedContent defaultRecipient tmpFileName recipient : GoString) (s : SaveState)
    (htmp : env.tempFile = .ok tmpFileName) (hwrite : env.writeErr = none)
    (hlist : env.listPackets.err = none)
    (hrecipient :
      (detectRecipient env.listPackets.output = recipient ∧ recipient ≠ []) ∨
      (detectRecipient env.listPackets.output = [] ∧
        env.recipientReply = .confirm recipient ∧ recipient ≠ [])) :
    saveHandler env filePath editedContent defaultRecipient s =
      { files := { scratch := none, target := env.targetAfterEncrypt s.files.target },
        trace := s.trace ++ [.exec [B "gpg", B "--batch", B "--list-packets", filePath]] ++
          (if detectRecipient env.listPackets.output = [] then
            [.recipientDialog defaultRecipient] else []) ++
          [.exec (encryptArgs recipient filePath tmpFileName)] ++
          encryptReport env.encrypt } := by
  rcases hrecipient with ⟨hd, hne⟩ | ⟨hd, hr, hne⟩
  · subst hd
    simp [saveHandler, htmp, hwrite, hlist, hne, encryptAndReport_eq, SaveState.log,
      SaveState.setScratch]
  · simp [saveHandler, htmp, hwrite, hlist, hd, hr, hne, encryptAndReport_eq, SaveState.log,
      SaveState.setScratch]

theorem execs_encryptReport (res : CmdResult) : execs (encryptReport res) = [] := by
  unfold encryptReport
  cases res.err <;> simp [execs]

theorem newEvents_append (s : SaveState) (files : Files) (evs : List Event) :
    newEvents s { files := files, trace := s.trace ++ evs } = evs := by
  simp [newEvents]

/-- When an encrypt command is among the events of a save, the save got as far as a
recipient: one was detected, or the user supplied one. -/
theorem encrypt_invoked_cases (env : SaveEnv)
    (filePath editedContent defaultRecipient : GoString) (s : SaveState)
    (hinv : (execs (newEvents s
      (saveHandler env filePath editedContent defaultRecipient s))).any isEncryptCommand = true) :
    ∃ tmpFileName recipient, env.tempFile = .ok tmpFileName ∧ env.writeErr = none ∧
      env.listPackets.err = none ∧
      ((detectRecipient env.listPackets.output = recipient ∧ recipient ≠ []) ∨
        (detectRecipient env.listPackets.output = [] ∧
          env.recipientReply = .confirm recipient ∧ recipient ≠ [])) := by
  have hlp : isEncryptCommand [B "gpg", B "--batch", B "--list-packets", filePath] = false := by
    simp [isEncryptCommand]
  cases htmp : env.tempFile with
  | error e =>
    simp [saveHandler, htmp, SaveState.log, newEvents, execs] at hinv
  | ok tmp =>
    cases hwrite : env.writeErr with
    | some e =>
      simp [saveHandler, htmp, hwrite, SaveState.log, SaveState.setScratch, newEvents,
        execs] at hinv
    | none =>
      cases hlist : env.listPackets.err with
      | some e =>
        simp [saveHandler, htmp, hwrite, hlist, SaveState.log, SaveState.setScratch,
          newEvents, execs, hlp] at hinv
      | none =>
        by_cases hd : detectRecipient env.listPackets.output = []
        · cases hr : env.recipientReply with
          | cancel =>
            simp [saveHandler, htmp, hwrite, hlist, hd, hr, SaveState.log,
              SaveState.setScratch, newEvents, execs, hlp] at hinv
          | confirm r =>
            by_cases hne : r = []
            · simp [saveHandler, htmp, hwrite, hlist, hd, hr, hne, SaveState.log,
                SaveState.setScratch, newEvents, execs, hlp] at hinv
            · exact ⟨tmp, r, rfl, rfl, rfl, Or.inr ⟨hd, rfl, hne⟩⟩
        · exact ⟨tmp, _, rfl, rfl, rfl, Or.inl ⟨rfl, hd⟩⟩

/-- C17. In every save in which the encrypt subprocess is invoked, with a detected or
with a user-supplied recipient and whether it succeeds or fails, the scratch file does
not exist afterwards, and after the invocation nothing happens but the report of the
result: the removal is what follows the return of the subprocess. -/
theorem C17_scratch_removed_after_encrypt (env : SaveEnv)
    (filePath editedContent defaultRecipient : GoString) (s : SaveState)
    (hinv : (execs (newEvents s
      (saveHandler env filePath editedContent defaultRecipient s))).any isEncryptCommand = true) :
    (saveHandler env filePath editedContent defaultRecipient s).files.scratch = none ∧
    ∃ before tmpFileName recipient,
      (saveHandler env filePath editedContent defaultRecipient s).trace =
        before ++ [.exec (encryptArgs recipient filePath tmpFileName)] ++
          encryptReport env.encrypt ∧
      (detectRecipient env.listPackets.output = recipient ∨
        env.recipientReply = .confirm recipient) := by
  obtain ⟨tmp, r, htmp, hwrite, hlist, hrec⟩ :=
    encrypt_invoked_cases env filePath editedContent defaultRecipient s hinv
  rw [saveHandler_encrypts env filePath editedContent defaultRecipient tmp r s htmp hwrite
    hlist hrec]
  refine ⟨rfl, _, tmp, r, rfl, ?_⟩
  rcases hrec with ⟨h, _⟩ | ⟨_, h, _⟩
  · exact Or.inl h
  · exact Or.inr h

/-- C17 at a save to a detected recipient whose encrypt subprocess fails. -/
theorem C17_scratch_removed_after_encrypt_witness :
    (saveHandler envEncryptFails (B "/s/a.gpg") (B "secret") [] sampleStart).files.scratch =
      none ∧
    ∃ before tmpFileName recipient,
      (saveHandler envEncryptFails (B "/s/a.gpg") (B "secret") [] sampleStart).trace =
        before ++ [.exec (encryptArgs recipient (B "/s/a.gpg") tmpFileName)] ++
          encryptReport envEncryptFails.encrypt ∧
      (detectRecipient envEncryptFails.listPackets.output = recipient ∨
        envEncryptFails.recipientReply = .confirm recipient) :=
  C17_scratch_removed_after_encrypt envEncryptFails (B "/s/a.gpg") (B "secret") []
    sampleStart (by decide)

/-- A save with a user-supplied recipient whose encrypt subprocess succeeds: the encrypt
command runs with that recipient and the scratch file is gone. -/
theorem suppliedRecipient_save :
    saveHandler { envBlank with recipientReply := .confirm (B "me@example.org") }
        (B "/s/a.gpg") (B "secret") [] sampleStart =
      { files := { scratch := none, target := B "new" },
        trace :=
          [.exec [B "gpg", B "--batch", B "--list-packets", B "/s/a.gpg"],
           .recipientDialog [],
           .exec [B "gpg", B "--batch", B "--yes", B "--recipient", B "me@example.org",
             B "--output", B "/s/a.gpg", B "--encrypt", B "/tmp/gpg_edit_1"],
           .showInformation (B "Success") (B "File saved successfully"),
           .editDialogHide] } := by
  decide

/-- C18 as stated fails: at a save whose encrypt subprocess exits with failure after it
has opened its output file, the target file no longer holds what it held before. -/
theorem C18_failed_encrypt_can_change_target :
    envEncryptFails.encrypt.err = some (B "exit status 2") ∧
    (execs (newEvents sampleStart
      (saveHandler envEncryptFails (B "/s/a.gpg") (B "secret") [] sampleStart))).any
        isEncryptCommand = true ∧
    (saveHandler envEncryptFails (B "/s/a.gpg") (B "secret") [] sampleStart).files.target ≠
      sampleStart.files.target := by
  decide

/-- C18, amended. In every save in which the encrypt subprocess is invoked and exits with
failure, the last thing that happens is the error "Failed to encrypt file" with the error
of the subprocess and its captured output, and the workflow itself writes nothing to the
target file: the subprocess is started on the content from before the save, and the
target holds afterwards what the subprocess made of that content. So the content is the
one from before the save whenever the failed subprocess left its output file alone. -/
theorem C18_failed_encrypt_is_reported (env : SaveEnv)
    (filePath editedContent defaultRecipient err : GoString) (s : SaveState)
    (hinv : (execs (newEvents s
      (saveHandler env filePath editedContent defaultRecipient s))).any isEncryptCommand = true)
    (hfail : env.encrypt.err = some err) :
    (saveHandler env filePath editedContent defaultRecipient s).trace.getLast? =
      some (.showError (B "Failed to encrypt file: " ++ err ++ B "\n" ++ env.encrypt.output)) ∧
    (saveHandler env filePath editedContent defaultRecipient s).files.target =
      env.targetAfterEncrypt s.files.target ∧
    (env.targetAfterEncrypt s.files.target = s.files.target →
      (saveHandler env filePath editedContent defaultRecipient s).files.target =
        s.files.target) := by
  obtain ⟨tmp, r, htmp, hwrite, hlist, hrec⟩ :=
    encrypt_invoked_cases env filePath editedContent defaultRecipient s hinv
  rw [saveHandler_encrypts env filePath editedContent defaultRecipient tmp r s htmp hwrite
    hlist hrec]
  refine ⟨?_, rfl, fun h => h⟩
  by_cases hd : detectRecipient env.listPackets.output = [] <;>
    simp [encryptReport, hfail, hd]

/-- C18, amended, at a save whose encrypt subprocess refuses the recipient and leaves the
target file alone: the target holds `old` as before. -/
theorem C18_failed_encrypt_is_reported_witness :
    (saveHandler envEncryptRefuses (B "/s/a.gpg") (B "secret") [] sampleStart).trace.getLast? =
      some (.showError (B "Failed to encrypt file: " ++ B "exit status 2" ++ B "\n" ++
        envEncryptRefuses.encrypt.output)) ∧
    (saveHandler envEncryptRefuses (B "/s/a.gpg") (B "secret") [] sampleStart).files.target =
      envEncryptRefuses.targetAfterEncrypt sampleStart.files.target ∧
    (envEncryptRefuses.targetAfterEncrypt sampleStart.files.target = sampleStart.files.target →
      (saveHandler envEncryptRefuses (B "/s/a.gpg") (B "secret") [] sampleStart).files.target =
        sampleStart.files.target) :=
  C18_failed_encrypt_is_reported envEncryptRefuses (B "/s/a.gpg") (B "secret") []
    (B "exit status 2") sampleStart (by decide) rfl

/-- The save whose encrypt subprocess refuses the recipient leaves the target as it was. -/
theorem refusedEncrypt_keeps_target :
    (saveHandler envEncryptRefuses (B "/s/a.gpg") (B "secret") [] sampleStart).files.target =
      B "old" := by
  decide

/-- C19. When the scratch file cannot be created, or is created but cannot be written,
the save handler shows the error and stops: no subprocess is invoked, neither the
list-packets inspection nor the encrypt command, and the target file is as it was; after
a failed write the scratch file is removed, after a failed creation the files are as
they were. -/
theorem C19_scratch_failure_stops_save (env : SaveEnv)
    (filePath editedContent defaultRecipient err : GoString) (s : SaveState)
    (hfail : env.tempFile = .error err ∨
      ((∃ tmpFileName, env.tempFile = .ok tmpFileName) ∧ env.writeErr = some err)) :
    execs (saveHandler env filePath editedContent defaultRecipient s).trace = execs s.trace ∧
    (saveHandler env filePath editedContent defaultRecipient s).files.target =
      s.files.target ∧
    (env.tempFile = .error err →
      saveHandler env filePath editedContent defaultRecipient s =
        { files := s.files,
          trace := s.trace ++ [.showError (B "Failed to create temporary file: " ++ err)] }) ∧
    ((∃ tmpFileName, env.tempFile = .ok tmpFileName) →
      (saveHandler env filePath editedContent defaultRecipient s).files.scratch = none ∧
      (saveHandler env filePath editedContent defaultRecipient s).trace =
        s.trace ++ [.showError (B "Failed to write to temporary file: " ++ err)]) := by
  rcases hfail with htmp | ⟨⟨tmp, htmp⟩, hwrite⟩
  · simp [saveHandler, htmp, SaveState.log, execs, List.filterMap_append]
  · simp [saveHandler, htmp, hwrite, SaveState.log, SaveState.setScratch, execs,
      List.filterMap_append]

/-- C19 at a save whose scratch file is created but cannot be written. -/
theorem C19_scratch_failure_stops_save_witness :
    execs (saveHandler envNoWrite (B "/s/a.gpg") (B "secret") [] sampleStart).trace =
      execs sampleStart.trace ∧
    (saveHandler envNoWrite (B "/s/a.gpg") (B "secret") [] sampleStart).files.target =
      sampleStart.files.target ∧
    (envNoWrite.tempFile = .error (B "write /tmp/gpg_edit_1: no space left on device") →
      saveHandler envNoWrite (B "/s/a.gpg") (B "secret") [] sampleStart =
        { files := sampleStart.files,
          trace := sampleStart.trace ++
            [.showError (B "Failed to create temporary file: " ++
              B "write /tmp/gpg_edit_1: no space left on device")] }) ∧
    ((∃ tmpFileName, envNoWrite.tempFile = .ok tmpFileName) →
      (saveHandler envNoWrite (B "/s/a.gpg") (B "secret") [] sampleStart).files.scratch =
        none ∧
      (saveHandler envNoWrite (B "/s/a.gpg") (B "secret") [] sampleStart).trace =
        sampleStart.trace ++
          [.showError (B "Failed to write to temporary file: " ++
            B "write /tmp/gpg_edit_1: no space left on device")]) :=
  C19_scratch_failure_stops_save envNoWrite (B "/s/a.gpg") (B "secret") []
    (B "write /tmp/gpg_edit_1: no space left on device") sampleStart
    (Or.inr ⟨⟨B "/tmp/gpg_edit_1", rfl⟩, rfl⟩)

/-- The two failures of C19, evaluated: a failed creation leaves no scratch file and shows
its error; so does a failed write. -/
theorem scratchFailure_saves :
    saveHandler envNoTemp (B "/s/a.gpg") (B "secret") [] sampleStart =
      { files := { scratch := none, target := B "old" },
        trace := [.showError
          (B "Failed to create temporary file: open /tmp/gpg_edit_1: no space left on device")] } ∧
    saveHandler envNoWrite (B "/s/a.gpg") (B "secret") [] sampleStart =
      { files := { scratch := none, target := B "old" },
        trace := [.showError
          (B "Failed to write to temporary file: write /tmp/gpg_edit_1: no space left on device")] } := by
  decide
/-! ## The decrypt command, the output filter and the recipient label -/

theorem splitAux_ne_nil (sep s : GoString) (n : Nat) (cur : GoString) :
    splitAux sep s n cur ≠ [] := by
  induction s generalizing n cur with
  | nil => simp [splitAux]
  | cons c cs ih =>
    cases n with
    | zero =>
      simp only [splitAux]
      split
      · simp
      · exact ih _ _
    | succ n => simpa [splitAux] using ih n cur

theorem intercalate_splitAux_single (b : Nat) (s cur : GoString) :
    [b].intercalate (splitAux [b] s 0 cur) = cur ++ s := by
  induction s generalizing cur with
  | nil => simp [splitAux, intercalate_singleton]
  | cons c cs ih =>
    simp only [splitAux]
    by_cases hc : b = c
    · subst hc
      have hp : ([b] : GoString).isPrefixOf (b :: cs) = true := by simp [List.isPrefixOf]
      simp only [hp, if_true, List.length_singleton, Nat.sub_self]
      cases hk : splitAux [b] cs 0 [] with
      | nil => exact absurd hk (splitAux_ne_nil _ _ _ _)
      | cons y l =>
        rw [intercalate_cons_cons, ← hk, ih]
        simp
    · have hp : ([b] : GoString).isPrefixOf (c :: cs) = false := by
        simp [List.isPrefixOf, hc]
      simp only [hp, Bool.false_eq_true, if_false, ih]
      simp

/-- Joining the pieces of a split at a one-byte separator gives the string back. -/
theorem Join_Split_single (b : Nat) (s : GoString) : Join (Split s [b]) [b] = s := by
  unfold Join Split
  simpa using intercalate_splitAux_single b s []

theorem filterOutput_eq (s : GoString) :
    filterOutput s = Join ((Split s [10]).filter (fun line => !isHeaderLine line)) [10] := by
  have hnl : B "\n" = [10] := by decide
  unfold filterOutput
  simp only [foldl_keep, List.nil_append, hnl]

/-- C21. The argument vector of the decrypt command is `gpg --batch --decrypt path` when
the passphrase is empty and `gpg --batch --passphrase passphrase --decrypt path` when it
is not; and every subprocess of a decrypt session is started with one of the two. -/
theorem C21_decrypt_argument_vector (filePath : GoString) :
    decryptArgs filePath [] = [B "gpg", B "--batch", B "--decrypt", filePath] ∧
    (∀ (c : Nat) (cs : GoString),
      decryptArgs filePath (c :: cs) =
        [B "gpg", B "--batch", B "--passphrase", c :: cs, B "--decrypt", filePath]) ∧
    ∀ (env : DecryptEnv), ∀ argv ∈ execs (decryptAndEditFile env filePath),
      argv = [B "gpg", B "--batch", B "--decrypt", filePath] ∨
      ∃ c cs, argv = [B "gpg", B "--batch", B "--passphrase", c :: cs, B "--decrypt", filePath] := by
  refine ⟨by simp [decryptArgs], fun c cs => by simp [decryptArgs], ?_⟩
  intro env argv hargv
  rw [decryptAndEditFile_eq] at hargv
  have h0 : decryptArgs filePath [] = [B "gpg", B "--batch", B "--decrypt", filePath] := by
    simp [decryptArgs]
  cases h1 : (env.run 0 (decryptArgs filePath [])).err with
  | none =>
    simp only [h1, execs, List.filterMap_cons, List.filterMap_nil, List.mem_singleton] at hargv
    exact Or.inl (hargv.trans h0)
  | some e =>
    simp only [h1] at hargv
    cases h2 : env.passphraseReply 0 with
    | cancel =>
      simp only [h2, execs, List.filterMap_cons, List.filterMap_nil, List.mem_singleton] at hargv
      exact Or.inl (hargv.trans h0)
    | confirm p =>
      simp only [h2] at hargv
      by_cases hp : p = []
      · simp only [hp, if_true, execs, List.filterMap_cons, List.filterMap_nil,
          List.mem_singleton] at hargv
        exact Or.inl (hargv.trans h0)
      · simp only [hp, if_false] at hargv
        have hmem : argv = decryptArgs filePath [] ∨ argv = decryptArgs filePath p := by
          cases h3 : (env.run 1 (decryptArgs filePath p)).err <;>
            simpa [h3, execs] using hargv
        rcases hmem with h | h
        · exact Or.inl (h.trans h0)
        · cases p with
          | nil => exact absurd rfl hp
          | cons c cs => exact Or.inr ⟨c, cs, by rw [h]; simp [decryptArgs]⟩

/-- C29. The output filter is idempotent: filtering its own result changes nothing, also
when every line is dropped (the result is then empty); and a text none of whose lines
begins with `gpg:` or contains `encrypted with`, `created` or `<c4point@gmail.com>` is
returned unchanged. -/
theorem C29_filter_is_idempotent (s : GoString) :
    filterOutput (filterOutput s) = filterOutput s ∧
    ((∀ line ∈ Split s (B "\n"), isHeaderLine line = true) → filterOutput s = []) ∧
    ((∀ line ∈ Split s (B "\n"),
        HasPrefix line (B "gpg:") = false ∧ Contains line (B "encrypted with") = false ∧
        Contains line (B "created") = false ∧
        Contains line (B "<c4point@gmail.com>") = false) → filterOutput s = s) := by
  have hnl : B "\n" = [10] := by decide
  rw [hnl]
  refine ⟨?_, ?_, ?_⟩
  · rw [filterOutput_eq s]
    cases hk : (Split s [10]).filter (fun line => !isHeaderLine line) with
    | nil => decide
    | cons l ls =>
      rw [← hk, filterOutput_eq, Split_Join_single 10 _ (by rw [hk]; simp), List.filter_filter]
      · simp
      · intro x hx
        exact Split_single_pieces 10 s x (List.mem_filter.1 hx).1
  · intro h
    rw [filterOutput_eq]
    have : (Split s [10]).filter (fun line => !isHeaderLine line) = [] := by
      rw [List.filter_eq_nil_iff]
      intro a ha
      simp [h a ha]
    rw [this]
    rfl
  · intro h
    rw [filterOutput_eq]
    have : (Split s [10]).filter (fun line => !isHeaderLine line) = Split s [10] := by
      rw [List.filter_eq_self]
      intro a ha
      obtain ⟨h1, h2, h3, h4⟩ := h a ha
      simp [isHeaderLine, h1, h2, h3, h4]
    rw [this, Join_Split_single]

/-- C29 at a text without header lines, and at a text of header lines only. -/
theorem C29_filter_is_idempotent_witness :
    filterOutput (B "secret\nuser: me") = B "secret\nuser: me" ∧
    filterOutput (B "gpg: encrypted with a key\ngpg: done") = [] :=
  ⟨(C29_filter_is_idempotent (B "secret\nuser: me")).2.2 (by decide),
   (C29_filter_is_idempotent (B "gpg: encrypted with a key\ngpg: done")).2.1 (by decide)⟩

/-! ## The recipient label -/

theorem splitAux_skip (sep : GoString) (s : GoString) :
    ∀ (n : Nat) (cur : GoString), splitAux sep s n cur = splitAux sep (s.drop n) 0 cur := by
  induction s with
  | nil => intro n cur; cases n <;> simp [splitAux]
  | cons c cs ih =>
    intro n cur
    cases n with
    | zero => rfl
    | succ n => simpa [splitAux] using ih n cur

theorem upToNext_of_not_Contains (sep s : GoString) (h : Contains s sep = false) :
    upToNext sep s = s := by
  induction s with
  | nil => rfl
  | cons c cs ih =>
    simp only [Contains, Bool.or_eq_false_iff] at h
    simp [upToNext, h.1, ih h.2]

/-- A string that contains `sep` is the text before the first occurrence, `sep`, and the
text after it. -/
theorem Contains_first_occurrence (sep s : GoString) (h : Contains s sep = true) :
    s = upToNext sep s ++ sep ++ afterFirst sep s := by
  induction s with
  | nil =>
    simp only [Contains, List.isPrefixOf_iff_prefix] at h
    have := List.eq_nil_of_prefix_nil h
    subst this
    rfl
  | cons c cs ih =>
    by_cases hp : sep.isPrefixOf (c :: cs) = true
    · simp only [upToNext, afterFirst, hp, if_true, List.nil_append]
      obtain ⟨t, ht⟩ := List.isPrefixOf_iff_prefix.1 hp
      rw [← ht]
      simp
    · have hp2 : sep.isPrefixOf (c :: cs) = false := Bool.eq_false_iff.2 hp
      simp only [Contains, hp2, Bool.false_or] at h
      simp only [upToNext, afterFirst, hp2, Bool.false_eq_true, if_false, List.cons_append]
      rw [List.append_assoc, ← List.append_assoc, ← ih h]

/-- The first piece of a split ends at the first occurrence of the separator, and the
split goes on after it. -/
theorem splitAux_first (sep : GoString) (hsep : sep ≠ []) (s : GoString) :
    ∀ cur : GoString, splitAux sep s 0 cur =
      if Contains s sep = true then
        (cur ++ upToNext sep s) :: splitAux sep (afterFirst sep s) 0 []
      else [cur ++ s] := by
  induction s with
  | nil =>
    intro cur
    have : sep.isPrefixOf ([] : GoString) = false := by
      cases sep with
      | nil => exact absurd rfl hsep
      | cons a l => rfl
    simp [splitAux, Contains, this]
  | cons c cs ih =>
    intro cur
    by_cases hp : sep.isPrefixOf (c :: cs) = true
    · have hlen : sep.length = (sep.length - 1) + 1 := by
        have := List.length_pos.2 hsep
        omega
      simp only [splitAux, hp, if_true, Contains, Bool.true_or, upToNext, afterFirst,
        List.append_nil]
      rw [splitAux_skip sep cs (sep.length - 1) []]
      congr 2
      conv_rhs => rw [hlen]
      rfl
    · have hp2 : sep.isPrefixOf (c :: cs) = false := Bool.eq_false_iff.2 hp
      simp only [splitAux, hp2, Bool.false_eq_true, if_false, Contains, Bool.false_or,
        upToNext, afterFirst, ih]
      split <;> simp

theorem splitAux_head (sep : GoString) (hsep : sep ≠ []) (s cur : GoString) :
    ∃ rest, splitAux sep s 0 cur = (cur ++ upToNext sep s) :: rest := by
  rw [splitAux_first sep hsep]
  by_cases h : Contains s sep = true
  · exact ⟨_, by rw [if_pos h]⟩
  · rw [if_neg h, upToNext_of_not_Contains sep s (by simpa using h)]
    exact ⟨[], rfl⟩

/-- What one line yields: when it contains the label, the first 16 bytes of the trimmed
text between the first occurrence of the label and the next one (or the end of the line),
provided that text is longer than 16 bytes. -/
theorem recipientOfLine_eq (line : GoString) :
    recipientOfLine line =
      if Contains line (B "keyid") = true ∧
          (TrimSpace (upToNext (B "keyid") (afterFirst (B "keyid") line))).length > 16 then
        some ((TrimSpace (upToNext (B "keyid") (afterFirst (B "keyid") line))).take 16)
      else none := by
  have hsep : (B "keyid" : GoString) ≠ [] := by decide
  unfold recipientOfLine
  by_cases h : Contains line (B "keyid") = true
  · obtain ⟨rest, hrest⟩ := splitAux_head (B "keyid") hsep (afterFirst (B "keyid") line) []
    simp only [h, if_true, Split, splitAux_first (B "keyid") hsep line [], hrest,
      List.nil_append, true_and]
  · simp [h]

theorem recipientOfLine_length (line r : GoString) (h : recipientOfLine line = some r) :
    r.length = 16 := by
  rw [recipientOfLine_eq] at h
  split at h
  · rename_i hc
    simp only [Option.some.injEq] at h
    rw [← h, List.length_take]
    omega
  · exact absurd h (by simp)

theorem recipientOfLines_cases (ls : List GoString) :
    (recipientOfLines ls = [] ∧ ∀ l ∈ ls, recipientOfLine l = none) ∨
      ∃ l ∈ ls, recipientOfLine l = some (recipientOfLines ls) := by
  induction ls with
  | nil => exact Or.inl ⟨rfl, by simp⟩
  | cons l ls ih =>
    cases h : recipientOfLine l with
    | some r => exact Or.inr ⟨l, by simp, by simp [recipientOfLines, h]⟩
    | none =>
      simp only [recipientOfLines, h]
      rcases ih with ⟨h1, h2⟩ | ⟨x, hx, hr⟩
      · refine Or.inl ⟨h1, ?_⟩
        intro y hy
        rcases List.mem_cons.1 hy with rfl | hy
        · exact h
        · exact h2 y hy
      · exact Or.inr ⟨x, List.mem_cons_of_mem _ hx, hr⟩

/-- C25. The recipient detected in a list-packets output is empty or exactly 16 bytes
long; it is not empty if and only if some line contains `keyid` and the text between the
first `keyid` of that line and the next one (or the end of the line) has, once trimmed of
white space, more than 16 bytes. For the line that ends in `keyid` and a 16-character
identifier no recipient is detected, and a save that gets this output from list-packets
shows the recipient dialog. -/
theorem C25_detected_recipient_needs_more_than_sixteen (out : GoString) :
    (detectRecipient out = [] ∨ (detectRecipient out).length = 16) ∧
    (detectRecipient out ≠ [] ↔
      ∃ line ∈ Split out (B "\n"), Contains line (B "keyid") = true ∧
        (TrimSpace (upToNext (B "keyid") (afterFirst (B "keyid") line))).length > 16) ∧
    detectRecipient sampleKeyLine = [] ∧
    ∀ (tmpFileName : GoString) (reply : DialogReply) (encrypt : CmdResult)
      (after : GoString → GoString) (filePath edited defaultRecipient : GoString)
      (s : SaveState),
      Event.recipientDialog defaultRecipient ∈
        (saveHandler ⟨.ok tmpFileName, none, ⟨sampleKeyLine, none⟩, reply, encrypt, after⟩
          filePath edited defaultRecipient s).trace := by
  have hsample : detectRecipient sampleKeyLine = [] := by decide
  refine ⟨?_, ?_, hsample, ?_⟩
  · unfold detectRecipient
    rcases recipientOfLines_cases (Split out (B "\n")) with ⟨h, -⟩ | ⟨l, -, hl⟩
    · exact Or.inl h
    · exact Or.inr (recipientOfLine_length _ _ hl)
  · unfold detectRecipient
    constructor
    · intro hne
      rcases recipientOfLines_cases (Split out (B "\n")) with ⟨h, -⟩ | ⟨l, hmem, hl⟩
      · exact absurd h hne
      · refine ⟨l, hmem, ?_⟩
        rw [recipientOfLine_eq] at hl
        split at hl
        · assumption
        · exact absurd hl (by simp)
    · rintro ⟨line, hmem, hc, hlen⟩ hnil
      rcases recipientOfLines_cases (Split out (B "\n")) with ⟨-, h⟩ | ⟨l, -, hl⟩
      · have := h line hmem
        rw [recipientOfLine_eq, if_pos ⟨hc, hlen⟩] at this
        exact absurd this (by simp)
      · have := recipientOfLine_length _ _ hl
        rw [hnil] at this
        simp at this
  · intro tmpFileName reply encrypt after filePath edited defaultRecipient s
    simp only [saveHandler, hsample, if_true]
    cases reply with
    | cancel => simp [SaveState.log, SaveState.setScratch]
    | confirm r =>
      by_cases hr : r = []
      · simp [hr, SaveState.log, SaveState.setScratch]
      · simp only [hr, if_false, encryptAndReport]
        cases encrypt.err <;>
          simp [SaveState.log, SaveState.setScratch, SaveState.setTarget]

/-! ## The resolver and the lookup table, and the shape of the index -/

/-- C26. In a tree whose root can be read, for the display name of a `.gpg` file that no
other `.gpg` file of the tree shares, `findFilePath(root, name)` is the value that
`ScanPasswordStore(root)` stores under `AllPaths[name]`. -/
theorem C26_findFilePath_agrees_with_AllPaths (targetPath : GoString) (es : List DirEntry)
    (sub : GoString → FS) (comps : List GoString) (name : GoString)
    (hfile : (comps, name) ∈ gpgFiles (.listing es sub))
    (huniq : ∀ x ∈ gpgFiles (.listing es sub),
      TrimSuffix x.2 (B ".gpg") = TrimSuffix name (B ".gpg") → x = (comps, name)) :
    ∃ st, ScanPasswordStore targetPath (.listing es sub) = .ok st ∧
      st.AllPaths (TrimSuffix name (B ".gpg")) =
        some (findFilePath targetPath (TrimSuffix name (B ".gpg")) (.listing es sub)) := by
  obtain ⟨st, hst, hpath⟩ := AllPaths_unique_entry targetPath es sub comps name hfile huniq
  refine ⟨st, hst, ?_⟩
  rw [hpath, findFilePath_eq]
  obtain ⟨es2, sub2, -, e, -, -, hs, rfl⟩ := (mem_gpgFiles _ _ _).1 hfile
  have hname : TrimSuffix e.Name (B ".gpg") ++ B ".gpg" = e.Name := TrimSuffix_append _ _ hs
  rw [hname]
  cases hf : (gpgFiles (.listing es sub)).find? (fun x => decide (x.2 = e.Name)) with
  | none =>
    have := List.find?_eq_none.1 hf _ hfile
    simp at this
  | some x =>
    have hx : x.2 = e.Name := by simpa using List.find?_some hf
    have hxe : x = (comps, e.Name) := huniq x (List.mem_of_find?_eq_some hf) (by rw [hx])
    subst hxe
    simp [foundPath, joinAll, List.foldl_append]

/-- C26 at `nestedfile` of the test tree. -/
theorem C26_findFilePath_agrees_with_AllPaths_witness :
    ∃ st, ScanPasswordStore (B "/store") (.listing testEntries testSub) = .ok st ∧
      st.AllPaths (TrimSuffix (B "nestedfile.gpg") (B ".gpg")) =
        some (findFilePath (B "/store") (TrimSuffix (B "nestedfile.gpg") (B ".gpg"))
          (.listing testEntries testSub)) :=
  C26_findFilePath_agrees_with_AllPaths (B "/store") testEntries testSub
    [B "dir2", B "subdir2", B "nested"] (B "nestedfile.gpg") (by decide) (by decide)

theorem applyWrites_same_keys (ws : List IndexWrite) (st : PasswordStore)
    (h : ∀ k, (st.DirContents k).isSome = (st.NestedDirs k).isSome) :
    ∀ k, ((ws.foldl applyWrite st).DirContents k).isSome =
      ((ws.foldl applyWrite st).NestedDirs k).isSome := by
  induction ws generalizing st with
  | nil => exact h
  | cons w ws ih =>
    rw [List.foldl_cons]
    apply ih
    intro k
    cases w with
    | dir key files nested =>
      simp only [applyWrite, GoMap.set]
      split
      · rfl
      · exact h k
    | path name full => exact h k

/-- The values that the two maps hold under one key were assigned together. -/
theorem applyWrites_dir_pair (ws : List IndexWrite) (st : PasswordStore) (k : GoString)
    (fs ns : List GoString)
    (h1 : (ws.foldl applyWrite st).DirContents k = some fs)
    (h2 : (ws.foldl applyWrite st).NestedDirs k = some ns) :
    (st.DirContents k = some fs ∧ st.NestedDirs k = some ns) ∨ IndexWrite.dir k fs ns ∈ ws := by
  induction ws generalizing st with
  | nil => exact Or.inl ⟨h1, h2⟩
  | cons w ws ih =>
    rw [List.foldl_cons] at h1 h2
    rcases ih _ h1 h2 with ⟨h3, h4⟩ | h
    · cases w with
      | dir key files nested =>
        simp only [applyWrite, GoMap.set] at h3 h4
        by_cases hk : k = key
        · simp only [hk, if_true, Option.some.injEq] at h3 h4
          subst hk h3 h4
          exact Or.inr (List.mem_cons_self _ _)
        · simp only [hk, if_false] at h3 h4
          exact Or.inl ⟨h3, h4⟩
      | path name full => exact Or.inl ⟨h3, h4⟩
    · exact Or.inr (List.mem_cons_of_mem _ h)

/-- C30. The index that `ScanPasswordStore` returns for a tree whose root can be read is
closed and pruned: `DirContents` and `NestedDirs` have the same keys; every member of
`Directories` is a key; for a key `p` and a name `s` of `NestedDirs[p]`,
`filepath.Join(p, s)` is a key; and under no key are both lists empty. -/
theorem C30_index_is_closed_and_pruned (targetPath : GoString) (es : List DirEntry)
    (sub : GoString → FS) :
    ∃ st, ScanPasswordStore targetPath (.listing es sub) = .ok st ∧
      (∀ p, (st.DirContents p).isSome = (st.NestedDirs p).isSome) ∧
      (∀ d ∈ st.Directories, (st.DirContents d).isSome = true) ∧
      (∀ p nested, st.NestedDirs p = some nested → ∀ s ∈ nested,
        (st.DirContents (filepathJoin [p, s])).isSome = true) ∧
      (∀ p files nested, st.DirContents p = some files → st.NestedDirs p = some nested →
        files ≠ [] ∨ nested ≠ []) := by
  obtain ⟨st, hst, -, -, hdirs, hdc, hnd, -⟩ := ScanPasswordStore_fields targetPath es sub
  refine ⟨st, hst, ?_, ?_, ?_, ?_⟩
  · intro p
    rw [hdc, hnd]
    exact applyWrites_same_keys _ _ (by intro k; rfl) p
  · intro d hd
    rw [hdirs] at hd
    rw [hdc]
    have hg := ((mem_keptDirs es sub d).1 hd).2
    cases hsub : sub d with
    | unreadable err => rw [hsub] at hg; simp [hasGpg] at hg
    | listing es2 sub2 =>
      have hk : keptAt (.listing es sub) [d] = some (.listing es2 sub2) :=
        (keptAt_cons es sub d [] _).2 ⟨hd, by simp [keptAt, hsub]⟩
      have hmem : IndexWrite.dir d (gpgNames es2) (keptDirs es2 sub2) ∈
          rootWrites targetPath es sub :=
        (mem_rootWrites_dir _ _ _ _ _ _).2 ⟨d, [], es2, sub2, hk, rfl, rfl, rfl⟩
      exact (applyWrites_dir_isSome _ (newStore targetPath) _ _ _ hmem).1
  · intro p nested hp s hs
    rw [hnd] at hp
    rw [hdc]
    rcases applyWrites_NestedDirs_some _ _ _ _ hp with h | ⟨fs, h⟩
    · simp [newStore, GoMap.empty] at h
    · obtain ⟨n, comps, es2, sub2, hk, rfl, -, rfl⟩ := (mem_rootWrites_dir _ _ _ _ _ _).1 h
      have hg := ((mem_keptDirs es2 sub2 s).1 hs).2
      cases hsub : sub2 s with
      | unreadable err => rw [hsub] at hg; simp [hasGpg] at hg
      | listing es3 sub3 =>
        have hk3 : keptAt (.listing es sub) (n :: (comps ++ [s])) =
            some (.listing es3 sub3) := by
          rw [← List.cons_append, keptAt_append, hk]
          simp [keptAt, hs, hsub]
        have hmem : IndexWrite.dir (joinAll n (comps ++ [s])) (gpgNames es3)
            (keptDirs es3 sub3) ∈ rootWrites targetPath es sub :=
          (mem_rootWrites_dir _ _ _ _ _ _).2 ⟨n, comps ++ [s], es3, sub3, hk3, rfl, rfl, rfl⟩
        have := (applyWrites_dir_isSome _ (newStore targetPath) _ _ _ hmem).1
        simpa [joinAll, List.foldl_append] using this
  · intro p files nested h1 h2
    rw [hdc] at h1
    rw [hnd] at h2
    rcases applyWrites_dir_pair _ _ _ _ _ h1 h2 with ⟨h, -⟩ | h
    · simp [newStore, GoMap.empty] at h
    · obtain ⟨n, comps, es2, sub2, hk, -, rfl, rfl⟩ := (mem_rootWrites_dir _ _ _ _ _ _).1 h
      exact (hasGpg_listing es2 sub2).1 ((keptAt_iff _ _ _ (by simp)).1 hk).2

/-! ## The two copies of the workflow -/

theorem listRecipientLoop_eq (ls : List GoString) :
    listRecipientLoop ls = recipientOfLines ls := by
  induction ls with
  | nil => rfl
  | cons l ls ih =>
    simp only [listRecipientLoop, recipientOfLines, recipientOfLine, ih]
    by_cases hc : Contains l (B "keyid") = true
    · simp only [hc, if_true]
      rcases hs : Split l (B "keyid") with _ | ⟨a, _ | ⟨b, t⟩⟩
      · rfl
      · rfl
      · by_cases hlen : (TrimSpace b).length > 16
        · simp only [hlen, if_true]
        · simp only [hlen, if_false]
    · simp [hc]

theorem listDecryptAndEdit_passphrase (env : DecryptEnv) (filePath passphrase : GoString)
    (tr : List Event) (hp : passphrase ≠ []) :
    listDecryptAndEdit env filePath passphrase tr =
      decryptAndEdit env filePath passphrase tr := by
  rw [listDecryptAndEdit, decryptAndEdit]
  simp only [decryptArgs, hp, ne_eq, not_false_eq_true, if_true, if_false, dite_false,
    filterOutput, isHeaderLine]

theorem listDecryptAndEdit_eq (env : DecryptEnv) (filePath passphrase : GoString)
    (tr : List Event) :
    listDecryptAndEdit env filePath passphrase tr =
      decryptAndEdit env filePath passphrase tr := by
  by_cases hp : passphrase = []
  · subst hp
    rw [listDecryptAndEdit, decryptAndEdit]
    simp only [decryptArgs, ne_eq, not_true_eq_false, if_true, if_false, dite_true,
      filterOutput, isHeaderLine]
    cases hres : (env.run (execs tr).length [B "gpg", B "--batch", B "--decrypt", filePath]).err with
    | none => rfl
    | some err =>
      simp only []
      cases hreply : env.passphraseReply
          (passphraseDialogs (tr ++ [.exec [B "gpg", B "--batch", B "--decrypt", filePath]])) with
      | cancel => rfl
      | confirm p =>
        simp only []
        by_cases h : p = []
        · simp only [h, dite_true]
        · simp only [h, dite_false]
          exact listDecryptAndEdit_passphrase env filePath _ _ h
  · exact listDecryptAndEdit_passphrase env filePath passphrase tr hp

/-- C24. The workflow written out inside the file-list selection handler and the one of
`decryptAndEditFile` are the same: for every target path, every environment of
subprocess results and user replies, they produce the same sequence of subprocess
invocations and dialogs (with the same filtered text), and their save handlers detect the
same recipient and leave the scratch file, the target file and the trace in the same
state. -/
theorem C24_inlined_workflow_is_the_same (env : DecryptEnv) (senv : SaveEnv)
    (filePath editedContent defaultRecipient : GoString) (s : SaveState) :
    listDecryptAndEdit env filePath [] [] = decryptAndEditFile env filePath ∧
    (∀ out, listRecipientLoop (Split out (B "\n")) = detectRecipient out) ∧
    listSaveHandler senv filePath editedContent defaultRecipient s =
      saveHandler senv filePath editedContent defaultRecipient s := by
  refine ⟨listDecryptAndEdit_eq env filePath [] [], fun out => listRecipientLoop_eq _, ?_⟩
  obtain ⟨tf, we, ⟨lo, le⟩, rr, ⟨eo, ee⟩, tgt⟩ := senv
  cases tf <;> cases we <;> cases le <;> cases rr <;> cases ee <;>
    simp only [listSaveHandler, saveHandler, listRecipientLoop_eq, detectRecipient,
      encryptAndReport, encryptArgs]

/-! ## The settings file -/

theorem validUTF8From_coerce (s : GoString) :
    ∀ skip : Nat, validUTF8From s skip = true → coerceUTF8From s skip = s := by
  induction s with
  | nil => intro skip _; cases skip <;> rfl
  | cons c cs ih =>
    intro skip h
    cases skip with
    | succ n =>
      simp only [validUTF8From] at h
      simp only [coerceUTF8From, ih n h]
    | zero =>
      simp only [validUTF8From, Bool.and_eq_true, decide_eq_true_eq] at h
      simp only [coerceUTF8From, h.1, if_false, ih _ h.2]

/-- Writing a valid UTF-8 string as a JSON string and reading it back gives the string. -/
theorem coerceUTF8_valid (s : GoString) (h : ValidUTF8 s = true) : coerceUTF8 s = s :=
  validUTF8From_coerce s 0 h

theorem lookup_of_not_mem_keys (u : List (GoString × Value)) (key : GoString)
    (h : key ∉ u.map Prod.fst) : u.lookup key = none := by
  induction u with
  | nil => rfl
  | cons kv u ih =>
    obtain ⟨k, v⟩ := kv
    simp only [List.map_cons, List.mem_cons, not_or] at h
    have hk : (key == k) = false := by simpa using h.1
    simp only [List.lookup, hk]
    exact ih h.2

/-- The value of one field after the loop of `UpdateSettings`, for a field that only the
key `key` assigns, with the type assertion `cast`. -/
theorem applyUpdates_field {α : Type} (get : Settings → α) (key : GoString)
    (cast : Value → Option α)
    (hstep : ∀ s k v, get (applyUpdate s k v) =
      if k = key then (cast v).getD (get s) else get s)
    (u : List (GoString × Value)) (hkeys : (u.map Prod.fst).Nodup) (s : Settings) :
    get (applyUpdates s u) = (updateFor cast u key).getD (get s) := by
  unfold applyUpdates updateFor
  induction u generalizing s with
  | nil => rfl
  | cons kv u ih =>
    obtain ⟨k, v⟩ := kv
    simp only [List.map_cons, List.nodup_cons] at hkeys
    rw [List.foldl_cons, ih hkeys.2, hstep]
    by_cases hk : k = key
    · subst hk
      have hb : (k == k) = true := by simp
      simp only [lookup_of_not_mem_keys u k hkeys.1, List.lookup, hb, Option.bind, if_true,
        Option.getD]
    · have hb : (key == k) = false := by simpa using fun e : key = k => hk e.symm
      simp only [List.lookup, hb, hk, if_false]

theorem applyUpdate_PasswordStorePath (s : Settings) (k : GoString) (v : Value) :
    (applyUpdate s k v).PasswordStorePath =
      if k = B "password_store_path" then
        (v.asString).getD s.PasswordStorePath
      else s.PasswordStorePath := by
  by_cases hk : k = B "password_store_path"
  · subst hk
    rw [if_pos rfl]
    unfold applyUpdate
    split_ifs <;>
      first
      | (cases v.asString <;> rfl)
      | contradiction
  · rw [if_neg hk]
    unfold applyUpdate
    split_ifs <;>
      first
      | rfl
      | (cases v.asString <;> rfl)
      | (cases v.asBool <;> rfl)
      | (cases v.asInt <;> rfl)
      | (cases v.asFloat64 <;> rfl)

theorem applyUpdate_DefaultRecipient (s : Settings) (k : GoString) (v : Value) :
    (applyUpdate s k v).DefaultRecipient =
      if k = B "default_recipient" then
        (v.asString).getD s.DefaultRecipient
      else s.DefaultRecipient := by
  by_cases hk : k = B "default_recipient"
  · subst hk
    rw [if_pos rfl]
    unfold applyUpdate
    split_ifs <;>
      first
      | (cases v.asString <;> rfl)
      | contradiction
  · rw [if_neg hk]
    unfold applyUpdate
    split_ifs <;>
      first
      | rfl
      | (cases v.asString <;> rfl)
      | (cases v.asBool <;> rfl)
      | (cases v.asInt <;> rfl)
      | (cases v.asFloat64 <;> rfl)

theorem applyUpdate_AutoCommit (s : Settings) (k : GoString) (v : Value) :
    (applyUpdate s k v).AutoCommit =
      if k = B "auto_commit" then
        (v.asBool).getD s.AutoCommit
      else s.AutoCommit := by
  by_cases hk : k = B "auto_commit"
  · subst hk
    rw [if_pos rfl]
    unfold applyUpdate
    split_ifs <;>
      first
      | (cases v.asBool <;> rfl)
      | contradiction
  · rw [if_neg hk]
    unfold applyUpdate
    split_ifs <;>
      first
      | rfl
      | (cases v.asString <;> rfl)
      | (cases v.asBool <;> rfl)
      | (cases v.asInt <;> rfl)
      | (cases v.asFloat64 <;> rfl)

theorem applyUpdate_ShowNotifications (s : Settings) (k : GoString) (v : Value) :
    (applyUpdate s k v).ShowNotifications =
      if k = B "show_notifications" then
        (v.asBool).getD s.ShowNotifications
      else s.ShowNotifications := by
  by_cases hk : k = B "show_notifications"
  · subst hk
    rw [if_pos rfl]
    unfold applyUpdate
    split_ifs <;>
      first
      | (cases v.asBool <;> rfl)
      | contradiction
  · rw [if_neg hk]
    unfold applyUpdate
    split_ifs <;>
      first
      | rfl
      | (cases v.asString <;> rfl)
      | (cases v.asBool <;> rfl)
      | (cases v.asInt <;> rfl)
      | (cases v.asFloat64 <;> rfl)

theorem applyUpdate_Theme (s : Settings) (k : GoString) (v : Value) :
    (applyUpdate s k v).Theme =
      if k = B "theme" then
        (v.asString).getD s.Theme
      else s.Theme := by
  by_cases hk : k = B "theme"
  · subst hk
    rw [if_pos rfl]
    unfold applyUpdate
    split_ifs <;>
      first
      | (cases v.asString <;> rfl)
      | contradiction
  · rw [if_neg hk]
    unfold applyUpdate
    split_ifs <;>
      first
      | rfl
      | (cases v.asString <;> rfl)
      | (cases v.asBool <;> rfl)
      | (cases v.asInt <;> rfl)
      | (cases v.asFloat64 <;> rfl)

theorem applyUpdate_WindowWidth (s : Settings) (k : GoString) (v : Value) :
    (applyUpdate s k v).WindowWidth =
      if k = B "window_width" then
        (v.asInt).getD s.WindowWidth
      else s.WindowWidth := by
  by_cases hk : k = B "window_width"
  · subst hk
    rw [if_pos rfl]
    unfold applyUpdate
    split_ifs <;>
      first
      | (cases v.asInt <;> rfl)
      | contradiction
  · rw [if_neg hk]
    unfold applyUpdate
    split_ifs <;>
      first
      | rfl
      | (cases v.asString <;> rfl)
      | (cases v.asBool <;> rfl)
      | (cases v.asInt <;> rfl)
      | (cases v.asFloat64 <;> rfl)

theorem applyUpdate_WindowHeight (s : Settings) (k : GoString) (v : Value) :
    (applyUpdate s k v).WindowHeight =
      if k = B "window_height" then
        (v.asInt).getD s.WindowHeight
      else s.WindowHeight := by
  by_cases hk : k = B "window_height"
  · subst hk
    rw [if_pos rfl]
    unfold applyUpdate
    split_ifs <;>
      first
      | (cases v.asInt <;> rfl)
      | contradiction
  · rw [if_neg hk]
    unfold applyUpdate
    split_ifs <;>
      first
      | rfl
      | (cases v.asString <;> rfl)
      | (cases v.asBool <;> rfl)
      | (cases v.asInt <;> rfl)
      | (cases v.asFloat64 <;> rfl)

theorem applyUpdate_SplitOffset (s : Settings) (k : GoString) (v : Value) :
    (applyUpdate s k v).SplitOffset =
      if k = B "split_offset" then
        (v.asFloat64).getD s.SplitOffset
      else s.SplitOffset := by
  by_cases hk : k = B "split_offset"
  · subst hk
    rw [if_pos rfl]
    unfold applyUpdate
    split_ifs <;>
      first
      | (cases v.asFloat64 <;> rfl)
      | contradiction
  · rw [if_neg hk]
    unfold applyUpdate
    split_ifs <;>
      first
      | rfl
      | (cases v.asString <;> rfl)
      | (cases v.asBool <;> rfl)
      | (cases v.asInt <;> rfl)


/-! ## What an update saves, and what a load returns after a save -/

/-- What `UpdateSettings` hands to `SaveSettings`: the loaded settings after the loop. -/
theorem UpdateSettings_saves (env : ConfigEnv) (files files2 : ConfigFiles) (s : Settings)
    (u : List (GoString × Value)) (hload : LoadSettings env files = (.ok s, files2)) :
    UpdateSettings env files u = SaveSettings env files2 (applyUpdates s u) := by
  simp only [UpdateSettings, hload]

/-- What `LoadSettings` reads after `SaveSettings` has succeeded: the saved settings with
their strings as `encoding/json` has written them. -/
theorem LoadSettings_after_SaveSettings (env : ConfigEnv) (files files2 : ConfigFiles)
    (s : Settings) (hread : env.readErr = none)
    (hsave : SaveSettings env files s = (none, files2)) :
    LoadSettings env files2 =
      (.ok { s with
          PasswordStorePath := coerceUTF8 s.PasswordStorePath
          DefaultRecipient := coerceUTF8 s.DefaultRecipient
          Theme := coerceUTF8 s.Theme }, files2) := by
  unfold SaveSettings at hsave
  unfold LoadSettings
  cases hp : getConfigPath env with
  | error err => simp [hp] at hsave
  | ok configPath =>
    simp only [hp] at hsave ⊢
    cases hm : env.mkdirErr with
    | some err => simp [hm] at hsave
    | none =>
      simp only [hm] at hsave
      cases hj : jsonMarshalIndent s with
      | error err => simp [hj] at hsave
      | ok data =>
        simp only [hj] at hsave
        cases hw : env.writeErr with
        | some err => simp [hw] at hsave
        | none =>
          simp only [hw, Prod.mk.injEq, true_and] at hsave
          subst hsave
          have hdata : data = .ok { s with
              PasswordStorePath := coerceUTF8 s.PasswordStorePath
              DefaultRecipient := coerceUTF8 s.DefaultRecipient
              Theme := coerceUTF8 s.Theme } := by
            unfold jsonMarshalIndent at hj
            split at hj
            · simp only [Except.ok.injEq] at hj
              exact hj.symm
            · exact absurd hj (by simp)
          simp [GoMap.set, hread, jsonUnmarshal, hdata]

/-- C22 as stated fails for a string that is not valid UTF-8: the update that gives the
theme the byte `FF` succeeds, and the theme that is then stored, and that `LoadSettings`
returns, is the three bytes of U+FFFD, not the value from the update map. -/
theorem C22_invalid_utf8_update_is_not_stored :
    (UpdateSettings sampleConfigEnv sampleConfigFiles invalidThemeUpdate).1 = none ∧
    ((LoadSettings sampleConfigEnv
        (UpdateSettings sampleConfigEnv sampleConfigFiles invalidThemeUpdate).2).1.toOption.map
      (fun s => s.Theme)) = some [0xEF, 0xBF, 0xBD] ∧
    updateFor Value.asString invalidThemeUpdate (B "theme") = some [0xFF] ∧
    ([0xFF] : GoString) ≠ [0xEF, 0xBF, 0xBD] := by
  refine ⟨rfl, rfl, by decide, by decide⟩

/-- C22, amended. When `LoadSettings` returns the stored settings `s`, whose strings are
valid UTF-8 as every string read from a JSON file is, and `UpdateSettings(u)` succeeds,
the settings that are stored afterwards, as `LoadSettings` reads them back, hold in every
field the value that `u` gives under the field's JSON key if that value has the field's
Go type, and the value of `s` otherwise; a string from `u` is stored with every byte that
is not part of valid UTF-8 replaced by U+FFFD, so a valid UTF-8 string is stored as it
is. A key that names no field, or a value of another type, changes nothing. -/
theorem C22_update_stores_named_fields (env : ConfigEnv) (files files2 files3 : ConfigFiles)
    (s : Settings) (u : List (GoString × Value)) (hkeys : (u.map Prod.fst).Nodup)
    (hpath : ValidUTF8 s.PasswordStorePath = true)
    (hrecipient : ValidUTF8 s.DefaultRecipient = true)
    (htheme : ValidUTF8 s.Theme = true)
    (hread : env.readErr = none)
    (hload : LoadSettings env files = (.ok s, files2))
    (hupdate : UpdateSettings env files u = (none, files3)) :
    ∃ stored, LoadSettings env files3 = (.ok stored, files3) ∧
      stored.PasswordStorePath =
        ((updateFor Value.asString u (B "password_store_path")).map coerceUTF8).getD
          s.PasswordStorePath ∧
      stored.DefaultRecipient =
        ((updateFor Value.asString u (B "default_recipient")).map coerceUTF8).getD
          s.DefaultRecipient ∧
      stored.AutoCommit = (updateFor Value.asBool u (B "auto_commit")).getD s.AutoCommit ∧
      stored.ShowNotifications =
        (updateFor Value.asBool u (B "show_notifications")).getD s.ShowNotifications ∧
      stored.Theme = ((updateFor Value.asString u (B "theme")).map coerceUTF8).getD s.Theme ∧
      stored.WindowWidth = (updateFor Value.asInt u (B "window_width")).getD s.WindowWidth ∧
      stored.WindowHeight =
        (updateFor Value.asInt u (B "window_height")).getD s.WindowHeight ∧
      stored.SplitOffset =
        (updateFor Value.asFloat64 u (B "split_offset")).getD s.SplitOffset ∧
      ∀ v : GoString, ValidUTF8 v = true → coerceUTF8 v = v := by
  rw [UpdateSettings_saves env files files2 s u hload] at hupdate
  refine ⟨_, LoadSettings_after_SaveSettings env files2 files3 _ hread hupdate,
    ?_, ?_, ?_, ?_, ?_, ?_, ?_, ?_, coerceUTF8_valid⟩
  · show coerceUTF8 (applyUpdates s u).PasswordStorePath = _
    rw [applyUpdates_field Settings.PasswordStorePath _ Value.asString
      applyUpdate_PasswordStorePath u hkeys s]
    cases updateFor Value.asString u (B "password_store_path") with
    | none => exact coerceUTF8_valid _ hpath
    | some v => rfl
  · show coerceUTF8 (applyUpdates s u).DefaultRecipient = _
    rw [applyUpdates_field Settings.DefaultRecipient _ Value.asString
      applyUpdate_DefaultRecipient u hkeys s]
    cases updateFor Value.asString u (B "default_recipient") with
    | none => exact coerceUTF8_valid _ hrecipient
    | some v => rfl
  · exact applyUpdates_field Settings.AutoCommit _ Value.asBool applyUpdate_AutoCommit u hkeys s
  · exact applyUpdates_field Settings.ShowNotifications _ Value.asBool
      applyUpdate_ShowNotifications u hkeys s
  · show coerceUTF8 (applyUpdates s u).Theme = _
    rw [applyUpdates_field Settings.Theme _ Value.asString applyUpdate_Theme u hkeys s]
    cases updateFor Value.asString u (B "theme") with
    | none => exact coerceUTF8_valid _ htheme
    | some v => rfl
  · exact applyUpdates_field Settings.WindowWidth _ Value.asInt applyUpdate_WindowWidth u hkeys s
  · exact applyUpdates_field Settings.WindowHeight _ Value.asInt applyUpdate_WindowHeight u
      hkeys s
  · exact applyUpdates_field Settings.SplitOffset _ Value.asFloat64 applyUpdate_SplitOffset u
      hkeys s

/-- C22, amended, at the default settings and an update map with a value of the wrong
type, a key that names no field, and a new theme: only the theme changes. -/
theorem C22_update_stores_named_fields_witness :
    ∃ stored, LoadSettings sampleConfigEnv
        (UpdateSettings sampleConfigEnv sampleConfigFiles sampleUpdates).2 =
        (.ok stored, (UpdateSettings sampleConfigEnv sampleConfigFiles sampleUpdates).2) ∧
      stored.PasswordStorePath =
        ((updateFor Value.asString sampleUpdates (B "password_store_path")).map
          coerceUTF8).getD DefaultSettings.PasswordStorePath ∧
      stored.DefaultRecipient =
        ((updateFor Value.asString sampleUpdates (B "default_recipient")).map
          coerceUTF8).getD DefaultSettings.DefaultRecipient ∧
      stored.AutoCommit =
        (updateFor Value.asBool sampleUpdates (B "auto_commit")).getD
          DefaultSettings.AutoCommit ∧
      stored.ShowNotifications =
        (updateFor Value.asBool sampleUpdates (B "show_notifications")).getD
          DefaultSettings.ShowNotifications ∧
      stored.Theme =
        ((updateFor Value.asString sampleUpdates (B "theme")).map coerceUTF8).getD
          DefaultSettings.Theme ∧
      stored.WindowWidth =
        (updateFor Value.asInt sampleUpdates (B "window_width")).getD
          DefaultSettings.WindowWidth ∧
      stored.WindowHeight =
        (updateFor Value.asInt sampleUpdates (B "window_height")).getD
          DefaultSettings.WindowHeight ∧
      stored.SplitOffset =
        (updateFor Value.asFloat64 sampleUpdates (B "split_offset")).getD
          DefaultSettings.SplitOffset ∧
      ∀ v : GoString, ValidUTF8 v = true → coerceUTF8 v = v :=
  C22_update_stores_named_fields sampleConfigEnv sampleConfigFiles sampleConfigFiles _
    DefaultSettings sampleUpdates (by decide) (by decide) (by decide) (by decide) rfl rfl rfl

/-- What the sample update stores: the defaults with the theme `dark`. -/
theorem sampleUpdates_stored :
    (LoadSettings sampleConfigEnv
        (UpdateSettings sampleConfigEnv sampleConfigFiles sampleUpdates).2).1.toOption =
      some { DefaultSettings with Theme := B "dark" } := by
  rfl

/-- The settings that the sample update saves: the defaults with the theme `dark`. -/
theorem sampleUpdates_saved :
    applyUpdates DefaultSettings sampleUpdates = { DefaultSettings with Theme := B "dark" } := by
  decide

/-- The configuration path below the home directory. -/
theorem getConfigPath_sample :
    getConfigPath sampleConfigEnv = .ok (B "/home/user/.config/gpg_viewer/settings.json") := by
  rfl

/-- C23, as stated, fails: the settings whose store path is the byte `FF` are saved with
success, and `LoadSettings` then returns settings whose store path is the three bytes of
U+FFFD. -/
theorem C23_invalid_utf8_does_not_round_trip :
    (SaveSettings sampleConfigEnv GoMap.empty invalidPathSettings).1 = none ∧
    ((LoadSettings sampleConfigEnv
        (SaveSettings sampleConfigEnv GoMap.empty invalidPathSettings).2).1.toOption.map
      (fun s => s.PasswordStorePath)) = some [0xEF, 0xBF, 0xBD] ∧
    invalidPathSettings.PasswordStorePath ≠ [0xEF, 0xBF, 0xBD] := by
  refine ⟨rfl, rfl, by decide⟩

/-- C23, amended. After `SaveSettings(s)` has succeeded for settings whose three strings
are valid UTF-8, `LoadSettings` in the same surroundings, when it can read the file,
returns `s` and leaves the files as they are. -/
theorem C23_load_after_save_returns_settings (env : ConfigEnv) (files files2 : ConfigFiles)
    (s : Settings)
    (hpath : ValidUTF8 s.PasswordStorePath = true)
    (hrecipient : ValidUTF8 s.DefaultRecipient = true)
    (htheme : ValidUTF8 s.Theme = true)
    (hread : env.readErr = none)
    (hsave : SaveSettings env files s = (none, files2)) :
    LoadSettings env files2 = (.ok s, files2) := by
  unfold SaveSettings at hsave
  unfold LoadSettings
  cases hp : getConfigPath env with
  | error err => simp [hp] at hsave
  | ok configPath =>
    simp only [hp] at hsave ⊢
    cases hm : env.mkdirErr with
    | some err => simp [hm] at hsave
    | none =>
      simp only [hm] at hsave
      cases hj : jsonMarshalIndent s with
      | error err => simp [hj] at hsave
      | ok data =>
        simp only [hj] at hsave
        cases hw : env.writeErr with
        | some err => simp [hw] at hsave
        | none =>
          simp only [hw, Prod.mk.injEq, true_and] at hsave
          subst hsave
          have hdata : data = .ok s := by
            unfold jsonMarshalIndent at hj
            split at hj
            · simp only [Except.ok.injEq] at hj
              rw [← hj, coerceUTF8_valid _ hpath, coerceUTF8_valid _ hrecipient,
                coerceUTF8_valid _ htheme]
            · exact absurd hj (by simp)
          simp [GoMap.set, hread, jsonUnmarshal, hdata]

/-- C23 at the default settings in an empty home directory. -/
theorem C23_load_after_save_returns_settings_witness :
    LoadSettings sampleConfigEnv (SaveSettings sampleConfigEnv GoMap.empty DefaultSettings).2 =
      (.ok DefaultSettings, (SaveSettings sampleConfigEnv GoMap.empty DefaultSettings).2) :=
  C23_load_after_save_returns_settings sampleConfigEnv GoMap.empty _ DefaultSettings
    (by decide) (by decide) (by decide) rfl rfl

/-! ## The tree widget -/

theorem findParentDir_spec (store : PasswordStore) (id : GoString) (order : List GoString) :
    findParentDir store id order = [] ∨
      ∃ subdirs, store.NestedDirs (findParentDir store id order) = some subdirs ∧
        id ∈ subdirs := by
  induction order with
  | nil => exact Or.inl rfl
  | cons parent rest ih =>
    simp only [findParentDir]
    cases hn : store.NestedDirs parent with
    | none => exact ih
    | some subdirs =>
      simp only []
      by_cases hid : id ∈ subdirs
      · by_cases hp : parent = []
        · simpa [hid, hp] using ih
        · simp only [hid, if_true, ne_eq, hp, not_false_eq_true]
          exact Or.inr ⟨subdirs, hn, hid⟩
      · simpa [hid] using ih

theorem mem_fallbackChildren (store : PasswordStore) (id c : GoString)
    (order : List GoString) (h : c ∈ fallbackChildren store id order) :
    ∃ fullPath, (store.DirContents fullPath).isSome = true ∧
      HasPrefix fullPath (id ++ B "/") = true := by
  induction order with
  | nil => simp [fallbackChildren] at h
  | cons fullPath rest ih =>
    simp only [fallbackChildren] at h
    split at h
    · rename_i hc
      simp only [Bool.and_eq_true] at hc
      exact ⟨fullPath, hc.1, hc.2⟩
    · exact ih h

/-- The children of a node that is neither one of the three fixed nodes, nor a key of
`DirContents`, nor a root file: entries of the directory `parent/id` for a `parent` that
lists `id` in `NestedDirs`, or names taken from a key that starts with `id/`. -/
theorem childUIDs_other (store : PasswordStore) (nestedOrder dirOrder : List GoString)
    (id c : GoString) (h0 : id ≠ []) (h1 : id ≠ B "Root") (h2 : id ≠ B "Directories")
    (h3 : store.DirContents id = none) (h4 : id ∉ store.RootFiles)
    (hc : c ∈ childUIDs store nestedOrder dirOrder id) :
    (∃ parent subdirs files, store.NestedDirs parent = some subdirs ∧ id ∈ subdirs ∧
        store.DirContents (parent ++ B "/" ++ id) = some files ∧ c ∈ files) ∨
      ∃ fullPath, (store.DirContents fullPath).isSome = true ∧
        HasPrefix fullPath (id ++ B "/") = true := by
  simp only [childUIDs, h0, h1, h2, h3, h4, if_false] at hc
  rcases findParentDir_spec store id nestedOrder with hp | ⟨subdirs, hn, hid⟩
  · simp only [hp, ne_eq, not_true_eq_false, if_false] at hc
    exact Or.inr (mem_fallbackChildren store id c dirOrder hc)
  · by_cases hp : findParentDir store id nestedOrder = []
    · simp only [hp, ne_eq, not_true_eq_false, if_false] at hc
      exact Or.inr (mem_fallbackChildren store id c dirOrder hc)
    · simp only [ne_eq, hp, not_false_eq_true, if_true] at hc
      cases hd : store.DirContents (findParentDir store id nestedOrder ++ B "/" ++ id) with
      | none =>
        simp only [hd] at hc
        exact Or.inr (mem_fallbackChildren store id c dirOrder hc)
      | some files =>
        simp only [hd] at hc
        exact Or.inl ⟨_, subdirs, files, hn, hid, hd, hc⟩

theorem testStore_scanned :
    ScanPasswordStore (B "/store") (.listing testEntries testSub) = .ok testStore :=
  ScanPasswordStore_listing _ _ _

theorem testStore_fixed_nodes (nestedOrder dirOrder : List GoString) :
    childUIDs testStore nestedOrder dirOrder [] = [B "Root", B "Directories"] ∧
    childUIDs testStore nestedOrder dirOrder (B "Root") = [B "root1", B "root2"] ∧
    childUIDs testStore nestedOrder dirOrder (B "Directories") = [B "dir1", B "dir2"] ∧
    childUIDs testStore nestedOrder dirOrder (B "root1") = [] ∧
    childUIDs testStore nestedOrder dirOrder (B "root2") = [] ∧
    childUIDs testStore nestedOrder dirOrder (B "dir1") =
      [B "file1", B "file2", B "subdir1"] ∧
    childUIDs testStore nestedOrder dirOrder (B "dir2") = [B "file3", B "subdir2"] :=
  ⟨rfl, rfl, rfl, rfl, rfl, rfl, rfl⟩

theorem testStore_inner_nodes :
    innerNodes.all (fun id =>
      decide (id ≠ []) && decide (id ≠ B "Root") && decide (id ≠ B "Directories") &&
        decide (testStore.DirContents id = none) && decide (id ∉ testStore.RootFiles)) = true := by
  decide

theorem testStore_parents :
    (rootWrites (B "/store") testEntries testSub).all (fun w =>
      match w with
      | .dir parent _ subdirs =>
        innerNodes.all (fun id =>
          !decide (id ∈ subdirs) ||
            ((testStore.DirContents (parent ++ B "/" ++ id)).getD []).all
              (fun c => decide (c ∈ reachedNodes)))
      | .path _ _ => true) = true := by
  decide

theorem testStore_keys :
    (rootWrites (B "/store") testEntries testSub).all (fun w =>
      match w with
      | .dir key _ _ => innerNodes.all (fun id => !HasPrefix key (id ++ B "/"))
      | .path _ _ => true) = true := by
  decide

/-- The set of reached nodes of the test tree is closed under the child function. -/
theorem reachedNodes_closed (nestedOrder dirOrder : List GoString) (id c : GoString)
    (hid : id ∈ reachedNodes) (hc : c ∈ childUIDs testStore nestedOrder dirOrder id) :
    c ∈ reachedNodes := by
  obtain ⟨f1, f2, f3, f4, f5, f6, f7⟩ := testStore_fixed_nodes nestedOrder dirOrder
  have hsplit : id ∈ [[], B "Root", B "Directories", B "root1", B "root2", B "dir1",
      B "dir2"] ∨ id ∈ innerNodes := by
    simp only [reachedNodes, innerNodes, List.mem_cons, List.mem_singleton, List.mem_nil_iff,
      or_false] at hid ⊢
    tauto
  rcases hsplit with h | h
  · simp only [List.mem_cons, List.mem_singleton, List.mem_nil_iff, or_false] at h
    rcases h with rfl | rfl | rfl | rfl | rfl | rfl | rfl
    · rw [f1] at hc; revert c; decide
    · rw [f2] at hc; revert c; decide
    · rw [f3] at hc; revert c; decide
    · rw [f4] at hc; simp at hc
    · rw [f5] at hc; simp at hc
    · rw [f6] at hc; revert c; decide
    · rw [f7] at hc; revert c; decide
  · have hfacts := List.all_eq_true.1 testStore_inner_nodes id h
    simp only [Bool.and_eq_true, decide_eq_true_eq] at hfacts
    obtain ⟨⟨⟨⟨h0, h1⟩, h2⟩, h3⟩, h4⟩ := hfacts
    rcases childUIDs_other testStore nestedOrder dirOrder id c h0 h1 h2 h3 h4 hc with
      ⟨parent, subdirs, files, hn, hmem, hd, hcf⟩ | ⟨fullPath, hsome, hpre⟩
    · have hn2 : ((rootWrites (B "/store") testEntries testSub).foldl applyWrite
          (newStore (B "/store"))).NestedDirs parent = some subdirs := hn
      rcases applyWrites_NestedDirs_some _ _ _ _ hn2 with hinit | ⟨fs, hw⟩
      · simp [newStore, GoMap.empty] at hinit
      · have := List.all_eq_true.1 testStore_parents _ hw
        simp only [] at this
        have := List.all_eq_true.1 this id h
        simp only [hmem, decide_True, Bool.not_true, Bool.false_or, hd, Option.getD_some] at this
        simpa using List.all_eq_true.1 this c hcf
    · obtain ⟨v, hv⟩ := Option.isSome_iff_exists.1 hsome
      have hv2 : ((rootWrites (B "/store") testEntries testSub).foldl applyWrite
          (newStore (B "/store"))).DirContents fullPath = some v := hv
      rcases applyWrites_DirContents_some _ _ _ _ hv2 with hinit | ⟨ns, hw⟩
      · simp [newStore, GoMap.empty] at hinit
      · have := List.all_eq_true.1 testStore_keys _ hw
        simp only [] at this
        have := List.all_eq_true.1 this id h
        simp [hpre] at this

theorem reachable_reachedNodes (id : GoString) (h : Reachable testStore id) :
    id ∈ reachedNodes := by
  induction h with
  | root => decide
  | child id c nestedOrder dirOrder _ hc ih => exact reachedNodes_closed _ _ id c ih hc

/-- C27 fails on the test tree, whose names are pairwise distinct and differ from `Root`
and `Directories`: the index lists `nestedfile` under `dir2/subdir2/nested`, but no
sequence of applications of the child function leads from the root node to it, whatever
the order of the `range` loops: the children of `subdir2` are the entries of
`dir2/subdir2` only. -/
theorem C27_nested_entry_not_reachable :
    ∃ st, ScanPasswordStore (B "/store") (.listing testEntries testSub) = .ok st ∧
      (nodeNames (.listing testEntries testSub)).Nodup ∧
      B "Root" ∉ nodeNames (.listing testEntries testSub) ∧
      B "Directories" ∉ nodeNames (.listing testEntries testSub) ∧
      st.DirContents (B "dir2/subdir2/nested") = some [B "nestedfile"] ∧
      st.NestedDirs (B "dir2/subdir2") = some [B "nested"] ∧
      childUIDs st
        [B "dir1", B "dir2", B "dir1/subdir1", B "dir2/subdir2", B "dir2/subdir2/nested"]
        [B "dir1", B "dir2", B "dir1/subdir1", B "dir2/subdir2", B "dir2/subdir2/nested"]
        (B "subdir2") = [B "subfile2"] ∧
      (∀ nestedOrder dirOrder, B "nested" ∉ childUIDs st nestedOrder dirOrder (B "subdir2")) ∧
      ¬ Reachable st (B "nestedfile") := by
  refine ⟨testStore, testStore_scanned, by decide, by decide, by decide, by decide, by decide,
    by decide, ?_, ?_⟩
  · intro nestedOrder dirOrder h
    have := reachedNodes_closed nestedOrder dirOrder (B "subdir2") (B "nested") (by decide) h
    revert this
    decide
  · intro h
    have := reachable_reachedNodes _ h
    revert this
    decide

/-! ## The search results -/

/-- C28 fails for a root path with a trailing separator: the scan of `/store/` stores
`/store/dir1/file1.gpg` for `file1`; the search handler finds no prefix `/store//` in it
and shows `/store/dir1/file1`; selecting that result opens `/store/store/dir1/file1.gpg`. -/
theorem C28_trailing_separator_breaks_selection :
    (ScanPasswordStore (B "/store/") (.listing testEntries testSub)).toOption.map
        (fun st => st.AllPaths (B "file1")) = some (some (B "/store/dir1/file1.gpg")) ∧
    searchResult (B "/store/") (B "/store/dir1/file1.gpg") = B "/store/dir1/file1" ∧
    searchSelection (B "/store/") (searchResult (B "/store/") (B "/store/dir1/file1.gpg")) =
      B "/store/store/dir1/file1.gpg" ∧
    searchSelection (B "/store/") (searchResult (B "/store/") (B "/store/dir1/file1.gpg")) ≠
      B "/store/dir1/file1.gpg" := by
  refine ⟨rfl, by decide, by decide, by decide⟩

theorem intercalate_append (a b : List GoString) (ha : a ≠ []) (hb : b ≠ []) :
    [Separator].intercalate (a ++ b) =
      [Separator].intercalate a ++ Separator :: [Separator].intercalate b := by
  induction a with
  | nil => exact absurd rfl ha
  | cons e es ih =>
    cases es with
    | nil =>
      obtain ⟨y, l, rfl⟩ := List.exists_cons_of_ne_nil hb
      simp [intercalate_cons_cons, intercalate_singleton]
    | cons e2 es =>
      have := ih (by simp)
      simp only [List.cons_append] at this ⊢
      rw [intercalate_cons_cons, this, intercalate_cons_cons]
      simp

theorem cleanElems_append_rel (t : GoString) (ht : t ≠ []) (cs : List GoString)
    (hne : cs ≠ []) (hv : ∀ c ∈ cs, validName c = true) :
    cleanElems (t ++ Separator :: [Separator].intercalate cs) = cleanElems t ++ cs := by
  have hsep : ∀ c ∈ cs, Separator ∉ c := fun c hc => ((validName_iff c).1 (hv c hc)).2.1
  rw [cleanElems_def, isRooted_append t _ ht, pathElems_append, List.foldl_append,
    pathElems_intercalate cs hne hsep, foldl_cleanStep_valid _ _ hv, ← cleanElems_def]

theorem renderPath_append_ne_nil (rooted : Bool) (out cs : List GoString)
    (hout : ∀ e ∈ out, e ≠ [] ∧ Separator ∉ e) (hne : cs ≠ [])
    (hv : ∀ c ∈ cs, validName c = true) : renderPath rooted (out ++ cs) ≠ [] := by
  rcases List.eq_nil_or_concat cs with h | ⟨l, c, h⟩
  · exact absurd h hne
  · rw [List.concat_eq_append] at h
    subst h
    rw [← List.append_assoc]
    apply renderPath_snoc_ne_nil
    · intro e he
      rcases List.mem_append.1 he with he | he
      · exact hout e he
      · have := (validName_iff e).1 (hv e (List.mem_append_left _ he))
        exact ⟨this.1, this.2.1⟩
    · exact ((validName_iff c).1 (hv c (by simp))).1

/-- Cleaning a non-empty path extended by a relative path of valid names. -/
theorem Clean_append_rel (t : GoString) (ht : t ≠ []) (cs : List GoString)
    (hne : cs ≠ []) (hv : ∀ c ∈ cs, validName c = true) :
    Clean (t ++ Separator :: [Separator].intercalate cs) =
      renderPath (isRooted t) (cleanElems t ++ cs) := by
  have hp : t ++ Separator :: [Separator].intercalate cs ≠ [] := by simp
  unfold Clean
  rw [if_neg hp]
  simp only [isRooted_append t _ ht, cleanElems_append_rel t ht cs hne hv]
  rw [if_neg (renderPath_append_ne_nil _ _ _
    (cleanInv_elem_ne_nil _ _ (cleanElems_inv t)) hne hv)]

theorem filepathJoin_cons (t : GoString) (ht : t ≠ []) (cs : List GoString) (hne : cs ≠ []) :
    filepathJoin (t :: cs) = Clean (t ++ Separator :: [Separator].intercalate cs) := by
  obtain ⟨y, l, rfl⟩ := List.exists_cons_of_ne_nil hne
  simp [filepathJoin, List.dropWhile, ht, intercalate_cons_cons]

theorem intercalate_head_not_sep (cs : List GoString) (hne : cs ≠ [])
    (hv : ∀ c ∈ cs, validName c = true) :
    ∃ a rest, [Separator].intercalate cs = a :: rest ∧ a ≠ Separator := by
  obtain ⟨x, l, rfl⟩ := List.exists_cons_of_ne_nil hne
  have hx := (validName_iff x).1 (hv x (by simp))
  obtain ⟨a, x2, rfl⟩ := List.exists_cons_of_ne_nil hx.1
  have ha : a ≠ Separator := fun e => hx.2.1 (by simp [e])
  cases l with
  | nil => exact ⟨a, x2, by simp [intercalate_singleton], ha⟩
  | cons y l =>
    exact ⟨a, x2 ++ Separator :: [Separator].intercalate (y :: l),
      by simp [intercalate_cons_cons], ha⟩

theorem intercalate_not_dot_sep (cs : List GoString) (hne : cs ≠ [])
    (hv : ∀ c ∈ cs, validName c = true) :
    HasPrefix ([Separator].intercalate cs) (dot ++ [Separator]) = false := by
  obtain ⟨x, l, rfl⟩ := List.exists_cons_of_ne_nil hne
  have hx := (validName_iff x).1 (hv x (by simp))
  have hint : ∃ rest, [Separator].intercalate (x :: l) = x ++ rest := by
    cases l with
    | nil => exact ⟨[], by simp [intercalate_singleton]⟩
    | cons y l => exact ⟨_, by rw [intercalate_cons_cons, List.append_assoc]⟩
  obtain ⟨rest, hrest⟩ := hint
  rw [hrest]
  rcases x with _ | ⟨a, _ | ⟨b, x3⟩⟩
  · exact absurd rfl hx.1
  · have ha : a ≠ 46 := fun e => hx.2.2.1 (by simp [e, dot])
    simp [HasPrefix, dot, List.isPrefixOf, ha, Ne.symm ha]
  · have hb : b ≠ Separator := fun e => hx.2.1 (by simp [e])
    simp [HasPrefix, dot, List.isPrefixOf, Ne.symm hb]

theorem searchSelection_of (t p rel : GoString) (ht : t ≠ [])
    (h1 : TrimPrefix p (t ++ [Separator]) = rel) (h2 : HasSuffix rel (B ".gpg") = true)
    (h3 : Clean (t ++ Separator :: rel) = p) :
    searchSelection t (searchResult t p) = p := by
  simp only [searchSelection, searchResult, h1, h2, if_true, TrimSuffix_append _ _ h2]
  rw [filepathJoin_pair _ _ ht, ← h3]
  simp

theorem HasSuffix_cons (a : Nat) (s suffix : GoString) (h : HasSuffix s suffix = true) :
    HasSuffix (a :: s) suffix = true := by
  unfold HasSuffix at h ⊢
  rw [List.isSuffixOf_iff_suffix] at h ⊢
  exact List.suffix_cons_iff.2 (Or.inr h)

/-- For a root path in cleaned form, selecting the search result derived from the stored
path of a file below it opens that path. -/
theorem searchSelection_roundtrip (t : GoString) (hclean : Clean t = t)
    (cs : List GoString) (hne : cs ≠ []) (hv : ∀ c ∈ cs, validName c = true)
    (hgpg : HasSuffix ([Separator].intercalate cs) (B ".gpg") = true) :
    searchSelection t (searchResult t (filepathJoin (t :: cs))) = filepathJoin (t :: cs) := by
  have ht : t ≠ [] := by
    intro h
    rw [h] at hclean
    exact absurd hclean (by decide)
  have hjoin := filepathJoin_cons t ht cs hne
  have hP : filepathJoin (t :: cs) = renderPath (isRooted t) (cleanElems t ++ cs) := by
    rw [hjoin, Clean_append_rel t ht cs hne hv]
  have hshape : (if renderPath (isRooted t) (cleanElems t) = [] then dot
      else renderPath (isRooted t) (cleanElems t)) = t := by
    have := hclean
    unfold Clean at this
    rw [if_neg ht] at this
    exact this
  obtain ⟨a, rest, hr, ha⟩ := intercalate_head_not_sep cs hne hv
  cases hE : cleanElems t with
  | nil =>
    rw [hE] at hP hshape
    cases hR : isRooted t with
    | true =>
      rw [hR] at hP hshape
      have ht2 : t = [Separator] := by
        rw [← hshape]
        decide
      have hP2 : filepathJoin (t :: cs) = Separator :: [Separator].intercalate cs := by
        rw [hP]
        simp [renderPath]
      apply searchSelection_of t _ (filepathJoin (t :: cs)) ht
      · rw [hP2, ht2, hr]
        simp [TrimPrefix, HasPrefix, List.isPrefixOf, Ne.symm ha]
      · rw [hP2]
        exact HasSuffix_cons _ _ _ hgpg
      · rw [hP2, ht2]
        have := Clean_append_rel [Separator, Separator] (by simp) cs hne hv
        have h1 : isRooted [Separator, Separator] = true := by decide
        have h2 : cleanElems [Separator, Separator] = [] := by decide
        rw [h1, h2] at this
        simpa [renderPath] using this
    | false =>
      rw [hR] at hP hshape
      have ht2 : t = dot := by
        rw [← hshape]
        decide
      have hP2 : filepathJoin (t :: cs) = [Separator].intercalate cs := by
        rw [hP]
        simp [renderPath]
      apply searchSelection_of t _ ([Separator].intercalate cs) ht
      · rw [hP2, ht2]
        simp [TrimPrefix, intercalate_not_dot_sep cs hne hv]
      · exact hgpg
      · exact hjoin.symm
  | cons e es =>
    have hout := cleanInv_elem_ne_nil _ _ (cleanElems_inv t)
    have hrender : renderPath (isRooted t) (cleanElems t) ≠ [] := by
      rw [hE]
      unfold renderPath
      cases isRooted t with
      | true => simp
      | false =>
        simp only [Bool.false_eq_true, if_false, List.nil_append]
        exact intercalate_ne_nil e es (hout e (by rw [hE]; simp)).1
    rw [if_neg hrender] at hshape
    have hP2 : filepathJoin (t :: cs) = t ++ Separator :: [Separator].intercalate cs := by
      rw [hP]
      conv_rhs => rw [← hshape]
      rw [hE]
      unfold renderPath
      rw [intercalate_append (e :: es) cs (by simp) hne]
      simp
    apply searchSelection_of t _ ([Separator].intercalate cs) ht
    · rw [hP2]
      simp [TrimPrefix, HasPrefix]
    · exact hgpg
    · exact hjoin.symm

theorem HasSuffix_intercalate_snoc (comps : List GoString) (c : GoString)
    (h : HasSuffix c (B ".gpg") = true) :
    HasSuffix ([Separator].intercalate (comps ++ [c])) (B ".gpg") = true := by
  have hc : ∃ pre, [Separator].intercalate (comps ++ [c]) = pre ++ c := by
    cases comps with
    | nil => exact ⟨[], by simp [intercalate_singleton]⟩
    | cons x l => exact ⟨_, intercalate_append_singleton _ _ _ (by simp)⟩
  obtain ⟨pre, hpre⟩ := hc
  rw [hpre]
  unfold HasSuffix at h ⊢
  rw [List.isSuffixOf_iff_suffix] at h ⊢
  exact h.trans (List.suffix_append _ _)

/-- In a tree of valid names scanned from a root path in cleaned form, every stored path
is opened again by selecting the search result derived from it. -/
theorem searchSelection_clean_root (t : GoString) (hclean : Clean t = t)
    (es : List DirEntry) (sub : GoString → FS) (hv : validTree (.listing es sub) = true) :
    ∃ st, ScanPasswordStore t (.listing es sub) = .ok st ∧
      ∀ name p, st.AllPaths name = some p → searchSelection t (searchResult t p) = p := by
  obtain ⟨st, hst, -, -, -, -, -, hap⟩ := ScanPasswordStore_fields t es sub
  refine ⟨st, hst, ?_⟩
  intro name p hp
  rw [hap] at hp
  rcases applyWrites_AllPaths_some _ _ _ _ hp with h | h
  · simp [newStore, GoMap.empty] at h
  · obtain ⟨comps, es2, sub2, hk, hf, rfl⟩ := (mem_rootWrites_path _ _ _ _ _).1 h
    obtain ⟨e, he, -, hs, rfl⟩ := (mem_gpgNames _ _).1 hf
    have hd := keptAt_dirAt _ _ _ hk
    have hcomps := (validTree_dirAt _ _ _ hv hd).1
    have hname := validTree_entry _ _ _ _ hv hd e he
    have hall : ∀ c ∈ comps ++ [e.Name], validName c = true := by
      intro c hc
      rcases List.mem_append.1 hc with hc | hc
      · exact hcomps c hc
      · rw [List.mem_singleton.1 hc]; exact hname
    have hpath : filepathJoin [joinAll t comps, TrimSuffix e.Name (B ".gpg") ++ B ".gpg"] =
        filepathJoin (t :: (comps ++ [e.Name])) := by
      rw [TrimSuffix_append _ _ hs, ← joinAll_eq_filepathJoin t _ (by simp) hall]
      simp [joinAll, List.foldl_append]
    rw [hpath]
    exact searchSelection_roundtrip t hclean _ (by simp) hall
      (HasSuffix_intercalate_snoc comps e.Name hs)

end GoGpgViewer
